import Mathlib

/-!
# ScientificCalculator: expression parser and postfix evaluator

A shallow embedding of `ExpressionParser.cpp`, `ExpressionEvaluator.cpp` and
`Calculator.cpp`.

* `std::string` is a Lean `String`, read through its character list; a `Char`
  stands for one C++ `char`, classified as in the "C" locale.
* `std::vector<Token>` is a `List` (push_back appends at the end);
  `std::stack` is a `List` whose head is the top.
* A thrown exception is `Except.error`; the exception class is the constructor.
* `double` and the `<cmath>` functions are not interpreted: every definition
  takes a `FloatOps V` record that supplies them, so each theorem holds for
  whatever the floating-point library does.
* Index loops recurse on their variant `size - index`; the main scanning loop,
  whose index advances by a variable amount, takes explicit fuel
  `size + 1`.
-/

namespace sci_calc

/-! ## Data model -/

/-- Failure of a call. `InvalidInput` and `MathDomain` are the two exception
classes of `Exceptions.h`. `OutOfRange` is the `std::out_of_range` that
`unordered_map::at` throws on a missing key. `FuelExhausted` belongs to the
model only: the scanning loop ran out of fuel. -/
inductive CalcError where
  | InvalidInput (message : String)
  | MathDomain (message : String)
  | OutOfRange
  | FuelExhausted
  deriving DecidableEq, Repr

/-- The enum `TokenType` of `ExpressionParser.h`. -/
inductive TokenType where
  | Number
  | Operator
  | Function
  | OpenParen
  | CloseParen
  | Constant
  deriving DecidableEq, Repr

/-- The struct `Token`; `V` is the type standing for `double`. -/
structure Token (V : Type) where
  type : TokenType
  text : String
  value : V
  deriving DecidableEq, Repr

/-- The struct `OperatorInfo`. -/
structure OperatorInfo where
  precedence : Int
  rightAssociative : Bool
  arity : Int
  deriving DecidableEq, Repr

/-- The floating-point library the program is linked against: `std::stod`
(`none` when it throws), the `double` literals that occur in the source, the
arithmetic and comparison operators on `double`, and the `<cmath>` functions. -/
structure FloatOps (V : Type) where
  stod : String → Option V
  zero : V
  one : V
  minusOne : V
  epsilon : V
  pi : V
  e : V
  add : V → V → V
  sub : V → V → V
  mul : V → V → V
  div : V → V → V
  fmod : V → V → V
  pow : V → V → V
  neg : V → V
  abs : V → V
  lt : V → V → Bool
  le : V → V → Bool
  eq : V → V → Bool
  isnan : V → Bool
  isinf : V → Bool
  sin : V → V
  cos : V → V
  tan : V → V
  asin : V → V
  acos : V → V
  atan : V → V
  log10 : V → V
  log : V → V
  sqrt : V → V
  exp : V → V

deriving instance DecidableEq for Except

/-! ## Character classes and string helpers -/

/-- The character `expression[i]`; every read in the source is guarded by a
bounds test, so the default is never observed. -/
def charAt (expression : String) (i : Nat) : Char :=
  expression.data.getD i (Char.ofNat 0)

/-- The call `expression.size()`. -/
def size (expression : String) : Nat :=
  expression.data.length

/-- The call `expression.substr(start, count)`. -/
def substr (expression : String) (start count : Nat) : String :=
  String.mk ((expression.data.drop start).take count)

/-- `std::isspace` in the "C" locale: space, \t, \n, \v, \f, \r. -/
def isspace (ch : Char) : Bool :=
  ch = ' ' || ch = '\t' || ch = '\n' || ch = Char.ofNat 11 || ch = Char.ofNat 12 || ch = '\r'

/-- `std::isdigit`. -/
def isdigit (ch : Char) : Bool :=
  ch.isDigit

/-- `std::isalpha` in the "C" locale. -/
def isalpha (ch : Char) : Bool :=
  ch.isAlpha

/-- The anonymous-namespace helper `toLower`. -/
def toLower (text : String) : String :=
  String.mk (text.data.map Char.toLower)

/-- `ExpressionParser::isIdentifierChar`. -/
def isIdentifierChar (ch : Char) : Bool :=
  isalpha ch || ch = '_'

/-! ## Tables built by the constructor -/

/-- The map `operators_` filled in by `ExpressionParser::ExpressionParser`. -/
def operators_ : List (String × OperatorInfo) :=
  [("+", ⟨2, false, 2⟩), ("-", ⟨2, false, 2⟩), ("*", ⟨3, false, 2⟩),
   ("/", ⟨3, false, 2⟩), ("%", ⟨3, false, 2⟩), ("^", ⟨4, true, 2⟩),
   ("neg", ⟨5, true, 1⟩)]

/-- The map `constants_` filled in by the constructor. -/
def constants_ {V : Type} (F : FloatOps V) : List (String × V) :=
  [("pi", F.pi), ("e", F.e)]

/-- The static map `functions` of `parseIdentifier` (its keys). -/
def functions : List String :=
  ["sin", "cos", "tan", "asin", "acos", "atan", "log", "ln", "sqrt", "exp", "abs"]

/-! ## ExpressionParser -/

/-- The loop `while (index < size && isdigit(expression[index])) ++index`,
by recursion on `n = size - index`. -/
def skipDigits (expression : String) : Nat → Nat → Nat
  | 0, index => index
  | n + 1, index =>
    if index < size expression ∧ isdigit (charAt expression index) then
      skipDigits expression n (index + 1)
    else index

/-- The exponent branch of `parseNumber` (lines 158-171), entered with `index`
at the letter `e` or `E` and `index + 1 < size`. -/
def scanExponent (expression : String) (index : Nat) : Except CalcError Nat :=
  let expIndex :=
    if charAt expression (index + 1) = '+' ∨ charAt expression (index + 1) = '-' then
      index + 1 + 1
    else index + 1
  if expIndex ≥ size expression ∨ isdigit (charAt expression expIndex) = false then
    .error (.InvalidInput "Malformed exponent in number literal")
  else
    .ok (skipDigits expression (size expression - (expIndex + 1)) (expIndex + 1))

/-- The scanning loop of `parseNumber` (lines 146-174), by recursion on
`n = size - index`; returns the index one past the literal. -/
def scanNumber (expression : String) : Nat → Nat → Bool → Except CalcError Nat
  | 0, index, _ => .ok index
  | n + 1, index, hasDecimalPoint =>
    if index < size expression then
      if isdigit (charAt expression index) then
        scanNumber expression n (index + 1) hasDecimalPoint
      else if charAt expression index = '.' ∧ hasDecimalPoint = false then
        scanNumber expression n (index + 1) true
      else if (charAt expression index = 'e' ∨ charAt expression index = 'E') ∧
          index + 1 < size expression then
        scanExponent expression index
      else .ok index
    else .ok index

/-- `ExpressionParser::parseNumber`; returns the token and the updated index. -/
def parseNumber {V : Type} (F : FloatOps V) (expression : String) (index : Nat) :
    Except CalcError (Token V × Nat) :=
  let start := index
  match scanNumber expression (size expression - index) index false with
  | .error err => .error err
  | .ok index =>
    let literal := substr expression start (index - start)
    match F.stod literal with
    | some value => .ok (⟨.Number, literal, value⟩, index)
    | none => .error (.InvalidInput ("Unable to parse number literal: " ++ literal))

/-- The loop of `parseIdentifier` (lines 187-191), by recursion on
`n = size - index`. -/
def scanIdentifier (expression : String) : Nat → Nat → Nat
  | 0, index => index
  | n + 1, index =>
    if index < size expression ∧
        (isIdentifierChar (charAt expression index) ∨ isdigit (charAt expression index)) then
      scanIdentifier expression n (index + 1)
    else index

/-- `ExpressionParser::parseIdentifier`; returns the token and the updated
index. -/
def parseIdentifier {V : Type} (F : FloatOps V) (expression : String) (index : Nat) :
    Except CalcError (Token V × Nat) :=
  let start := index
  let index := scanIdentifier expression (size expression - index) index
  let identifier := substr expression start (index - start)
  let lower := toLower identifier
  match (constants_ F).lookup lower with
  | some value => .ok (⟨.Constant, lower, value⟩, index)
  | none =>
    if functions.contains lower then .ok (⟨.Function, lower, F.zero⟩, index)
    else .error (.InvalidInput ("Unknown identifier: " ++ identifier))

/-- The backwards loop of `isUnaryOperator` (lines 218-226): the final value of
`prevIndex`, by recursion on `prevIndex`. -/
def skipSpacesBack (expression : String) : Nat → Nat
  | 0 => 0
  | p + 1 => if isspace (charAt expression p) then skipSpacesBack expression p else p + 1

/-- `ExpressionParser::isUnaryOperator`. -/
def isUnaryOperator {V : Type} (expression : String) (index : Nat)
    (output : List (Token V)) : Bool :=
  if index = 0 then true
  else
    let prevIndex := skipSpacesBack expression index
    if prevIndex = 0 then true
    else
      let prevChar := charAt expression (prevIndex - 1)
      if prevChar = '(' ∨ prevChar = ',' ∨
          (operators_.lookup (String.singleton prevChar)).isSome then true
      else
        match output.getLast? with
        | some lastToken => if lastToken.type = .Operator then true else false
        | none => false

/-- `ExpressionParser::parseOperator`; returns the token and the updated
index. -/
def parseOperator {V : Type} (F : FloatOps V) (expression : String) (index : Nat)
    (output : List (Token V)) : Except CalcError (Token V × Nat) :=
  let ch := charAt expression index
  let op := String.singleton ch
  if (ch = '+' ∨ ch = '-') ∧ isUnaryOperator expression index output = true then
    .ok (⟨.Operator, if ch = '-' then "neg" else "+", F.zero⟩, index + 1)
  else if (operators_.lookup op).isNone then
    .error (.InvalidInput ("Unsupported operator: " ++ op))
  else .ok (⟨.Operator, op, F.zero⟩, index + 1)

/-- The loop of the `)` branch (lines 79-87): pops and emits down to the first
OpenParen marker, which is discarded; `none` when the stack empties first. -/
def popToOpenParen {V : Type} : List (Token V) → List (Token V) →
    Option (List (Token V) × List (Token V))
  | _, [] => none
  | output, top :: rest =>
    if top.type = .OpenParen then some (output, rest)
    else popToOpenParen (output ++ [top]) rest

/-- The reduction loop (lines 103-121) run before `opToken` is pushed; returns
the output and the stack. Both `operators_.at` lookups are made as in the
source, the one for `opToken` first. -/
def reduceOperators {V : Type} (opToken : Token V) : List (Token V) → List (Token V) →
    Except CalcError (List (Token V) × List (Token V))
  | output, [] => .ok (output, [])
  | output, top :: rest =>
    if top.type ≠ .Operator then .ok (output, top :: rest)
    else
      match operators_.lookup opToken.text with
      | none => .error .OutOfRange
      | some currentInfo =>
        match operators_.lookup top.text with
        | none => .error .OutOfRange
        | some topInfo =>
          let shouldPop :=
            (!currentInfo.rightAssociative &&
              decide (currentInfo.precedence ≤ topInfo.precedence)) ||
            (currentInfo.rightAssociative &&
              decide (currentInfo.precedence < topInfo.precedence))
          if shouldPop = false then .ok (output, top :: rest)
          else reduceOperators opToken (output ++ [top]) rest

/-- The final loop of `parseToPostfix` (lines 126-133). -/
def drain {V : Type} : List (Token V) → List (Token V) → Except CalcError (List (Token V))
  | output, [] => .ok output
  | output, top :: rest =>
    if top.type = .OpenParen ∨ top.type = .CloseParen then
      .error (.InvalidInput "Unmatched \x27(\x27 in expression")
    else drain (output ++ [top]) rest

/-- One iteration of the main loop of `parseToPostfix` (lines 41-123), entered
with `i < size`; returns the new index, output and stack. -/
def parseStep {V : Type} (F : FloatOps V) (expression : String) (i : Nat)
    (output stack : List (Token V)) :
    Except CalcError (Nat × List (Token V) × List (Token V)) :=
  let ch := charAt expression i
  if isspace ch then .ok (i + 1, output, stack)
  else if isdigit ch ∨
      (ch = '.' ∧ i + 1 < size expression ∧ isdigit (charAt expression (i + 1))) then
    match parseNumber F expression i with
    | .error err => .error err
    | .ok (number, i') => .ok (i', output ++ [number], stack)
  else if isIdentifierChar ch then
    match parseIdentifier F expression i with
    | .error err => .error err
    | .ok (identifier, i') =>
      if identifier.type = .Constant then .ok (i', output ++ [identifier], stack)
      else .ok (i', output, identifier :: stack)
  else if ch = ',' then
    .error (.InvalidInput
      "Unexpected \x27,\x27 in expression: multiple arguments not supported")
  else if ch = '(' then
    .ok (i + 1, output, ⟨.OpenParen, "(", F.zero⟩ :: stack)
  else if ch = ')' then
    match popToOpenParen output stack with
    | none => .error (.InvalidInput "Unmatched \x27)\x27 in expression")
    | some (output, []) => .ok (i + 1, output, [])
    | some (output, top :: rest) =>
      if top.type = .Function then .ok (i + 1, output ++ [top], rest)
      else .ok (i + 1, output, top :: rest)
  else
    match parseOperator F expression i output with
    | .error err => .error err
    | .ok (opToken, i') =>
      match reduceOperators opToken output stack with
      | .error err => .error err
      | .ok (output, stack) => .ok (i', output, opToken :: stack)

/-- The main loop of `parseToPostfix` followed by the final drain. -/
def parseLoop {V : Type} (F : FloatOps V) (expression : String) :
    Nat → Nat → List (Token V) → List (Token V) → Except CalcError (List (Token V))
  | 0, _, _, _ => .error .FuelExhausted
  | fuel + 1, i, output, stack =>
    if i < size expression then
      match parseStep F expression i output stack with
      | .error err => .error err
      | .ok (i', output, stack) => parseLoop F expression fuel i' output stack
    else drain output stack

/-- `ExpressionParser::parseToPostfix`. -/
def parseToPostfix {V : Type} (F : FloatOps V) (expression : String) :
    Except CalcError (List (Token V)) :=
  parseLoop F expression (size expression + 1) 0 [] []

/-! ## ExpressionEvaluator -/

/-- `ExpressionEvaluator::applyOperator`. -/
def applyOperator {V : Type} (F : FloatOps V) (op : String) (a b : V) : Except CalcError V :=
  if op = "+" then .ok (F.add a b)
  else if op = "-" then .ok (F.sub a b)
  else if op = "*" then .ok (F.mul a b)
  else if op = "/" then
    if F.lt (F.abs b) F.epsilon then .error (.MathDomain "Division by zero")
    else .ok (F.div a b)
  else if op = "%" then
    if F.lt (F.abs b) F.epsilon then .error (.MathDomain "Modulo by zero")
    else .ok (F.fmod a b)
  else if op = "^" then
    if F.lt a F.zero ∧ F.eq (F.fmod b F.one) F.zero = false then
      .error (.MathDomain "Cannot raise negative number to non-integer power")
    else
      let result := F.pow a b
      if F.isnan result ∨ F.isinf result then
        .error (.MathDomain "Power operation resulted in invalid value")
      else .ok result
  else .error (.InvalidInput ("Unknown operator: " ++ op))

/-- `ExpressionEvaluator::applyUnaryOperator`. -/
def applyUnaryOperator {V : Type} (F : FloatOps V) (op : String) (a : V) : Except CalcError V :=
  if op = "neg" then .ok (F.neg a)
  else if op = "pos" then .ok a
  else .error (.InvalidInput ("Unknown unary operator: " ++ op))

/-- `ExpressionEvaluator::applyFunction`. -/
def applyFunction {V : Type} (F : FloatOps V) (func : String) (arg : V) : Except CalcError V :=
  if func = "sin" then .ok (F.sin arg)
  else if func = "cos" then .ok (F.cos arg)
  else if func = "tan" then
    let result := F.tan arg
    if F.isinf result ∨ F.isnan result then
      .error (.MathDomain "Tangent is undefined for the given angle")
    else .ok result
  else if func = "asin" then
    if F.lt arg F.minusOne ∨ F.lt F.one arg then
      .error (.MathDomain "Arcsin argument must be in range [-1, 1]")
    else .ok (F.asin arg)
  else if func = "acos" then
    if F.lt arg F.minusOne ∨ F.lt F.one arg then
      .error (.MathDomain "Arccos argument must be in range [-1, 1]")
    else .ok (F.acos arg)
  else if func = "atan" then .ok (F.atan arg)
  else if func = "log" then
    if F.le arg F.zero then .error (.MathDomain "Logarithm argument must be positive")
    else .ok (F.log10 arg)
  else if func = "ln" then
    if F.le arg F.zero then
      .error (.MathDomain "Natural logarithm argument must be positive")
    else .ok (F.log arg)
  else if func = "sqrt" then
    if F.lt arg F.zero then
      .error (.MathDomain "Square root of negative number is not a real number")
    else .ok (F.sqrt arg)
  else if func = "exp" then
    let result := F.exp arg
    if F.isinf result then .error (.MathDomain "Exponential overflow")
    else .ok result
  else if func = "abs" then .ok (F.abs arg)
  else .error (.InvalidInput ("Unknown function: " ++ func))

/-- The `for` loop of `ExpressionEvaluator::evaluate` (lines 12-54), started
on a given value stack; returns the stack left after the last token. -/
def evalTokens {V : Type} (F : FloatOps V) : List (Token V) → List V → Except CalcError (List V)
  | [], stack => .ok stack
  | token :: tokens, stack =>
    match token.type with
    | .Number | .Constant => evalTokens F tokens (token.value :: stack)
    | .Operator =>
      match stack with
      | [] => .error (.InvalidInput ("Insufficient operands for operator: " ++ token.text))
      | a :: rest =>
        if token.text = "neg" ∨ token.text = "pos" then
          match applyUnaryOperator F token.text a with
          | .error err => .error err
          | .ok r => evalTokens F tokens (r :: rest)
        else
          match stack with
          | b :: a :: rest =>
            match applyOperator F token.text a b with
            | .error err => .error err
            | .ok r => evalTokens F tokens (r :: rest)
          | _ =>
            .error (.InvalidInput
              ("Insufficient operands for binary operator: " ++ token.text))
    | .Function =>
      match stack with
      | [] => .error (.InvalidInput ("Insufficient operands for function: " ++ token.text))
      | arg :: rest =>
        match applyFunction F token.text arg with
        | .error err => .error err
        | .ok r => evalTokens F tokens (r :: rest)
    | _ => .error (.InvalidInput "Unexpected token type in postfix expression")

/-- `ExpressionEvaluator::evaluate`. -/
def evaluate {V : Type} (F : FloatOps V) (postfixTokens : List (Token V)) : Except CalcError V :=
  match evalTokens F postfixTokens [] with
  | .error err => .error err
  | .ok [top] => .ok top
  | .ok stack =>
    .error (.InvalidInput
      ("Invalid expression: stack contains " ++ toString stack.length ++ " values"))

/-! ## Calculator -/

/-- `Calculator::calculate`. -/
def calculate {V : Type} (F : FloatOps V) (expression : String) : Except CalcError V :=
  if size expression = 0 then .error (.InvalidInput "Empty expression")
  else
    match parseToPostfix F expression with
    | .error err => .error err
    | .ok postfixTokens => evaluate F postfixTokens

/-! ## An exact-arithmetic instance of the floating-point record

Used to run the definitions on concrete expressions. Numbers are rationals;
literals are read exactly; the four arithmetic operations, `fmod`, negation,
absolute value, comparisons and integer powers are exact. The transcendental
functions have no rational value and are left as the zero function: no
theorem below depends on what they return. -/

namespace Exact

/-- Value of a run of decimal digits, most significant first. -/
def digitsValue (digits : List Char) : Nat :=
  digits.foldl (fun acc ch => 10 * acc + (ch.toNat - 48)) 0

/-- Value of an optional exponent suffix: `none` when it is malformed. -/
def exponentValue : List Char → Option Int
  | [] => some 0
  | ch :: rest =>
    if ch = 'e' ∨ ch = 'E' then
      match rest with
      | '-' :: digits =>
        if digits ≠ [] ∧ digits.all Char.isDigit then some (-(digitsValue digits : Int)) else none
      | '+' :: digits =>
        if digits ≠ [] ∧ digits.all Char.isDigit then some (digitsValue digits : Int) else none
      | digits =>
        if digits ≠ [] ∧ digits.all Char.isDigit then some (digitsValue digits : Int) else none
    else none

/-- Exact value of a decimal literal `digits [. digits] [e [sign] digits]`. -/
def decimalValue (literal : String) : Option ℚ :=
  let whole := literal.data.takeWhile Char.isDigit
  let afterWhole := literal.data.dropWhile Char.isDigit
  let fraction := match afterWhole with
    | '.' :: rest => rest.takeWhile Char.isDigit
    | _ => []
  let afterFraction := match afterWhole with
    | '.' :: rest => rest.dropWhile Char.isDigit
    | other => other
  if whole = [] ∧ fraction = [] then none
  else
    match exponentValue afterFraction with
    | none => none
    | some exponent =>
      let mantissa := digitsValue (whole ++ fraction)
      let shift : Int := exponent - fraction.length
      if shift ≥ 0 then some (mkRat (mantissa * 10 ^ shift.toNat) 1)
      else some (mkRat mantissa (10 ^ (-shift).toNat))

/-- The remainder of `a / b` with the sign of `a`, as `std::fmod` defines it. -/
def fmod (a b : ℚ) : ℚ :=
  a - b * (Int.tdiv (a / b).num (a / b).den : Int)

/-- Powers with an integer exponent; other exponents are not interpreted. -/
def pow (a b : ℚ) : ℚ :=
  if b.den = 1 then a ^ b.num else 0

/-- The exact-arithmetic record. -/
def ops : FloatOps ℚ where
  stod := decimalValue
  zero := 0
  one := 1
  minusOne := -1
  epsilon := mkRat 1 (10 ^ 10)
  pi := mkRat 314159265358979323846 (10 ^ 20)
  e := mkRat 271828182845904523536 (10 ^ 20)
  add := fun a b => a + b
  sub := fun a b => a - b
  mul := fun a b => a * b
  div := fun a b => a / b
  fmod := fmod
  pow := pow
  neg := fun a => -a
  abs := fun a => |a|
  lt := fun a b => decide (a < b)
  le := fun a b => decide (a ≤ b)
  eq := fun a b => decide (a = b)
  isnan := fun _ => false
  isinf := fun _ => false
  sin := fun _ => 0
  cos := fun _ => 0
  tan := fun _ => 0
  asin := fun _ => 0
  acos := fun _ => 0
  atan := fun _ => 0
  log10 := fun _ => 0
  log := fun _ => 0
  sqrt := fun _ => 0
  exp := fun _ => 0

end Exact


/-! ## Notions used to state the properties -/

/-- The six binary operator symbols. -/
def binarySymbols : List Char := ['+', '-', '*', '/', '%', '^']

/-- One or more digits and nothing else. -/
def isDigits1 (cs : List Char) : Bool :=
  !cs.isEmpty && cs.all isdigit

/-- What may follow the letter of an exponent suffix: an optional sign, then
one or more digits. -/
def isExponentTail : List Char → Bool
  | [] => false
  | c :: rest => if c = '+' ∨ c = '-' then isDigits1 rest else isDigits1 (c :: rest)

/-- The rest of a numeric literal: digits, at most one decimal point (`dot`
tells whether one was seen already), then an optional exponent suffix. -/
def isLiteralTail : Bool → List Char → Bool
  | _, [] => true
  | dot, c :: rest =>
    if isdigit c then isLiteralTail dot rest
    else if c = '.' then !dot && isLiteralTail true rest
    else if c = 'e' ∨ c = 'E' then isExponentTail rest
    else false

/-- A numeric literal: it begins at a digit, or at a point immediately followed
by a digit, and consists of digits, at most one decimal point and an optional
exponent suffix (`e` or `E`, optional sign, one or more digits). -/
def isNumericLiteral (a : String) : Bool :=
  match a.data with
  | [] => false
  | c :: rest =>
    (isdigit c || (c = '.' && match rest with
      | d :: _ => isdigit d
      | [] => false)) && isLiteralTail false (c :: rest)

/-- The text after a numeric literal does not continue it: it is empty or
starts with a character other than a digit, a point, `e` and `E`. -/
def numberStop : List Char → Bool
  | [] => true
  | c :: _ => !isdigit c && c != '.' && c != 'e' && c != 'E'

/-- Only whitespace characters. -/
def isBlank (w : String) : Bool :=
  w.data.all isspace

/-- The nearest non-whitespace character before the end of `pre`. -/
def lastNonSpace (pre : List Char) : Option Char :=
  pre.reverse.find? (fun c => !isspace c)

/-- The Number token of a literal. -/
def numberToken {V : Type} (a : String) (value : V) : Token V := ⟨.Number, a, value⟩

/-- The Operator token of a symbol or of `neg`. -/
def operatorToken {V : Type} (F : FloatOps V) (text : String) : Token V :=
  ⟨.Operator, text, F.zero⟩

/-- The Function token of a name. -/
def functionToken {V : Type} (F : FloatOps V) (name : String) : Token V :=
  ⟨.Function, name, F.zero⟩

/-- The token pushed for `(`. -/
def openParenToken {V : Type} (F : FloatOps V) : Token V := ⟨.OpenParen, "(", F.zero⟩

/-- The decision of `isUnaryOperator`, from the nearest non-whitespace
character before the sign and the output so far. -/
def unaryContext {V : Type} (prev : Option Char) (output : List (Token V)) : Bool :=
  match prev with
  | none => true
  | some p =>
    p = '(' || p = ',' || decide (p ∈ binarySymbols) ||
      (match output.getLast? with
       | some lastToken => decide (lastToken.type = .Operator)
       | none => false)

/-- The scan started at index `i` with the given output and stack ends with the
token sequence `r`. -/
def Scan {V : Type} (F : FloatOps V) (expression : String) (i : Nat)
    (output stack : List (Token V)) (r : List (Token V)) : Prop :=
  ∃ fuel, parseLoop F expression fuel i output stack = .ok r

/-- The text of the Operator token that `parseOperator` builds for the symbol
`c`, given the outcome of the unary test. -/
def operatorText (c : Char) (unary : Bool) : String :=
  if (c = '+' ∨ c = '-') ∧ unary = true then (if c = '-' then "neg" else "+")
  else String.singleton c

/-- The precedence that `operators_` gives an operator symbol. -/
def precedence (c : Char) : Int :=
  match operators_.lookup (String.singleton c) with
  | some info => info.precedence
  | none => 0

/-- Whether `operators_` marks an operator symbol right-associative. -/
def rightAssociative (c : Char) : Bool :=
  match operators_.lookup (String.singleton c) with
  | some info => info.rightAssociative
  | none => false

/-- The first of two consecutive binary operators is resolved first: its
precedence is higher, or the precedences are equal and the second operator is
left-associative. -/
def resolvedFirst (op1 op2 : Char) : Bool :=
  decide (precedence op1 > precedence op2) ||
    (decide (precedence op1 = precedence op2) && !rightAssociative op2)

/-- The characters a numeric literal is made of. -/
def isNumberChar (c : Char) : Bool :=
  isdigit c || c = '.' || c = 'e' || c = 'E' || c = '+' || c = '-'

/-- The number of occurrences of `c` among the first `k` characters. -/
def countBefore (expression : String) (c : Char) (k : Nat) : Nat :=
  (expression.data.take k).count c

/-- The number of OpenParen markers on the stack. -/
def openMarkers {V : Type} (stack : List (Token V)) : Nat :=
  stack.countP (fun t => decide (t.type = .OpenParen))

/-- The states the main loop of `parseToPostfix` passes through: index, output
and stack at the head of an iteration. -/
inductive ScanReaches {V : Type} (F : FloatOps V) (expression : String) :
    Nat → List (Token V) → List (Token V) → Prop where
  | start : ScanReaches F expression 0 [] []
  | step {i i' : Nat} {output stack output' stack' : List (Token V)} :
      ScanReaches F expression i output stack → i < size expression →
      parseStep F expression i output stack = .ok (i', output', stack') →
      ScanReaches F expression i' output' stack'

/-- The maximal run of letters, digits and underscores that starts at index
`i`. -/
def identifierRun (expression : String) (i : Nat) : List Char :=
  (expression.data.drop i).takeWhile (fun c => isIdentifierChar c || isdigit c)

/-- Neither a parenthesis nor a comma. -/
def isPlain (c : Char) : Prop := c ≠ '(' ∧ c ≠ ')' ∧ c ≠ ','

/-- The invariant of the main loop on parentheses: the markers on the stack
are the `(` read so far that no `)` has closed, and no shorter stretch of the
input had more `)` than `(`. -/
def Balanced {V : Type} (e : String) (i : Nat) (stack : List (Token V)) : Prop :=
  openMarkers stack + countBefore e ')' i = countBefore e '(' i ∧
    ∀ k, k ≤ i → countBefore e ')' k ≤ countBefore e '(' k

/-- The lowercased name is one of the two constants or one of the eleven
functions. -/
def isKnownIdentifier (lower : String) : Bool :=
  lower = "pi" || lower = "e" || functions.contains lower

/-- A token the evaluator can dispatch on: a Number, a Constant, an Operator
whose text is a key of `operators_`, or a Function whose text is in
`functions`. -/
def isWellTyped {V : Type} (t : Token V) : Bool :=
  match t.type with
  | .Number => true
  | .Constant => true
  | .Operator => (operators_.lookup t.text).isSome
  | .Function => functions.contains t.text
  | _ => false

/-- The depth of the value stack after a token sequence, started at depth `d`:
a Number or Constant adds one value, `neg` and a Function need one value and
leave the depth alone, any other Operator needs two values and removes one;
`none` when a token finds too few values. -/
def depthAfter {V : Type} : List (Token V) → Nat → Option Nat
  | [], d => some d
  | t :: ts, d =>
    match t.type with
    | .Number => depthAfter ts (d + 1)
    | .Constant => depthAfter ts (d + 1)
    | .Operator =>
      if t.text = "neg" then (if 1 ≤ d then depthAfter ts d else none)
      else (if 2 ≤ d then depthAfter ts (d - 1) else none)
    | .Function => if 1 ≤ d then depthAfter ts d else none
    | _ => none

/-- The messages of the four defensive errors of the evaluator. -/
def isDefensiveMessage (message : String) : Prop :=
  message = "Unexpected token type in postfix expression" ∨
    (∃ text, message = "Unknown operator: " ++ text) ∨
    (∃ text, message = "Unknown unary operator: " ++ text) ∨
    (∃ text, message = "Unknown function: " ++ text)

/-- The messages of the structural errors of the evaluator: too few operands
for a token, or a final stack that does not hold exactly one value. -/
def isStructuralMessage (message : String) : Prop :=
  (∃ text, message = "Insufficient operands for operator: " ++ text) ∨
    (∃ text, message = "Insufficient operands for binary operator: " ++ text) ∨
    (∃ text, message = "Insufficient operands for function: " ++ text) ∨
    (∃ n : Nat, message = "Invalid expression: stack contains " ++ toString n ++ " values")

/-- Every Operator token on the stack has an entry in `operators_`. -/
def StackValid {V : Type} (stack : List (Token V)) : Prop :=
  ∀ t ∈ stack, t.type = .Operator → (operators_.lookup t.text).isSome = true

/-- What may lie on the operator stack: tokens the evaluator can dispatch on,
and OpenParen markers. -/
def StackTyped {V : Type} (stack : List (Token V)) : Prop :=
  ∀ t ∈ stack, isWellTyped t = true ∨ t.type = .OpenParen

/-! ## The stack calls made explicit

`std::stack::top` and `pop` are undefined on an empty stack. The definitions
below repeat the loops that use them with every call made through `stackTop`
and `stackPop`, so that a call on an empty stack shows as `none`. -/

/-- `std::stack::top`; `none` on an empty stack. -/
def stackTop {α : Type} : List α → Option α
  | [] => none
  | top :: _ => some top

/-- `std::stack::pop`; `none` on an empty stack. -/
def stackPop {α : Type} : List α → Option (List α)
  | [] => none
  | _ :: rest => some rest

/-- The loop of the `)` branch (lines 79-87) with explicit stack calls, run for
at most `n` iterations. The outer `none` is a call on an empty stack (or the
end of `n`); the inner `none` is `foundOpenParen = false`. -/
def popToOpenParenChecked {V : Type} : Nat → List (Token V) → List (Token V) →
    Option (Option (List (Token V) × List (Token V)))
  | n, output, stack =>
    if stack.isEmpty then some none
    else
      match n with
      | 0 => none
      | n + 1 =>
        match stackTop stack, stackPop stack with
        | some top, some rest =>
          if top.type = .OpenParen then some (some (output, rest))
          else popToOpenParenChecked n (output ++ [top]) rest
        | _, _ => none

/-- Lines 93-96 of the `)` branch with explicit stack calls: a Function on top
of the stack is moved to the output. -/
def moveFunctionChecked {V : Type} (output stack : List (Token V)) :
    Option (List (Token V) × List (Token V)) :=
  if stack.isEmpty then some (output, stack)
  else
    match stackTop stack with
    | none => none
    | some top =>
      if top.type = .Function then
        match stackPop stack with
        | none => none
        | some rest => some (output ++ [top], rest)
      else some (output, stack)

/-- The reduction loop (lines 103-121) with explicit stack calls, run for at
most `n` iterations; `none` is a call on an empty stack (or the end of `n`). -/
def reduceOperatorsChecked {V : Type} (opToken : Token V) : Nat → List (Token V) →
    List (Token V) → Option (Except CalcError (List (Token V) × List (Token V)))
  | n, output, stack =>
    if stack.isEmpty then some (.ok (output, stack))
    else
      match n with
      | 0 => none
      | n + 1 =>
        match stackTop stack with
        | none => none
        | some top =>
          if top.type ≠ .Operator then some (.ok (output, stack))
          else
            match operators_.lookup opToken.text with
            | none => some (.error .OutOfRange)
            | some currentInfo =>
              match operators_.lookup top.text with
              | none => some (.error .OutOfRange)
              | some topInfo =>
                let shouldPop :=
                  (!currentInfo.rightAssociative &&
                    decide (currentInfo.precedence ≤ topInfo.precedence)) ||
                  (currentInfo.rightAssociative &&
                    decide (currentInfo.precedence < topInfo.precedence))
                if shouldPop = false then some (.ok (output, stack))
                else
                  match stackPop stack with
                  | none => none
                  | some rest => reduceOperatorsChecked opToken n (output ++ [top]) rest

/-- The final loop of `parseToPostfix` (lines 126-133) with explicit stack
calls, run for at most `n` iterations. -/
def drainChecked {V : Type} : Nat → List (Token V) → List (Token V) →
    Option (Except CalcError (List (Token V)))
  | n, output, stack =>
    if stack.isEmpty then some (.ok output)
    else
      match n with
      | 0 => none
      | n + 1 =>
        match stackTop stack, stackPop stack with
        | some top, some rest =>
          if top.type = .OpenParen ∨ top.type = .CloseParen then
            some (.error (.InvalidInput "Unmatched \x27(\x27 in expression"))
          else drainChecked n (output ++ [top]) rest
        | _, _ => none

/-- The `for` loop of `ExpressionEvaluator::evaluate` with explicit stack
calls and the size tests of the source; `none` is a call on an empty stack. -/
def evalTokensChecked {V : Type} (F : FloatOps V) :
    List (Token V) → List V → Option (Except CalcError (List V))
  | [], stack => some (.ok stack)
  | token :: tokens, stack =>
    match token.type with
    | .Number | .Constant => evalTokensChecked F tokens (token.value :: stack)
    | .Operator =>
      if stack.length < 1 then
        some (.error (.InvalidInput ("Insufficient operands for operator: " ++ token.text)))
      else if token.text = "neg" ∨ token.text = "pos" then
        match stackTop stack, stackPop stack with
        | some a, some rest =>
          match applyUnaryOperator F token.text a with
          | .error err => some (.error err)
          | .ok r => evalTokensChecked F tokens (r :: rest)
        | _, _ => none
      else if stack.length < 2 then
        some (.error (.InvalidInput
          ("Insufficient operands for binary operator: " ++ token.text)))
      else
        match stackTop stack, stackPop stack with
        | some b, some rest =>
          match stackTop rest, stackPop rest with
          | some a, some rest =>
            match applyOperator F token.text a b with
            | .error err => some (.error err)
            | .ok r => evalTokensChecked F tokens (r :: rest)
          | _, _ => none
        | _, _ => none
    | .Function =>
      if stack.isEmpty then
        some (.error (.InvalidInput ("Insufficient operands for function: " ++ token.text)))
      else
        match stackTop stack, stackPop stack with
        | some arg, some rest =>
          match applyFunction F token.text arg with
          | .error err => some (.error err)
          | .ok r => evalTokensChecked F tokens (r :: rest)
        | _, _ => none
    | _ => some (.error (.InvalidInput "Unexpected token type in postfix expression"))

/-- `ExpressionEvaluator::evaluate` with explicit stack calls. -/
def evaluateChecked {V : Type} (F : FloatOps V) (postfixTokens : List (Token V)) :
    Option (Except CalcError V) :=
  match evalTokensChecked F postfixTokens [] with
  | none => none
  | some (.error err) => some (.error err)
  | some (.ok stack) =>
    if stack.length ≠ 1 then
      some (.error (.InvalidInput
        ("Invalid expression: stack contains " ++ toString stack.length ++ " values")))
    else
      match stackTop stack with
      | none => none
      | some top => some (.ok top)

/-! ## Letter case -/

/-- The letters that `std::tolower` changes in the "C" locale. -/
def upperLetters : List Char :=
  ['A', 'B', 'C', 'D', 'E', 'F', 'G', 'H', 'I', 'J', 'K', 'L', 'M', 'N', 'O', 'P', 'Q', 'R',
   'S', 'T', 'U', 'V', 'W', 'X', 'Y', 'Z']

/-- A token with the text of a Number lowercased: a literal is copied from the
input as it stands, so its text follows the case of the input. -/
def lowerLiteral {V : Type} (t : Token V) : Token V :=
  if t.type = .Number then ⟨.Number, toLower t.text, t.value⟩ else t

/-- The digits that follow the decimal point, in the exact reader of
literals: `afterWhole` is the text after the leading digits. -/
def fractionDigits (afterWhole : List Char) : List Char :=
  match afterWhole with
  | '.' :: rest => rest.takeWhile Char.isDigit
  | _ => []

/-- The text after the fraction, in the exact reader of literals. -/
def afterFraction (afterWhole : List Char) : List Char :=
  match afterWhole with
  | '.' :: rest => rest.dropWhile Char.isDigit
  | other => other

/-- The message of the first MathDomain failure met when the tokens are applied
in order to a value stack, as the depth rule does: `none` when every operator
and function applied before the end of the sequence, or before the first token
that finds too few values, returns a value. -/
def domainFailure {V : Type} (F : FloatOps V) : List (Token V) → List V → Option String
  | [], _ => none
  | t :: ts, stack =>
    match t.type with
    | .Number => domainFailure F ts (t.value :: stack)
    | .Constant => domainFailure F ts (t.value :: stack)
    | .Operator =>
      if t.text = "neg" then
        match stack with
        | a :: rest => domainFailure F ts (F.neg a :: rest)
        | [] => none
      else
        match stack with
        | b :: a :: rest =>
          match applyOperator F t.text a b with
          | .ok r => domainFailure F ts (r :: rest)
          | .error (.MathDomain message) => some message
          | .error _ => none
        | _ => none
    | .Function =>
      match stack with
      | x :: rest =>
        match applyFunction F t.text x with
        | .ok r => domainFailure F ts (r :: rest)
        | .error (.MathDomain message) => some message
        | .error _ => none
      | [] => none
    | _ => none

/-! ## Basic facts about the scanning loops -/

theorem skipDigits_ge (expression : String) (n index : Nat) :
    index ≤ skipDigits expression n index := by
  induction n generalizing index with
  | zero => simp [skipDigits]
  | succ n ih =>
    simp only [skipDigits]
    split
    · exact Nat.le_trans (Nat.le_succ _) (ih _)
    · exact Nat.le_refl _

theorem scanNumber_succ (expression : String) (n index : Nat) (dot : Bool) :
    scanNumber expression (n + 1) index dot =
      if index < size expression then
        if isdigit (charAt expression index) then scanNumber expression n (index + 1) dot
        else if charAt expression index = '.' ∧ dot = false then
          scanNumber expression n (index + 1) true
        else if (charAt expression index = 'e' ∨ charAt expression index = 'E') ∧
            index + 1 < size expression then scanExponent expression index
        else .ok index
      else .ok index := rfl

/-- The two shapes of `scanExponent`, by the index at which the exponent
digits must start. -/
theorem scanExponent_eq (expression : String) (index : Nat) :
    ∃ x, (x = index + 1 ∨ (x = index + 2 ∧
        (charAt expression (index + 1) = '+' ∨ charAt expression (index + 1) = '-'))) ∧
      scanExponent expression index =
        if x ≥ size expression ∨ isdigit (charAt expression x) = false then
          .error (.InvalidInput "Malformed exponent in number literal")
        else .ok (skipDigits expression (size expression - (x + 1)) (x + 1)) := by
  unfold scanExponent
  by_cases hs : charAt expression (index + 1) = '+' ∨ charAt expression (index + 1) = '-'
  · exact ⟨index + 2, Or.inr ⟨rfl, hs⟩, by simp only [if_pos hs]⟩
  · exact ⟨index + 1, Or.inl rfl, by simp only [if_neg hs]⟩

theorem scanExponent_ge (expression : String) (index r : Nat)
    (h : scanExponent expression index = .ok r) : index + 2 ≤ r := by
  obtain ⟨x, hx, hx2⟩ := scanExponent_eq expression index
  rw [hx2] at h
  split at h
  · cases h
  · cases h
    have := skipDigits_ge expression (size expression - (x + 1)) (x + 1)
    omega

theorem scanNumber_ge (expression : String) (n index : Nat) (dot : Bool) (r : Nat)
    (h : scanNumber expression n index dot = .ok r) : index ≤ r := by
  induction n generalizing index dot with
  | zero => simp [scanNumber] at h; omega
  | succ n ih =>
    rw [scanNumber_succ] at h
    split at h
    · split at h
      · have := ih _ _ h; omega
      · split at h
        · have := ih _ _ h; omega
        · split at h
          · have := scanExponent_ge _ _ _ h; omega
          · simp at h; omega
    · simp at h; omega

/-- A scan that starts on a digit, or on a point with no point seen yet,
consumes at least that character. -/
theorem scanNumber_gt (expression : String) (index r : Nat)
    (hlt : index < size expression)
    (hc : isdigit (charAt expression index) = true ∨ charAt expression index = '.')
    (h : scanNumber expression (size expression - index) index false = .ok r) :
    index < r := by
  obtain ⟨n, hn⟩ : ∃ n, size expression - index = n + 1 := ⟨size expression - index - 1, by omega⟩
  rw [hn, scanNumber_succ, if_pos hlt] at h
  by_cases hd : isdigit (charAt expression index) = true
  · rw [if_pos hd] at h
    have := scanNumber_ge _ _ _ _ _ h; omega
  · rw [if_neg hd] at h
    have hp : charAt expression index = '.' := hc.resolve_left hd
    rw [if_pos ⟨hp, rfl⟩] at h
    have := scanNumber_ge _ _ _ _ _ h; omega

theorem scanIdentifier_ge (expression : String) (n index : Nat) :
    index ≤ scanIdentifier expression n index := by
  induction n generalizing index with
  | zero => simp [scanIdentifier]
  | succ n ih =>
    simp only [scanIdentifier]
    split
    · exact Nat.le_trans (Nat.le_succ _) (ih _)
    · exact Nat.le_refl _

theorem scanIdentifier_gt (expression : String) (index : Nat)
    (hlt : index < size expression)
    (hc : isIdentifierChar (charAt expression index) = true) :
    index < scanIdentifier expression (size expression - index) index := by
  obtain ⟨n, hn⟩ : ∃ n, size expression - index = n + 1 := ⟨size expression - index - 1, by omega⟩
  rw [hn]
  simp only [scanIdentifier]
  rw [if_pos ⟨hlt, Or.inl hc⟩]
  exact scanIdentifier_ge _ _ _

/-! ## What the token readers return -/

theorem parseNumber_ok {V : Type} (F : FloatOps V) (expression : String) (index : Nat)
    (number : Token V) (i' : Nat)
    (h : parseNumber F expression index = .ok (number, i')) :
    scanNumber expression (size expression - index) index false = .ok i' ∧
      ∃ value, F.stod (substr expression index (i' - index)) = some value ∧
        number = ⟨.Number, substr expression index (i' - index), value⟩ := by
  unfold parseNumber at h
  cases hs : scanNumber expression (size expression - index) index false with
  | error err => rw [hs] at h; cases h
  | ok r =>
    rw [hs] at h
    simp only at h
    cases hv : F.stod (substr expression index (r - index)) with
    | none => rw [hv] at h; cases h
    | some value =>
      rw [hv] at h
      simp only [Except.ok.injEq, Prod.mk.injEq] at h
      obtain ⟨h1, h2⟩ := h
      subst h2
      exact ⟨rfl, value, hv, h1.symm⟩

theorem parseNumber_error {V : Type} (F : FloatOps V) (expression : String) (index : Nat)
    (err : CalcError) (h : parseNumber F expression index = .error err) :
    ∃ message, err = .InvalidInput message := by
  unfold parseNumber at h
  cases hs : scanNumber expression (size expression - index) index false with
  | error err2 =>
    rw [hs] at h
    simp only [Except.error.injEq] at h
    subst h
    -- the only error of the scan is the malformed exponent
    have key : ∀ n i dot, scanNumber expression n i dot = .error err2 →
        ∃ message, err2 = .InvalidInput message := by
      intro n
      induction n with
      | zero => intro i dot h0; simp [scanNumber] at h0
      | succ n ih =>
        intro i dot h0
        rw [scanNumber_succ] at h0
        split at h0
        · split at h0
          · exact ih _ _ h0
          · split at h0
            · exact ih _ _ h0
            · split at h0
              · obtain ⟨x, _, hx2⟩ := scanExponent_eq expression i
                rw [hx2] at h0
                split at h0
                · cases h0; exact ⟨_, rfl⟩
                · cases h0
              · cases h0
        · cases h0
    exact key _ _ _ hs
  | ok r =>
    rw [hs] at h
    simp only at h
    cases hv : F.stod (substr expression index (r - index)) with
    | none => rw [hv] at h; cases h; exact ⟨_, rfl⟩
    | some value => rw [hv] at h; cases h

theorem parseIdentifier_ok {V : Type} (F : FloatOps V) (expression : String) (index : Nat)
    (identifier : Token V) (i' : Nat)
    (h : parseIdentifier F expression index = .ok (identifier, i')) :
    i' = scanIdentifier expression (size expression - index) index ∧
      (identifier.type = .Constant ∨ identifier.type = .Function) := by
  unfold parseIdentifier at h
  simp only at h
  split at h
  · simp only [Except.ok.injEq, Prod.mk.injEq] at h
    exact ⟨h.2.symm, Or.inl (by rw [← h.1])⟩
  · split at h
    · simp only [Except.ok.injEq, Prod.mk.injEq] at h
      exact ⟨h.2.symm, Or.inr (by rw [← h.1])⟩
    · cases h

theorem parseIdentifier_error {V : Type} (F : FloatOps V) (expression : String) (index : Nat)
    (err : CalcError) (h : parseIdentifier F expression index = .error err) :
    ∃ message, err = .InvalidInput message := by
  unfold parseIdentifier at h
  simp only at h
  split at h
  · cases h
  · split at h
    · cases h
    · cases h; exact ⟨_, rfl⟩

theorem parseOperator_ok {V : Type} (F : FloatOps V) (expression : String) (index : Nat)
    (output : List (Token V)) (opToken : Token V) (i' : Nat)
    (h : parseOperator F expression index output = .ok (opToken, i')) :
    i' = index + 1 ∧ opToken.type = .Operator ∧ opToken.value = F.zero ∧
      (operators_.lookup opToken.text).isSome = true ∧
      (operators_.lookup (String.singleton (charAt expression index))).isSome = true := by
  unfold parseOperator at h
  simp only at h
  split at h
  · rename_i hc
    simp only [Except.ok.injEq, Prod.mk.injEq] at h
    obtain ⟨h1, h2⟩ := h
    subst h1 h2
    rcases hc.1 with hp | hm
    · rw [hp]; exact ⟨rfl, rfl, rfl, by simp only [Char.reduceEq, if_false]; decide, by decide⟩
    · rw [hm]; exact ⟨rfl, rfl, rfl, by simp only [if_true]; decide, by decide⟩
  · split at h
    · cases h
    · rename_i hn
      simp only [Except.ok.injEq, Prod.mk.injEq] at h
      obtain ⟨h1, h2⟩ := h
      subst h1 h2
      have : (operators_.lookup (String.singleton (charAt expression index))).isSome = true := by
        cases hl : operators_.lookup (String.singleton (charAt expression index)) with
        | none => rw [hl] at hn; simp at hn
        | some _ => rfl
      exact ⟨rfl, rfl, rfl, this, this⟩

theorem parseOperator_error {V : Type} (F : FloatOps V) (expression : String) (index : Nat)
    (output : List (Token V)) (err : CalcError)
    (h : parseOperator F expression index output = .error err) :
    ∃ message, err = .InvalidInput message := by
  unfold parseOperator at h
  simp only at h
  split at h
  · cases h
  · split at h
    · cases h; exact ⟨_, rfl⟩
    · cases h

/-! ## One iteration of the main loop, by cases -/

/-- Every successful iteration of the main loop is one of six kinds. -/
theorem parseStep_cases {V : Type} (F : FloatOps V) (expression : String) (i : Nat)
    (output stack : List (Token V)) (i' : Nat) (output' stack' : List (Token V))
    (h : parseStep F expression i output stack = .ok (i', output', stack')) :
    (isspace (charAt expression i) = true ∧ i' = i + 1 ∧ output' = output ∧ stack' = stack) ∨
    ((isdigit (charAt expression i) = true ∨ (charAt expression i = '.' ∧
        i + 1 < size expression ∧ isdigit (charAt expression (i + 1)) = true)) ∧
      ∃ number, parseNumber F expression i = .ok (number, i') ∧
        output' = output ++ [number] ∧ stack' = stack) ∨
    (isIdentifierChar (charAt expression i) = true ∧
      ∃ identifier, parseIdentifier F expression i = .ok (identifier, i') ∧
        ((identifier.type = .Constant ∧ output' = output ++ [identifier] ∧ stack' = stack) ∨
         (identifier.type = .Function ∧ output' = output ∧ stack' = identifier :: stack))) ∨
    (charAt expression i = '(' ∧ i' = i + 1 ∧ output' = output ∧
      stack' = openParenToken F :: stack) ∨
    (charAt expression i = ')' ∧ i' = i + 1 ∧
      ∃ o s, popToOpenParen output stack = some (o, s) ∧
        ((∃ top rest, s = top :: rest ∧ top.type = .Function ∧
            output' = o ++ [top] ∧ stack' = rest) ∨
         ((∀ top rest, s = top :: rest → top.type ≠ .Function) ∧ output' = o ∧ stack' = s))) ∨
    (isspace (charAt expression i) = false ∧ charAt expression i ≠ '(' ∧
      charAt expression i ≠ ')' ∧ charAt expression i ≠ ',' ∧
      ∃ opToken o s, parseOperator F expression i output = .ok (opToken, i') ∧
        reduceOperators opToken output stack = .ok (o, s) ∧
        output' = o ∧ stack' = opToken :: s) := by
  unfold parseStep at h
  simp only at h
  by_cases hsp : isspace (charAt expression i) = true
  · rw [if_pos hsp] at h
    simp only [Except.ok.injEq, Prod.mk.injEq] at h
    exact Or.inl ⟨hsp, h.1.symm, h.2.1.symm, h.2.2.symm⟩
  rw [if_neg hsp] at h
  by_cases hnum : isdigit (charAt expression i) = true ∨ (charAt expression i = '.' ∧
        i + 1 < size expression ∧ isdigit (charAt expression (i + 1)) = true)
  · rw [if_pos hnum] at h
    cases hp : parseNumber F expression i with
    | error err => rw [hp] at h; cases h
    | ok res =>
      obtain ⟨number, j⟩ := res
      rw [hp] at h
      simp only [Except.ok.injEq, Prod.mk.injEq] at h
      obtain ⟨h1, h2, h3⟩ := h
      subst h1
      exact Or.inr (Or.inl ⟨hnum, number, rfl, h2.symm, h3.symm⟩)
  rw [if_neg hnum] at h
  by_cases hid : isIdentifierChar (charAt expression i) = true
  · rw [if_pos hid] at h
    cases hp : parseIdentifier F expression i with
    | error err => rw [hp] at h; cases h
    | ok res =>
      obtain ⟨identifier, j⟩ := res
      rw [hp] at h
      simp only at h
      have hty := (parseIdentifier_ok F expression i identifier j hp).2
      by_cases hc : identifier.type = .Constant
      · rw [if_pos hc] at h
        simp only [Except.ok.injEq, Prod.mk.injEq] at h
        obtain ⟨h1, h2, h3⟩ := h
        subst h1
        exact Or.inr (Or.inr (Or.inl ⟨hid, identifier, rfl, Or.inl ⟨hc, h2.symm, h3.symm⟩⟩))
      · rw [if_neg hc] at h
        simp only [Except.ok.injEq, Prod.mk.injEq] at h
        obtain ⟨h1, h2, h3⟩ := h
        subst h1
        exact Or.inr (Or.inr (Or.inl ⟨hid, identifier, rfl,
          Or.inr ⟨hty.resolve_left hc, h2.symm, h3.symm⟩⟩))
  rw [if_neg hid] at h
  by_cases hcomma : charAt expression i = ','
  · rw [if_pos hcomma] at h; cases h
  rw [if_neg hcomma] at h
  by_cases hopen : charAt expression i = '('
  · rw [if_pos hopen] at h
    simp only [Except.ok.injEq, Prod.mk.injEq] at h
    exact Or.inr (Or.inr (Or.inr (Or.inl ⟨hopen, h.1.symm, h.2.1.symm, h.2.2.symm⟩)))
  rw [if_neg hopen] at h
  by_cases hclose : charAt expression i = ')'
  · rw [if_pos hclose] at h
    refine Or.inr (Or.inr (Or.inr (Or.inr (Or.inl ⟨hclose, ?_⟩))))
    cases hp : popToOpenParen output stack with
    | none => rw [hp] at h; cases h
    | some res =>
      obtain ⟨o, s⟩ := res
      rw [hp] at h
      cases s with
      | nil =>
        simp only [Except.ok.injEq, Prod.mk.injEq] at h
        exact ⟨h.1.symm, o, [], rfl, Or.inr ⟨(by intro _ _ hh; cases hh), h.2.1.symm, h.2.2.symm⟩⟩
      | cons top rest =>
        simp only at h
        by_cases hf : top.type = .Function
        · rw [if_pos hf] at h
          simp only [Except.ok.injEq, Prod.mk.injEq] at h
          exact ⟨h.1.symm, o, top :: rest, rfl,
            Or.inl ⟨top, rest, rfl, hf, h.2.1.symm, h.2.2.symm⟩⟩
        · rw [if_neg hf] at h
          simp only [Except.ok.injEq, Prod.mk.injEq] at h
          refine ⟨h.1.symm, o, top :: rest, rfl, Or.inr ⟨?_, h.2.1.symm, h.2.2.symm⟩⟩
          intro t r hh
          cases hh
          exact hf
  rw [if_neg hclose] at h
  refine Or.inr (Or.inr (Or.inr (Or.inr (Or.inr
    ⟨by simpa using hsp, hopen, hclose, hcomma, ?_⟩))))
  cases hp : parseOperator F expression i output with
  | error err => rw [hp] at h; cases h
  | ok res =>
    obtain ⟨opToken, j⟩ := res
    rw [hp] at h
    simp only at h
    cases hr : reduceOperators opToken output stack with
    | error err => rw [hr] at h; cases h
    | ok res2 =>
      obtain ⟨o, s⟩ := res2
      rw [hr] at h
      simp only [Except.ok.injEq, Prod.mk.injEq] at h
      obtain ⟨h1, h2, h3⟩ := h
      subst h1
      exact ⟨opToken, o, s, rfl, hr, h2.symm, h3.symm⟩

/-! ## The stack loops -/

theorem popToOpenParen_some {V : Type} (output stack o s : List (Token V))
    (h : popToOpenParen output stack = some (o, s)) :
    ∃ popped marker, stack = popped ++ marker :: s ∧ marker.type = .OpenParen ∧
      o = output ++ popped ∧ ∀ t ∈ popped, t.type ≠ .OpenParen := by
  induction stack generalizing output with
  | nil => simp [popToOpenParen] at h
  | cons top rest ih =>
    simp only [popToOpenParen] at h
    by_cases ht : top.type = .OpenParen
    · rw [if_pos ht] at h
      simp only [Option.some.injEq, Prod.mk.injEq] at h
      obtain ⟨h1, h2⟩ := h
      subst h1 h2
      exact ⟨[], top, rfl, ht, by simp, by simp⟩
    · rw [if_neg ht] at h
      obtain ⟨popped, marker, h1, h2, h3, h4⟩ := ih _ h
      refine ⟨top :: popped, marker, by rw [h1]; rfl, h2, by rw [h3]; simp, ?_⟩
      intro t hmem
      rcases List.mem_cons.1 hmem with rfl | hmem
      · exact ht
      · exact h4 t hmem

theorem popToOpenParen_none {V : Type} (output stack : List (Token V))
    (h : popToOpenParen output stack = none) : ∀ t ∈ stack, t.type ≠ .OpenParen := by
  induction stack generalizing output with
  | nil => simp
  | cons top rest ih =>
    simp only [popToOpenParen] at h
    by_cases ht : top.type = .OpenParen
    · rw [if_pos ht] at h; cases h
    · rw [if_neg ht] at h
      intro t hmem
      rcases List.mem_cons.1 hmem with rfl | hmem
      · exact ht
      · exact ih _ h t hmem

/-- The stack loop of the `)` branch finds the topmost marker. -/
theorem popToOpenParen_append {V : Type} (output popped rest : List (Token V))
    (marker : Token V) (hm : marker.type = .OpenParen)
    (hp : ∀ t ∈ popped, t.type ≠ .OpenParen) :
    popToOpenParen output (popped ++ marker :: rest) = some (output ++ popped, rest) := by
  induction popped generalizing output with
  | nil => simp [popToOpenParen, hm]
  | cons top more ih =>
    have ht : top.type ≠ .OpenParen := hp top (List.mem_cons_self _ _)
    have := ih (output ++ [top]) (fun t hmem => hp t (List.mem_cons_of_mem _ hmem))
    rw [List.cons_append, popToOpenParen, if_neg ht, this]
    simp

theorem reduceOperators_ok {V : Type} (opToken : Token V) (output stack o s : List (Token V))
    (h : reduceOperators opToken output stack = .ok (o, s)) :
    ∃ popped, stack = popped ++ s ∧ o = output ++ popped ∧
      ∀ t ∈ popped, t.type = .Operator := by
  induction stack generalizing output with
  | nil =>
    simp only [reduceOperators, Except.ok.injEq, Prod.mk.injEq] at h
    exact ⟨[], by simp [h.2], by simp [h.1], by simp⟩
  | cons top rest ih =>
    simp only [reduceOperators] at h
    by_cases ht : top.type ≠ .Operator
    · rw [if_pos ht] at h
      simp only [Except.ok.injEq, Prod.mk.injEq] at h
      exact ⟨[], by simp [h.2], by simp [h.1], by simp⟩
    · rw [if_neg ht] at h
      cases hc : operators_.lookup opToken.text with
      | none => rw [hc] at h; cases h
      | some currentInfo =>
        rw [hc] at h
        simp only at h
        cases hti : operators_.lookup top.text with
        | none => rw [hti] at h; cases h
        | some topInfo =>
          rw [hti] at h
          simp only at h
          split at h
          · simp only [Except.ok.injEq, Prod.mk.injEq] at h
            exact ⟨[], by simp [h.2], by simp [h.1], by simp⟩
          · obtain ⟨popped, h1, h2, h3⟩ := ih _ h
            refine ⟨top :: popped, by rw [h1]; rfl, by rw [h2]; simp, ?_⟩
            intro t hmem
            rcases List.mem_cons.1 hmem with rfl | hmem
            · exact not_not.1 ht
            · exact h3 t hmem

theorem reduceOperators_error {V : Type} (opToken : Token V) (output stack : List (Token V))
    (err : CalcError) (hop : (operators_.lookup opToken.text).isSome = true)
    (hst : StackValid stack) (h : reduceOperators opToken output stack = .error err) :
    False := by
  induction stack generalizing output with
  | nil => simp [reduceOperators] at h
  | cons top rest ih =>
    simp only [reduceOperators] at h
    by_cases ht : top.type ≠ .Operator
    · rw [if_pos ht] at h; cases h
    · rw [if_neg ht] at h
      cases hc : operators_.lookup opToken.text with
      | none => rw [hc] at hop; cases hop
      | some currentInfo =>
        rw [hc] at h
        simp only at h
        cases hti : operators_.lookup top.text with
        | none =>
          have := hst top (List.mem_cons_self _ _) (not_not.1 ht)
          rw [hti] at this; cases this
        | some topInfo =>
          rw [hti] at h
          simp only at h
          split at h
          · cases h
          · exact ih _ (fun t hmem => hst t (List.mem_cons_of_mem _ hmem)) h

theorem drain_ok {V : Type} (output stack : List (Token V))
    (hs : ∀ t ∈ stack, t.type ≠ .OpenParen ∧ t.type ≠ .CloseParen) :
    drain output stack = .ok (output ++ stack) := by
  induction stack generalizing output with
  | nil => simp [drain]
  | cons top rest ih =>
    have ht := hs top (List.mem_cons_self _ _)
    simp only [drain]
    rw [if_neg (by simp [ht.1, ht.2])]
    rw [ih _ (fun t hmem => hs t (List.mem_cons_of_mem _ hmem))]
    simp

theorem drain_ok_inv {V : Type} (output stack r : List (Token V))
    (h : drain output stack = .ok r) :
    r = output ++ stack ∧ ∀ t ∈ stack, t.type ≠ .OpenParen ∧ t.type ≠ .CloseParen := by
  induction stack generalizing output with
  | nil => simp only [drain, Except.ok.injEq] at h; simp [h]
  | cons top rest ih =>
    simp only [drain] at h
    by_cases ht : top.type = .OpenParen ∨ top.type = .CloseParen
    · rw [if_pos ht] at h; cases h
    · rw [if_neg ht] at h
      obtain ⟨h1, h2⟩ := ih _ h
      refine ⟨by rw [h1]; simp, ?_⟩
      intro t hmem
      rcases List.mem_cons.1 hmem with rfl | hmem
      · exact ⟨fun hh => ht (Or.inl hh), fun hh => ht (Or.inr hh)⟩
      · exact h2 t hmem

theorem drain_error {V : Type} (output stack : List (Token V)) (err : CalcError)
    (h : drain output stack = .error err) : ∃ message, err = .InvalidInput message := by
  induction stack generalizing output with
  | nil => simp [drain] at h
  | cons top rest ih =>
    simp only [drain] at h
    split at h
    · cases h; exact ⟨_, rfl⟩
    · exact ih _ h

/-! ## Progress, validity and the failures of one iteration -/

theorem parseStep_progress {V : Type} (F : FloatOps V) (expression : String) (i : Nat)
    (output stack : List (Token V)) (i' : Nat) (output' stack' : List (Token V))
    (hlt : i < size expression)
    (h : parseStep F expression i output stack = .ok (i', output', stack')) : i < i' := by
  rcases parseStep_cases F expression i output stack i' output' stack' h with
    ⟨_, h1, _⟩ | ⟨hc, number, hp, _⟩ | ⟨hc, identifier, hp, _⟩ | ⟨_, h1, _⟩ | ⟨_, h1, _⟩ |
    ⟨_, _, _, _, opToken, o, s, hp, _⟩
  · omega
  · have hs := (parseNumber_ok F expression i number i' hp).1
    refine scanNumber_gt expression i i' hlt ?_ hs
    rcases hc with hd | ⟨hd, _⟩
    · exact Or.inl hd
    · exact Or.inr hd
  · rw [(parseIdentifier_ok F expression i identifier i' hp).1]
    exact scanIdentifier_gt expression i hlt hc
  · omega
  · omega
  · have := (parseOperator_ok F expression i output opToken i' hp).1; omega

theorem parseStep_valid {V : Type} (F : FloatOps V) (expression : String) (i : Nat)
    (output stack : List (Token V)) (i' : Nat) (output' stack' : List (Token V))
    (hst : StackValid stack)
    (h : parseStep F expression i output stack = .ok (i', output', stack')) :
    StackValid stack' := by
  rcases parseStep_cases F expression i output stack i' output' stack' h with
    ⟨_, _, _, h3⟩ | ⟨_, number, _, _, h3⟩ | ⟨_, identifier, hp, hh⟩ | ⟨_, _, _, h3⟩ |
    ⟨_, _, o, s, hp, hh⟩ | ⟨_, _, _, _, opToken, o, s, hp, hr, _, h3⟩
  · rw [h3]; exact hst
  · rw [h3]; exact hst
  · rcases hh with ⟨_, _, h3⟩ | ⟨hf, _, h3⟩
    · rw [h3]; exact hst
    · rw [h3]
      intro t hmem hop
      rcases List.mem_cons.1 hmem with rfl | hmem
      · rw [hf] at hop; cases hop
      · exact hst t hmem hop
  · rw [h3]
    intro t hmem hop
    rcases List.mem_cons.1 hmem with rfl | hmem
    · cases hop
    · exact hst t hmem hop
  · obtain ⟨popped, marker, h1, _, _, _⟩ := popToOpenParen_some output stack o s hp
    have hs : StackValid s := by
      intro t hmem hop
      exact hst t (by rw [h1]; simp [hmem]) hop
    rcases hh with ⟨top, rest, hs2, _, _, h3⟩ | ⟨_, _, h3⟩
    · rw [h3]
      intro t hmem hop
      exact hs t (by rw [hs2]; exact List.mem_cons_of_mem _ hmem) hop
    · rw [h3]; exact hs
  · obtain ⟨popped, h1, _, _⟩ := reduceOperators_ok opToken output stack o s hr
    rw [h3]
    intro t hmem hop
    rcases List.mem_cons.1 hmem with rfl | hmem
    · exact (parseOperator_ok F expression i output t i' hp).2.2.2.1
    · exact hst t (by rw [h1]; simp [hmem]) hop

theorem parseStep_error {V : Type} (F : FloatOps V) (expression : String) (i : Nat)
    (output stack : List (Token V)) (err : CalcError) (hst : StackValid stack)
    (h : parseStep F expression i output stack = .error err) :
    ∃ message, err = .InvalidInput message := by
  unfold parseStep at h
  simp only at h
  split at h
  · cases h
  split at h
  · cases hp : parseNumber F expression i with
    | error e2 => rw [hp] at h; cases h; exact parseNumber_error F expression i _ hp
    | ok res => rw [hp] at h; cases h
  split at h
  · cases hp : parseIdentifier F expression i with
    | error e2 => rw [hp] at h; cases h; exact parseIdentifier_error F expression i _ hp
    | ok res =>
      rw [hp] at h
      simp only at h
      split at h <;> cases h
  split at h
  · cases h; exact ⟨_, rfl⟩
  split at h
  · cases h
  split at h
  · cases hp : popToOpenParen output stack with
    | none => rw [hp] at h; cases h; exact ⟨_, rfl⟩
    | some res =>
      obtain ⟨o, s⟩ := res
      rw [hp] at h
      cases s with
      | nil => cases h
      | cons top rest =>
        simp only at h
        split at h <;> cases h
  · cases hp : parseOperator F expression i output with
    | error e2 => rw [hp] at h; cases h; exact parseOperator_error F expression i output _ hp
    | ok res =>
      obtain ⟨opToken, j⟩ := res
      rw [hp] at h
      simp only at h
      cases hr : reduceOperators opToken output stack with
      | error e2 =>
        exact (reduceOperators_error opToken output stack e2
          (parseOperator_ok F expression i output opToken j hp).2.2.2.1 hst hr).elim
      | ok res2 => rw [hr] at h; cases h

/-! ## The main loop and its fuel -/

theorem parseLoop_succ {V : Type} (F : FloatOps V) (expression : String) (fuel i : Nat)
    (output stack : List (Token V)) :
    parseLoop F expression (fuel + 1) i output stack =
      if i < size expression then
        match parseStep F expression i output stack with
        | .error err => .error err
        | .ok (i', output, stack) => parseLoop F expression fuel i' output stack
      else drain output stack := rfl

/-- At the end of the input the loop drains the stack. -/
theorem parseLoop_end {V : Type} (F : FloatOps V) (expression : String) (fuel i : Nat)
    (output stack : List (Token V)) (h : size expression ≤ i) :
    parseLoop F expression (fuel + 1) i output stack = drain output stack := by
  rw [parseLoop_succ, if_neg (by omega)]

/-- One successful iteration. -/
theorem parseLoop_step {V : Type} (F : FloatOps V) (expression : String) (fuel i : Nat)
    (output stack : List (Token V)) (i' : Nat) (output' stack' : List (Token V))
    (hlt : i < size expression)
    (h : parseStep F expression i output stack = .ok (i', output', stack')) :
    parseLoop F expression (fuel + 1) i output stack =
      parseLoop F expression fuel i' output' stack' := by
  rw [parseLoop_succ, if_pos hlt, h]

/-- One failing iteration. -/
theorem parseLoop_step_error {V : Type} (F : FloatOps V) (expression : String) (fuel i : Nat)
    (output stack : List (Token V)) (err : CalcError)
    (hlt : i < size expression)
    (h : parseStep F expression i output stack = .error err) :
    parseLoop F expression (fuel + 1) i output stack = .error err := by
  rw [parseLoop_succ, if_pos hlt, h]

/-- More fuel does not change a result that is not fuel exhaustion. -/
theorem parseLoop_mono {V : Type} (F : FloatOps V) (expression : String) (fuel k i : Nat)
    (output stack : List (Token V)) (x : Except CalcError (List (Token V)))
    (h : parseLoop F expression fuel i output stack = x) (hx : x ≠ .error .FuelExhausted) :
    parseLoop F expression (fuel + k) i output stack = x := by
  induction fuel generalizing i output stack with
  | zero => simp only [parseLoop] at h; exact (hx h.symm).elim
  | succ fuel ih =>
    rw [show fuel + 1 + k = (fuel + k) + 1 by omega, parseLoop_succ]
    rw [parseLoop_succ] at h
    by_cases hlt : i < size expression
    · rw [if_pos hlt] at h ⊢
      cases hp : parseStep F expression i output stack with
      | error err => rw [hp] at h; exact h
      | ok res =>
        obtain ⟨i', o', s'⟩ := res
        rw [hp] at h
        exact ih _ _ _ h
    · rw [if_neg hlt] at h ⊢
      exact h

/-- With positive fuel of at least `size + 1 - i` the loop never runs out of fuel, and on a valid
stack its only failure is InvalidInput. -/
theorem parseLoop_error {V : Type} (F : FloatOps V) (expression : String) (fuel i : Nat)
    (output stack : List (Token V)) (err : CalcError)
    (hpos : 0 < fuel) (hfuel : size expression + 1 ≤ fuel + i) (hst : StackValid stack)
    (h : parseLoop F expression fuel i output stack = .error err) :
    ∃ message, err = .InvalidInput message := by
  induction fuel generalizing i output stack with
  | zero => omega
  | succ fuel ih =>
    rw [parseLoop_succ] at h
    by_cases hlt : i < size expression
    · rw [if_pos hlt] at h
      cases hp : parseStep F expression i output stack with
      | error e2 =>
        rw [hp] at h
        cases h
        exact parseStep_error F expression i output stack _ hst hp
      | ok res =>
        obtain ⟨i', o', s'⟩ := res
        rw [hp] at h
        have hprog := parseStep_progress F expression i output stack i' o' s' hlt hp
        exact ih i' o' s' (by omega) (by omega)
          (parseStep_valid F expression i output stack i' o' s' hst hp) h
    · rw [if_neg hlt] at h
      exact drain_error output stack err h

theorem stackValid_nil {V : Type} : StackValid ([] : List (Token V)) := by
  intro t hmem; cases hmem

/-- `parseToPostfix` either returns tokens or fails with InvalidInput. -/
theorem parseToPostfix_error {V : Type} (F : FloatOps V) (expression : String)
    (err : CalcError) (h : parseToPostfix F expression = .error err) :
    ∃ message, err = .InvalidInput message :=
  parseLoop_error F expression _ 0 [] [] err (by omega) (by omega) stackValid_nil h

/-- A result reached with any amount of fuel is the result of
`parseToPostfix`. -/
theorem parseToPostfix_of_parseLoop {V : Type} (F : FloatOps V) (expression : String)
    (fuel : Nat) (x : Except CalcError (List (Token V)))
    (h : parseLoop F expression fuel 0 [] [] = x) (hx : x ≠ .error .FuelExhausted) :
    parseToPostfix F expression = x := by
  unfold parseToPostfix
  have hne : parseLoop F expression (size expression + 1) 0 [] [] ≠ .error .FuelExhausted := by
    intro hbad
    obtain ⟨message, hm⟩ :=
      parseLoop_error F expression _ 0 [] [] _ (by omega) (by omega) stackValid_nil hbad
    cases hm
  rcases Nat.le_total fuel (size expression + 1) with hle | hle
  · obtain ⟨k, hk⟩ := Nat.exists_eq_add_of_le hle
    rw [hk]
    exact parseLoop_mono F expression fuel k 0 [] [] x h hx
  · obtain ⟨k, hk⟩ := Nat.exists_eq_add_of_le hle
    have := parseLoop_mono F expression (size expression + 1) k 0 [] [] _ rfl hne
    rw [← hk, h] at this
    exact this.symm

/-! ## Characters and the operator table -/

theorem lookup_singleton (p : Char) :
    (operators_.lookup (String.singleton p)).isSome = decide (p ∈ binarySymbols) := by
  by_cases h : p ∈ binarySymbols
  · simp only [binarySymbols, List.mem_cons, List.mem_singleton, List.not_mem_nil, or_false] at h
    rcases h with rfl | rfl | rfl | rfl | rfl | rfl <;> decide
  · rw [decide_eq_false h]
    simp only [binarySymbols, List.mem_cons, List.mem_singleton, List.not_mem_nil, or_false,
      not_or] at h
    obtain ⟨h1, h2, h3, h4, h5, h6⟩ := h
    have hne : ∀ q : Char, p ≠ q → (String.singleton p == String.singleton q) = false := by
      intro q hq
      simp [String.singleton, String.ext_iff, hq]
    have hneg : (String.singleton p == "neg") = false := by
      simp [String.singleton, String.ext_iff]
    have e1 : ("+" : String) = String.singleton '+' := rfl
    have e2 : ("-" : String) = String.singleton '-' := rfl
    have e3 : ("*" : String) = String.singleton '*' := rfl
    have e4 : ("/" : String) = String.singleton '/' := rfl
    have e5 : ("%" : String) = String.singleton '%' := rfl
    have e6 : ("^" : String) = String.singleton '^' := rfl
    simp only [operators_, List.lookup, e1, e2, e3, e4, e5, e6, hne _ h1, hne _ h2, hne _ h3,
      hne _ h4, hne _ h5, hne _ h6, hneg]
    rfl

/-! ## Reading a numeric literal -/

theorem charAt_of (e : String) (pre rest : List Char) (c : Char) (i : Nat)
    (he : e.data = pre ++ c :: rest) (hi : i = pre.length) : charAt e i = c := by
  subst hi
  unfold charAt
  rw [he, List.getD_eq_getElem?_getD, List.getElem?_append_right (Nat.le_refl _)]
  simp

theorem size_of (e : String) (l : List Char) (he : e.data = l) : size e = l.length := by
  unfold size; rw [he]

theorem numberStop_digit (suf : List Char) (h : numberStop suf = true) :
    suf = [] ∨ ∃ c s, suf = c :: s ∧ isdigit c = false ∧ c ≠ '.' ∧ c ≠ 'e' ∧ c ≠ 'E' := by
  cases suf with
  | nil => exact Or.inl rfl
  | cons c s =>
    simp only [numberStop, Bool.and_eq_true, Bool.not_eq_true', bne_iff_ne, ne_eq] at h
    exact Or.inr ⟨c, s, rfl, h.1.1.1, h.1.1.2, h.1.2, h.2⟩

theorem skipDigits_succ (e : String) (n i : Nat) :
    skipDigits e (n + 1) i =
      if i < size e ∧ isdigit (charAt e i) = true then skipDigits e n (i + 1) else i := rfl

theorem skipDigits_append (e : String) (ds suf : List Char)
    (hds : ∀ c ∈ ds, isdigit c = true) (hs : numberStop suf = true)
    (pre : List Char) (n i : Nat) (he : e.data = pre ++ (ds ++ suf))
    (hi : i = pre.length) (hn : n = (ds ++ suf).length) :
    skipDigits e n i = i + ds.length := by
  induction ds generalizing pre n i with
  | nil =>
    rcases numberStop_digit suf hs with rfl | ⟨c, s, rfl, hc, _⟩
    · subst hn; simp [skipDigits]
    · have hch : charAt e i = c := charAt_of e pre s c i (by simpa using he) hi
      have hlen : n = s.length + 1 := by rw [hn]; simp
      rw [hlen, skipDigits_succ, hch, hc]
      simp
  | cons d ds ih =>
    have hd : isdigit d = true := hds d (List.mem_cons_self _ _)
    have hch : charAt e i = d := charAt_of e pre (ds ++ suf) d i (by simpa using he) hi
    have hsz : size e = pre.length + (ds.length + 1 + suf.length) := by
      rw [size_of e _ he]; simp; omega
    have hlt : i < size e := by omega
    have hlen : n = (ds ++ suf).length + 1 := by rw [hn]; simp
    rw [hlen, skipDigits_succ, if_pos ⟨hlt, by rw [hch]; exact hd⟩]
    rw [ih (fun c hc => hds c (List.mem_cons_of_mem _ hc)) (pre ++ [d]) _ (i + 1)
      (by simp [he]) (by simp [hi]) rfl]
    simp only [List.length_cons]; omega

theorem isDigits1_cons (cs : List Char) (h : isDigits1 cs = true) :
    ∃ d ds, cs = d :: ds ∧ isdigit d = true ∧ ∀ c ∈ ds, isdigit c = true := by
  cases cs with
  | nil => simp [isDigits1] at h
  | cons d ds =>
    simp only [isDigits1, List.isEmpty_cons, Bool.not_false, List.all_cons, Bool.true_and,
      Bool.and_eq_true, List.all_eq_true] at h
    exact ⟨d, ds, rfl, h.1, h.2⟩

/-- On a well-formed exponent suffix the exponent branch consumes all of it. -/
theorem scanExponent_literal (e : String) (letter : Char) (r suf pre : List Char) (i : Nat)
    (hr : isExponentTail r = true) (hs : numberStop suf = true)
    (he : e.data = pre ++ (letter :: r ++ suf)) (hi : i = pre.length) :
    scanExponent e i = .ok (i + 1 + r.length) := by
  cases r with
  | nil => simp [isExponentTail] at hr
  | cons c rest =>
    simp only [isExponentTail] at hr
    have h1 : charAt e (i + 1) = c :=
      charAt_of e (pre ++ [letter]) (rest ++ suf) c (i + 1) (by simp [he]) (by simp [hi])
    have hsz : size e = pre.length + (1 + (1 + rest.length) + suf.length) := by
      rw [size_of e _ he]; simp; omega
    by_cases hsign : c = '+' ∨ c = '-'
    · rw [if_pos hsign] at hr
      obtain ⟨d, ds, rfl, hd, hds⟩ := isDigits1_cons rest hr
      have h2 : charAt e (i + 1 + 1) = d :=
        charAt_of e (pre ++ [letter, c]) (ds ++ suf) d (i + 1 + 1) (by simp [he]) (by simp [hi])
      unfold scanExponent
      simp only [h1, if_pos hsign, h2, hd]
      simp only [List.length_cons] at hsz
      rw [if_neg (by simp; omega)]
      rw [skipDigits_append e ds suf hds hs (pre ++ [letter, c, d]) _ (i + 1 + 1 + 1)
        (by simp [he]) (by simp [hi]) (by simp; omega)]
      simp only [List.length_cons]; congr 1; omega
    · rw [if_neg hsign] at hr
      obtain ⟨d, ds, hcons, hd, hds⟩ := isDigits1_cons (c :: rest) hr
      cases hcons
      unfold scanExponent
      simp only [h1, if_neg hsign, hd]
      rw [if_neg (by simp; omega)]
      rw [skipDigits_append e rest suf hds hs (pre ++ [letter, c]) _ (i + 1 + 1)
        (by simp [he]) (by simp [hi]) (by simp; omega)]
      simp only [List.length_cons]; congr 1; omega

/-- The scanning loop of `parseNumber` consumes exactly a literal tail that is
followed by a stop. -/
theorem scanNumber_literal (e : String) (r suf : List Char) (hs : numberStop suf = true)
    (pre : List Char) (dot : Bool) (n i : Nat)
    (hr : isLiteralTail dot r = true) (he : e.data = pre ++ (r ++ suf))
    (hi : i = pre.length) (hn : n = (r ++ suf).length) :
    scanNumber e n i dot = .ok (i + r.length) := by
  induction r generalizing pre dot n i with
  | nil =>
    rcases numberStop_digit suf hs with rfl | ⟨c, s, rfl, hc, h1, h2, h3⟩
    · subst hn; simp [scanNumber]
    · have hch : charAt e i = c := charAt_of e pre s c i (by simpa using he) hi
      have hlen : n = s.length + 1 := by rw [hn]; simp
      rw [hlen, scanNumber_succ, hch, hc]
      simp [h1, h2, h3]
  | cons c r ih =>
    have hch : charAt e i = c := charAt_of e pre (r ++ suf) c i (by simpa using he) hi
    have hsz : size e = pre.length + (r.length + 1 + suf.length) := by
      rw [size_of e _ he]; simp; omega
    have hlen : n = (r ++ suf).length + 1 := by rw [hn]; simp
    rw [hlen, scanNumber_succ, if_pos (by omega), hch]
    simp only [isLiteralTail] at hr
    by_cases hd : isdigit c = true
    · rw [if_pos hd] at hr ⊢
      rw [ih (pre ++ [c]) dot _ (i + 1) hr (by simp [he]) (by simp [hi]) rfl]
      simp only [List.length_cons]; congr 1; omega
    · rw [if_neg hd] at hr ⊢
      by_cases hp : c = '.'
      · rw [if_pos hp] at hr
        simp only [Bool.and_eq_true, Bool.not_eq_true'] at hr
        rw [if_pos ⟨hp, hr.1⟩]
        rw [ih (pre ++ [c]) true _ (i + 1) hr.2 (by simp [he]) (by simp [hi]) rfl]
        simp only [List.length_cons]; congr 1; omega
      · rw [if_neg hp] at hr
        rw [if_neg (by intro hh; exact hp hh.1)]
        by_cases hexp : c = 'e' ∨ c = 'E'
        · rw [if_pos hexp] at hr
          have hne : r ≠ [] := by
            intro hh; subst hh; simp [isExponentTail] at hr
          have hlen : 0 < r.length := List.length_pos.2 hne
          rw [if_pos ⟨hexp, by omega⟩]
          rw [scanExponent_literal e c r suf pre i hr hs (by simpa using he) hi]
          simp only [List.length_cons]; congr 1; omega
        · rw [if_neg hexp] at hr; cases hr

/-- `parseNumber` on a literal followed by a stop. -/
theorem parseNumber_literal {V : Type} (F : FloatOps V) (e a : String) (value : V)
    (pre suf : List Char) (i : Nat) (ha : isNumericLiteral a = true)
    (hs : numberStop suf = true) (hv : F.stod a = some value)
    (he : e.data = pre ++ (a.data ++ suf)) (hi : i = pre.length) :
    parseNumber F e i = .ok (numberToken a value, i + a.data.length) := by
  have htail : isLiteralTail false a.data = true := by
    unfold isNumericLiteral at ha
    cases hd : a.data with
    | nil => rfl
    | cons c rest =>
      rw [hd] at ha
      simp only [Bool.and_eq_true] at ha
      exact ha.2
  have hsub : substr e i (i + a.data.length - i) = a := by
    subst hi
    simp [substr, he]
  unfold parseNumber
  simp only
  rw [scanNumber_literal e a.data suf hs pre false _ i htail he hi
    (by rw [size_of e _ he]; simp; omega)]
  simp only [hsub, hv]
  rfl

/-- A literal starts the number branch of the main loop. -/
theorem isNumericLiteral_head (a : String) (ha : isNumericLiteral a = true) :
    ∃ c rest, a.data = c :: rest ∧ (isdigit c = true ∨
      (c = '.' ∧ ∃ d more, rest = d :: more ∧ isdigit d = true)) := by
  unfold isNumericLiteral at ha
  cases hd : a.data with
  | nil => rw [hd] at ha; cases ha
  | cons c rest =>
    rw [hd] at ha
    simp only [Bool.and_eq_true, Bool.or_eq_true, decide_eq_true_eq] at ha
    refine ⟨c, rest, rfl, ?_⟩
    rcases ha.1 with h | ⟨h1, h2⟩
    · exact Or.inl h
    · cases rest with
      | nil => cases h2
      | cons d more => exact Or.inr ⟨h1, d, more, rfl, h2⟩

/-! ## The unary test -/

theorem lastNonSpace_append_singleton (pre : List Char) (c : Char) :
    lastNonSpace (pre ++ [c]) = if isspace c = true then lastNonSpace pre else some c := by
  unfold lastNonSpace
  rw [List.reverse_append, List.reverse_singleton, List.singleton_append, List.find?_cons]
  cases h : isspace c <;> simp

theorem skipSpacesBack_spec (e : String) (pre suf : List Char) (he : e.data = pre ++ suf) :
    match lastNonSpace pre with
    | none => skipSpacesBack e pre.length = 0
    | some c => skipSpacesBack e pre.length ≠ 0 ∧
        charAt e (skipSpacesBack e pre.length - 1) = c := by
  induction pre using List.reverseRecOn generalizing suf with
  | nil => simp [lastNonSpace, skipSpacesBack]
  | append_singleton p c ih =>
    have hch : charAt e p.length = c := charAt_of e p suf c p.length (by simpa using he) rfl
    rw [lastNonSpace_append_singleton]
    have hlen : (p ++ [c]).length = p.length + 1 := by simp
    rw [hlen]
    simp only [skipSpacesBack, hch]
    by_cases hsp : isspace c = true
    · rw [if_pos hsp, if_pos hsp]
      exact ih (c :: suf) (by simpa using he)
    · rw [if_neg hsp, if_neg hsp]
      exact ⟨by omega, by simpa using hch⟩

theorem isUnaryOperator_eq {V : Type} (e : String) (pre suf : List Char) (i : Nat)
    (output : List (Token V)) (he : e.data = pre ++ suf) (hi : i = pre.length) :
    isUnaryOperator e i output = unaryContext (lastNonSpace pre) output := by
  subst hi
  have hspec := skipSpacesBack_spec e pre suf he
  unfold isUnaryOperator unaryContext
  cases hl : lastNonSpace pre with
  | none =>
    rw [hl] at hspec
    simp only at hspec
    simp [hspec]
  | some p =>
    rw [hl] at hspec
    simp only at hspec
    obtain ⟨h1, h2⟩ := hspec
    have hne : pre.length ≠ 0 := by
      intro h0
      have : pre = [] := List.length_eq_zero.1 h0
      subst this
      simp [lastNonSpace] at hl
    rw [if_neg hne]
    simp only [if_neg h1, h2, lookup_singleton]
    by_cases hc : p = '(' ∨ p = ',' ∨ p ∈ binarySymbols
    · rw [if_pos (by simpa using hc)]
      rcases hc with h | h | h <;> simp [h]
    · rw [if_neg (by simpa using hc)]
      simp only [not_or] at hc
      simp only [hc.1, hc.2.1, hc.2.2, decide_False, Bool.false_or]
      cases output.getLast? with
      | none => rfl
      | some t => by_cases ht : t.type = .Operator <;> simp [ht]

/-! ## Iterations of the main loop on known text -/

theorem scan_top {V : Type} (F : FloatOps V) (e : String) (r : List (Token V))
    (h : Scan F e 0 [] [] r) : parseToPostfix F e = .ok r := by
  obtain ⟨fuel, hf⟩ := h
  exact parseToPostfix_of_parseLoop F e fuel _ hf (by simp)

theorem scan_end {V : Type} (F : FloatOps V) (e : String) (i : Nat)
    (output stack r : List (Token V)) (hi : size e ≤ i) (h : drain output stack = .ok r) :
    Scan F e i output stack r :=
  ⟨1, by rw [parseLoop_end F e 0 i output stack hi, h]⟩

theorem scan_step {V : Type} (F : FloatOps V) (e : String) (i i' : Nat)
    (output stack output' stack' r : List (Token V)) (hlt : i < size e)
    (hstep : parseStep F e i output stack = .ok (i', output', stack'))
    (h : Scan F e i' output' stack' r) : Scan F e i output stack r := by
  obtain ⟨fuel, hf⟩ := h
  exact ⟨fuel + 1, by rw [parseLoop_step F e fuel i output stack i' output' stack' hlt hstep, hf]⟩

theorem lt_size_of (e : String) (pre rest : List Char) (c : Char) (i : Nat)
    (he : e.data = pre ++ c :: rest) (hi : i = pre.length) : i < size e := by
  rw [size_of e _ he, hi]; simp

theorem scan_space {V : Type} (F : FloatOps V) (e : String) (pre suf : List Char) (c : Char)
    (i : Nat) (output stack r : List (Token V)) (hc : isspace c = true)
    (he : e.data = pre ++ c :: suf) (hi : i = pre.length)
    (h : Scan F e (i + 1) output stack r) : Scan F e i output stack r := by
  refine scan_step F e i (i + 1) output stack output stack r (lt_size_of e pre suf c i he hi) ?_ h
  unfold parseStep
  simp only [charAt_of e pre suf c i he hi, hc, if_true]

theorem scan_blank {V : Type} (F : FloatOps V) (e : String) (w : String) (pre suf : List Char)
    (i : Nat) (output stack r : List (Token V)) (hw : isBlank w = true)
    (he : e.data = pre ++ (w.data ++ suf)) (hi : i = pre.length)
    (h : Scan F e (i + w.data.length) output stack r) : Scan F e i output stack r := by
  obtain ⟨wd⟩ := w
  simp only [isBlank, List.all_eq_true] at hw
  simp only at he h
  induction wd generalizing pre i with
  | nil => simpa using h
  | cons c cs ih =>
    refine scan_space F e pre (cs ++ suf) c i output stack r (hw c (List.mem_cons_self _ _))
      (by simpa using he) hi ?_
    refine ih (pre ++ [c]) (i + 1) (by simp [hi]) (by simp [he]) ?_
      (fun x hx => hw x (List.mem_cons_of_mem _ hx))
    rw [show i + 1 + cs.length = i + (c :: cs).length by simp; omega]
    exact h

theorem isspace_digit (c : Char) (h : isdigit c = true ∨ c = '.') : isspace c = false := by
  rcases h with h | rfl
  · simp only [isdigit, Char.isDigit, Bool.and_eq_true, decide_eq_true_eq] at h
    have h48 : 48 ≤ c.val := h.1
    simp only [isspace, Bool.or_eq_false_iff, decide_eq_false_iff_not]
    refine ⟨⟨⟨⟨⟨?_, ?_⟩, ?_⟩, ?_⟩, ?_⟩, ?_⟩ <;> (intro hc; rw [hc] at h48; revert h48; decide)
  · decide

theorem scan_number {V : Type} (F : FloatOps V) (e a : String) (value : V)
    (pre suf : List Char) (i : Nat) (output stack r : List (Token V))
    (ha : isNumericLiteral a = true) (hs : numberStop suf = true)
    (hv : F.stod a = some value)
    (he : e.data = pre ++ (a.data ++ suf)) (hi : i = pre.length)
    (h : Scan F e (i + a.data.length) (output ++ [numberToken a value]) stack r) :
    Scan F e i output stack r := by
  obtain ⟨c, rest, hdata, hstart⟩ := isNumericLiteral_head a ha
  have he2 : e.data = pre ++ c :: (rest ++ suf) := by rw [he, hdata]; simp
  have hch : charAt e i = c := charAt_of e pre _ c i he2 hi
  have hlt : i < size e := lt_size_of e pre _ c i he2 hi
  refine scan_step F e i _ output stack _ stack r hlt ?_ h
  have hsp : isspace c = false := by
    apply isspace_digit
    rcases hstart with hd | ⟨hp, _⟩
    · exact Or.inl hd
    · exact Or.inr hp
  have hcond : isdigit c = true ∨
      (c = '.' ∧ i + 1 < size e ∧ isdigit (charAt e (i + 1)) = true) := by
    rcases hstart with hd | ⟨hp, d, more, hrest, hd⟩
    · exact Or.inl hd
    · refine Or.inr ⟨hp, ?_, ?_⟩
      · rw [size_of e _ he2, hi, hrest]; simp
      · rw [charAt_of e (pre ++ [c]) (more ++ suf) d (i + 1) (by rw [he2, hrest]; simp)
          (by simp [hi])]
        exact hd
  unfold parseStep
  simp only [hch, hsp, Bool.false_eq_true, if_false, if_pos hcond]
  rw [parseNumber_literal F e a value pre suf i ha hs hv he hi]

theorem parseStep_operator {V : Type} (F : FloatOps V) (e : String) (pre suf : List Char)
    (c : Char) (i : Nat) (output stack : List (Token V)) (hc : c ∈ binarySymbols)
    (he : e.data = pre ++ c :: suf) (hi : i = pre.length) :
    parseStep F e i output stack =
      match reduceOperators
          (operatorToken F (operatorText c (unaryContext (lastNonSpace pre) output)))
          output stack with
      | .error err => .error err
      | .ok (o, s) =>
        .ok (i + 1, o,
          operatorToken F (operatorText c (unaryContext (lastNonSpace pre) output)) :: s) := by
  have hch : charAt e i = c := charAt_of e pre suf c i he hi
  have hun := isUnaryOperator_eq e pre (c :: suf) i output he hi
  have hop : parseOperator F e i output =
      .ok (operatorToken F (operatorText c (unaryContext (lastNonSpace pre) output)), i + 1) := by
    have hnone : (List.lookup (String.singleton c) operators_).isNone = false := by
      cases hl : List.lookup (String.singleton c) operators_ with
      | some info => rfl
      | none =>
        have := lookup_singleton c
        rw [hl, decide_eq_true hc] at this
        cases this
    unfold parseOperator operatorText operatorToken
    simp only [hch, hun]
    by_cases hu : (c = '+' ∨ c = '-') ∧ unaryContext (lastNonSpace pre) output = true
    · rw [if_pos hu, if_pos hu]
    · rw [if_neg hu, if_neg hu, hnone]
      rfl
  unfold parseStep
  simp only [hch, hop]
  simp only [binarySymbols, List.mem_cons, List.mem_singleton, List.not_mem_nil, or_false] at hc
  rcases hc with rfl | rfl | rfl | rfl | rfl | rfl <;>
    simp [isspace, isdigit, isIdentifierChar, isalpha, Char.isDigit, Char.isAlpha, Char.isUpper,
      Char.isLower]

theorem scan_operator {V : Type} (F : FloatOps V) (e : String) (pre suf : List Char)
    (c : Char) (i : Nat) (output stack o s r : List (Token V)) (text : String)
    (hc : c ∈ binarySymbols)
    (he : e.data = pre ++ c :: suf) (hi : i = pre.length)
    (htext : operatorText c (unaryContext (lastNonSpace pre) output) = text)
    (hred : reduceOperators (operatorToken F text) output stack = .ok (o, s))
    (h : Scan F e (i + 1) o (operatorToken F text :: s) r) : Scan F e i output stack r := by
  refine scan_step F e i (i + 1) output stack o _ r (lt_size_of e pre suf c i he hi) ?_ h
  rw [parseStep_operator F e pre suf c i output stack hc he hi, htext, hred]

theorem scan_open {V : Type} (F : FloatOps V) (e : String) (pre suf : List Char)
    (i : Nat) (output stack r : List (Token V))
    (he : e.data = pre ++ '(' :: suf) (hi : i = pre.length)
    (h : Scan F e (i + 1) output (openParenToken F :: stack) r) : Scan F e i output stack r := by
  refine scan_step F e i (i + 1) output stack output _ r (lt_size_of e pre suf _ i he hi) ?_ h
  unfold parseStep
  simp only [charAt_of e pre suf _ i he hi]
  simp [isspace, isdigit, isIdentifierChar, isalpha, Char.isDigit, Char.isAlpha, Char.isUpper,
      Char.isLower, openParenToken]

theorem parseStep_close {V : Type} (F : FloatOps V) (e : String) (pre suf : List Char)
    (i : Nat) (output stack : List (Token V))
    (he : e.data = pre ++ ')' :: suf) (hi : i = pre.length) :
    parseStep F e i output stack =
      match popToOpenParen output stack with
      | none => .error (.InvalidInput "Unmatched \x27)\x27 in expression")
      | some (output, []) => .ok (i + 1, output, [])
      | some (output, top :: rest) =>
        if top.type = .Function then .ok (i + 1, output ++ [top], rest)
        else .ok (i + 1, output, top :: rest) := by
  unfold parseStep
  simp only [charAt_of e pre suf _ i he hi]
  simp only [isspace, isdigit, isIdentifierChar, isalpha, Char.isDigit, Char.isAlpha,
    Char.isUpper, Char.isLower]
  rfl

/-- A `)` whose marker is found with no function below it. -/
theorem scan_close {V : Type} (F : FloatOps V) (e : String) (pre suf : List Char)
    (i : Nat) (output stack o s r : List (Token V))
    (he : e.data = pre ++ ')' :: suf) (hi : i = pre.length)
    (hpop : popToOpenParen output stack = some (o, s))
    (hnf : ∀ top rest, s = top :: rest → top.type ≠ .Function)
    (h : Scan F e (i + 1) o s r) : Scan F e i output stack r := by
  refine scan_step F e i (i + 1) output stack o s r (lt_size_of e pre suf _ i he hi) ?_ h
  rw [parseStep_close F e pre suf i output stack he hi, hpop]
  cases s with
  | nil => rfl
  | cons top rest => simp only [if_neg (hnf top rest rfl)]

/-- A `)` whose marker is found with a function below it. -/
theorem scan_close_function {V : Type} (F : FloatOps V) (e : String) (pre suf : List Char)
    (i : Nat) (output stack o rest r : List (Token V)) (top : Token V)
    (he : e.data = pre ++ ')' :: suf) (hi : i = pre.length)
    (hpop : popToOpenParen output stack = some (o, top :: rest))
    (hf : top.type = .Function)
    (h : Scan F e (i + 1) (o ++ [top]) rest r) : Scan F e i output stack r := by
  refine scan_step F e i (i + 1) output stack _ rest r (lt_size_of e pre suf _ i he hi) ?_ h
  rw [parseStep_close F e pre suf i output stack he hi, hpop]
  simp only [if_pos hf]

/-! ## The context of a sign -/

theorem lastNonSpace_append_blank (pre : List Char) (w : String) (hw : isBlank w = true) :
    lastNonSpace (pre ++ w.data) = lastNonSpace pre := by
  obtain ⟨wd⟩ := w
  simp only [isBlank, List.all_eq_true] at hw
  simp only
  induction wd using List.reverseRecOn with
  | nil => simp
  | append_singleton p c ih =>
    rw [← List.append_assoc, lastNonSpace_append_singleton,
      if_pos (hw c (by simp))]
    exact ih (fun x hx => hw x (by simp [hx]))

theorem lastNonSpace_append_char (pre : List Char) (c : Char) (hc : isspace c = false) :
    lastNonSpace (pre ++ [c]) = some c := by
  rw [lastNonSpace_append_singleton, hc]; simp

theorem isDigits1_getLast (cs : List Char) (h : isDigits1 cs = true) :
    ∃ c, cs.getLast? = some c ∧ isdigit c = true := by
  obtain ⟨d, ds, rfl, hd, hds⟩ := isDigits1_cons cs h
  cases hl : (d :: ds).getLast? with
  | none => simp at hl
  | some c =>
    refine ⟨c, rfl, ?_⟩
    have hmem : c ∈ d :: ds := List.mem_of_getLast?_eq_some hl
    rcases List.mem_cons.1 hmem with rfl | hmem
    · exact hd
    · exact hds c hmem

theorem isLiteralTail_getLast (r : List Char) (dot : Bool) (h : isLiteralTail dot r = true)
    (hne : r ≠ []) : ∃ c, r.getLast? = some c ∧ (isdigit c = true ∨ c = '.') := by
  induction r generalizing dot with
  | nil => exact (hne rfl).elim
  | cons c rest ih =>
    simp only [isLiteralTail] at h
    by_cases hd : isdigit c = true
    · rw [if_pos hd] at h
      cases rest with
      | nil => exact ⟨c, rfl, Or.inl hd⟩
      | cons x xs =>
        obtain ⟨l, hl, hp⟩ := ih dot h (by simp)
        exact ⟨l, by rw [List.getLast?_cons_cons]; exact hl, hp⟩
    · rw [if_neg hd] at h
      by_cases hp : c = '.'
      · rw [if_pos hp] at h
        simp only [Bool.and_eq_true] at h
        cases rest with
        | nil => exact ⟨c, rfl, Or.inr hp⟩
        | cons x xs =>
          obtain ⟨l, hl, hq⟩ := ih true h.2 (by simp)
          exact ⟨l, by rw [List.getLast?_cons_cons]; exact hl, hq⟩
      · rw [if_neg hp] at h
        by_cases hexp : c = 'e' ∨ c = 'E'
        · rw [if_pos hexp] at h
          cases rest with
          | nil => simp [isExponentTail] at h
          | cons x xs =>
            rw [List.getLast?_cons_cons]
            simp only [isExponentTail] at h
            by_cases hsign : x = '+' ∨ x = '-'
            · rw [if_pos hsign] at h
              obtain ⟨l, hl, hq⟩ := isDigits1_getLast xs h
              obtain ⟨d, ds, rfl, _, _⟩ := isDigits1_cons xs h
              exact ⟨l, by rw [List.getLast?_cons_cons]; exact hl, Or.inl hq⟩
            · rw [if_neg hsign] at h
              obtain ⟨l, hl, hq⟩ := isDigits1_getLast (x :: xs) h
              exact ⟨l, hl, Or.inl hq⟩
        · rw [if_neg hexp] at h; cases h

/-- The nearest non-blank character before a sign that follows a numeric
literal and blanks is the last character of the literal: a digit or a point. -/
theorem lastNonSpace_literal (pre : List Char) (a w : String)
    (ha : isNumericLiteral a = true) (hw : isBlank w = true) :
    ∃ c, lastNonSpace (pre ++ (a.data ++ w.data)) = some c ∧ (isdigit c = true ∨ c = '.') := by
  have htail : isLiteralTail false a.data = true ∧ a.data ≠ [] := by
    unfold isNumericLiteral at ha
    cases hd : a.data with
    | nil => rw [hd] at ha; cases ha
    | cons c rest =>
      rw [hd] at ha
      simp only [Bool.and_eq_true] at ha
      exact ⟨ha.2, by simp⟩
  obtain ⟨c, hl, hc⟩ := isLiteralTail_getLast a.data false htail.1 htail.2
  refine ⟨c, ?_, hc⟩
  rw [← List.append_assoc, lastNonSpace_append_blank _ w hw]
  obtain ⟨front, hfront⟩ : ∃ front, a.data = front ++ [c] := by
    have := List.dropLast_append_getLast? c hl
    exact ⟨a.data.dropLast, this.symm⟩
  rw [hfront, ← List.append_assoc, lastNonSpace_append_char _ c (isspace_digit c hc)]

theorem not_binarySymbol_of_digit (c : Char) (h : isdigit c = true ∨ c = '.') :
    c ≠ '(' ∧ c ≠ ',' ∧ c ∉ binarySymbols := by
  rcases h with h | rfl
  · simp only [isdigit, Char.isDigit, Bool.and_eq_true, decide_eq_true_eq] at h
    have h48 : 48 ≤ c.val := h.1
    refine ⟨?_, ?_, ?_⟩
    · intro hc; rw [hc] at h48; revert h48; decide
    · intro hc; rw [hc] at h48; revert h48; decide
    · intro hc
      simp only [binarySymbols, List.mem_cons, List.mem_singleton, List.not_mem_nil,
        or_false] at hc
      have h57 : c.val ≤ 57 := h.2
      rcases hc with hc | hc | hc | hc | hc | hc <;>
        (rw [hc] at h48 h57; revert h48 h57; decide)
  · decide

/-- After a number (and blanks) a sign is binary. -/
theorem unaryContext_number {V : Type} (c : Char) (output : List (Token V)) (t : Token V)
    (hc : isdigit c = true ∨ c = '.') (ht : t.type ≠ .Operator) :
    unaryContext (some c) (output ++ [t]) = false := by
  obtain ⟨h1, h2, h3⟩ := not_binarySymbol_of_digit c hc
  simp [unaryContext, h1, h2, h3, ht]

theorem numberStop_blank (w : String) (c : Char) (rest : List Char) (hw : isBlank w = true)
    (hc : numberStop [c] = true) : numberStop (w.data ++ c :: rest) = true := by
  obtain ⟨wd⟩ := w
  cases wd with
  | nil => simpa [numberStop] using hc
  | cons x xs =>
    simp only [isBlank, List.all_cons, Bool.and_eq_true] at hw
    have hx := hw.1
    simp only [List.cons_append, numberStop, Bool.and_eq_true, Bool.not_eq_true', bne_iff_ne,
      ne_eq]
    refine ⟨⟨⟨?_, ?_⟩, ?_⟩, ?_⟩
    · cases hd : isdigit x with
      | false => rfl
      | true => rw [isspace_digit x (Or.inl hd)] at hx; cases hx
    · intro h; rw [h] at hx; revert hx; decide
    · intro h; rw [h] at hx; revert hx; decide
    · intro h; rw [h] at hx; revert hx; decide

theorem numberStop_binarySymbol (c : Char) (hc : c ∈ binarySymbols) : numberStop [c] = true := by
  simp only [binarySymbols, List.mem_cons, List.mem_singleton, List.not_mem_nil, or_false] at hc
  rcases hc with rfl | rfl | rfl | rfl | rfl | rfl <;> decide

/-! ## Evaluation of short postfix sequences -/

theorem evalTokens_number {V : Type} (F : FloatOps V) (a : String) (value : V)
    (tokens : List (Token V)) (stack : List V) :
    evalTokens F (numberToken a value :: tokens) stack = evalTokens F tokens (value :: stack) := by
  simp [evalTokens, numberToken]

theorem evalTokens_binary {V : Type} (F : FloatOps V) (op : Char) (hop : op ∈ binarySymbols)
    (tokens : List (Token V)) (x y : V) (stack : List V) :
    evalTokens F (operatorToken F (String.singleton op) :: tokens) (y :: x :: stack) =
      match applyOperator F (String.singleton op) x y with
      | .error err => .error err
      | .ok r => evalTokens F tokens (r :: stack) := by
  simp only [binarySymbols, List.mem_cons, List.mem_singleton, List.not_mem_nil, or_false] at hop
  rcases hop with rfl | rfl | rfl | rfl | rfl | rfl <;>
    simp [evalTokens, operatorToken, String.singleton, String.ext_iff]

theorem evalTokens_neg {V : Type} (F : FloatOps V) (tokens : List (Token V)) (x : V)
    (stack : List V) :
    evalTokens F (operatorToken F "neg" :: tokens) (x :: stack) =
      evalTokens F tokens (F.neg x :: stack) := by
  simp [evalTokens, operatorToken, applyUnaryOperator]

/-! ## Two consecutive binary operators -/

theorem reduceOperators_nil {V : Type} (t : Token V) (output : List (Token V)) :
    reduceOperators t output [] = .ok (output, []) := rfl

theorem reduceOperators_second {V : Type} (F : FloatOps V) (op1 op2 : Char)
    (h1 : op1 ∈ binarySymbols) (h2 : op2 ∈ binarySymbols) (output : List (Token V)) :
    reduceOperators (operatorToken F (String.singleton op2)) output
        [operatorToken F (String.singleton op1)] =
      if resolvedFirst op1 op2 = true then
        .ok (output ++ [operatorToken F (String.singleton op1)], [])
      else .ok (output, [operatorToken F (String.singleton op1)]) := by
  simp only [binarySymbols, List.mem_cons, List.mem_singleton, List.not_mem_nil, or_false] at h1 h2
  rcases h1 with rfl | rfl | rfl | rfl | rfl | rfl <;>
    rcases h2 with rfl | rfl | rfl | rfl | rfl | rfl <;>
    simp [reduceOperators, operatorToken, operators_, List.lookup, resolvedFirst, precedence,
      rightAssociative, String.singleton] <;> rfl

theorem data_binary_binary (a b c w1 w2 w3 w4 : String) (op1 op2 : Char) :
    (a ++ w1 ++ String.singleton op1 ++ w2 ++ b ++ w3 ++ String.singleton op2 ++ w4 ++ c).data =
      a.data ++ (w1.data ++ (op1 :: (w2.data ++ (b.data ++ (w3.data ++
        (op2 :: (w4.data ++ c.data))))))) := by
  simp [String.data_append, String.singleton]

/-- Two binary operators between three literals, with any
whitespace (possibly none) around the operators. -/
theorem parse_two_operators {V : Type} (F : FloatOps V) (a b c w1 w2 w3 w4 : String)
    (op1 op2 : Char) (va vb vc : V)
    (ha : isNumericLiteral a = true) (hb : isNumericLiteral b = true)
    (hc : isNumericLiteral c = true)
    (hva : F.stod a = some va) (hvb : F.stod b = some vb) (hvc : F.stod c = some vc)
    (hw1 : isBlank w1 = true) (hw2 : isBlank w2 = true) (hw3 : isBlank w3 = true)
    (hw4 : isBlank w4 = true) (h1 : op1 ∈ binarySymbols) (h2 : op2 ∈ binarySymbols) :
    parseToPostfix F
        (a ++ w1 ++ String.singleton op1 ++ w2 ++ b ++ w3 ++ String.singleton op2 ++ w4 ++ c) =
      .ok (if resolvedFirst op1 op2 = true then
          [numberToken a va, numberToken b vb, operatorToken F (String.singleton op1),
            numberToken c vc, operatorToken F (String.singleton op2)]
        else
          [numberToken a va, numberToken b vb, numberToken c vc,
            operatorToken F (String.singleton op2), operatorToken F (String.singleton op1)]) := by
  have hE := data_binary_binary a b c w1 w2 w3 w4 op1 op2
  generalize (a ++ w1 ++ String.singleton op1 ++ w2 ++ b ++ w3 ++ String.singleton op2 ++ w4 ++ c)
    = e at hE
  apply scan_top
  -- a
  refine scan_number F e a va [] (w1.data ++ (op1 :: (w2.data ++ (b.data ++ (w3.data ++
      (op2 :: (w4.data ++ c.data))))))) 0 [] [] _ ha
    (numberStop_blank w1 op1 _ hw1 (numberStop_binarySymbol op1 h1)) hva (by simpa using hE) rfl ?_
  refine scan_blank F e w1 a.data (op1 :: (w2.data ++ (b.data ++ (w3.data ++
      (op2 :: (w4.data ++ c.data)))))) _ _ _ _ hw1 (by simpa using hE) (by simp) ?_
  -- op1, binary
  obtain ⟨l1, hl1, hd1⟩ := lastNonSpace_literal [] a w1 ha hw1
  refine scan_operator F e (a.data ++ w1.data)
    (w2.data ++ (b.data ++ (w3.data ++ (op2 :: (w4.data ++ c.data))))) op1 _ _ _ _ [] _
    (String.singleton op1) h1 (by simp [hE]) (by simp) ?_ (reduceOperators_nil _ _) ?_
  · rw [show a.data ++ w1.data = [] ++ (a.data ++ w1.data) by simp, hl1,
      unaryContext_number l1 [] (numberToken a va) hd1 (by simp [numberToken])]
    simp [operatorText]
  refine scan_blank F e w2 (a.data ++ w1.data ++ [op1])
    (b.data ++ (w3.data ++ (op2 :: (w4.data ++ c.data)))) _ _ _ _ hw2 (by simp [hE])
    (by simp; omega) ?_
  -- b
  refine scan_number F e b vb (a.data ++ w1.data ++ [op1] ++ w2.data)
    (w3.data ++ (op2 :: (w4.data ++ c.data))) _ _ _ _ hb
    (numberStop_blank w3 op2 _ hw3 (numberStop_binarySymbol op2 h2)) hvb (by simp [hE])
    (by simp; omega) ?_
  refine scan_blank F e w3 (a.data ++ w1.data ++ [op1] ++ w2.data ++ b.data)
    (op2 :: (w4.data ++ c.data)) _ _ _ _ hw3 (by simp [hE]) (by simp; omega) ?_
  -- op2, binary
  obtain ⟨l2, hl2, hd2⟩ := lastNonSpace_literal (a.data ++ w1.data ++ [op1] ++ w2.data) b w3 hb hw3
  have htext2 : operatorText op2 (unaryContext
      (lastNonSpace (a.data ++ w1.data ++ [op1] ++ w2.data ++ b.data ++ w3.data))
      ([] ++ [numberToken a va] ++ [numberToken b vb])) = String.singleton op2 := by
    rw [show a.data ++ w1.data ++ [op1] ++ w2.data ++ b.data ++ w3.data =
        a.data ++ w1.data ++ [op1] ++ w2.data ++ (b.data ++ w3.data) by simp, hl2,
      unaryContext_number l2 _ (numberToken b vb) hd2 (by simp [numberToken])]
    simp [operatorText]
  by_cases hres : resolvedFirst op1 op2 = true
  · rw [if_pos hres]
    refine scan_operator F e (a.data ++ w1.data ++ [op1] ++ w2.data ++ b.data ++ w3.data)
      (w4.data ++ c.data) op2 _ _ _ _ [] _ (String.singleton op2) h2 (by simp [hE])
      (by simp; omega) htext2
      (by rw [reduceOperators_second F op1 op2 h1 h2, if_pos hres]) ?_
    refine scan_blank F e w4
      (a.data ++ w1.data ++ [op1] ++ w2.data ++ b.data ++ w3.data ++ [op2]) c.data _ _ _ _ hw4
      (by simp [hE]) (by simp; omega) ?_
    refine scan_number F e c vc
      (a.data ++ w1.data ++ [op1] ++ w2.data ++ b.data ++ w3.data ++ [op2] ++ w4.data) [] _ _ _ _
      hc rfl hvc (by simp [hE]) (by simp; omega) ?_
    refine scan_end F e _ _ _ _ (by rw [size_of e _ hE]; simp; omega) ?_
    simp [drain, operatorToken]
  · rw [if_neg hres]
    refine scan_operator F e (a.data ++ w1.data ++ [op1] ++ w2.data ++ b.data ++ w3.data)
      (w4.data ++ c.data) op2 _ _ _ _ _ _ (String.singleton op2) h2 (by simp [hE])
      (by simp; omega) htext2
      (by rw [reduceOperators_second F op1 op2 h1 h2, if_neg hres]) ?_
    refine scan_blank F e w4
      (a.data ++ w1.data ++ [op1] ++ w2.data ++ b.data ++ w3.data ++ [op2]) c.data _ _ _ _ hw4
      (by simp [hE]) (by simp; omega) ?_
    refine scan_number F e c vc
      (a.data ++ w1.data ++ [op1] ++ w2.data ++ b.data ++ w3.data ++ [op2] ++ w4.data) [] _ _ _ _
      hc rfl hvc (by simp [hE]) (by simp; omega) ?_
    refine scan_end F e _ _ _ _ (by rw [size_of e _ hE]; simp; omega) ?_
    simp [drain, operatorToken]

theorem calculate_of_parse {V : Type} (F : FloatOps V) (e : String) (tokens : List (Token V))
    (hne : e.data ≠ []) (h : parseToPostfix F e = .ok tokens) :
    calculate F e = evaluate F tokens := by
  unfold calculate
  have hsz : ¬ size e = 0 := fun h0 => hne (List.length_eq_zero.1 h0)
  rw [if_neg hsz, h]

theorem evaluate_left {V : Type} (F : FloatOps V) (a b c : String) (va vb vc : V)
    (op1 op2 : Char) (h1 : op1 ∈ binarySymbols) (h2 : op2 ∈ binarySymbols) :
    evaluate F [numberToken a va, numberToken b vb, operatorToken F (String.singleton op1),
        numberToken c vc, operatorToken F (String.singleton op2)] =
      (applyOperator F (String.singleton op1) va vb).bind
        (fun r => applyOperator F (String.singleton op2) r vc) := by
  unfold evaluate
  rw [evalTokens_number, evalTokens_number, evalTokens_binary F op1 h1]
  cases hx : applyOperator F (String.singleton op1) va vb with
  | error err => rfl
  | ok r =>
    simp only [Except.bind]
    rw [evalTokens_number, evalTokens_binary F op2 h2]
    cases hy : applyOperator F (String.singleton op2) r vc with
    | error err => rfl
    | ok r2 => rfl

theorem evaluate_right {V : Type} (F : FloatOps V) (a b c : String) (va vb vc : V)
    (op1 op2 : Char) (h1 : op1 ∈ binarySymbols) (h2 : op2 ∈ binarySymbols) :
    evaluate F [numberToken a va, numberToken b vb, numberToken c vc,
        operatorToken F (String.singleton op2), operatorToken F (String.singleton op1)] =
      (applyOperator F (String.singleton op2) vb vc).bind
        (fun r => applyOperator F (String.singleton op1) va r) := by
  unfold evaluate
  rw [evalTokens_number, evalTokens_number, evalTokens_number, evalTokens_binary F op2 h2]
  cases hx : applyOperator F (String.singleton op2) vb vc with
  | error err => rfl
  | ok r =>
    simp only [Except.bind]
    rw [evalTokens_binary F op1 h1]
    cases hy : applyOperator F (String.singleton op1) va r with
    | error err => rfl
    | ok r2 => rfl

theorem isNumericLiteral_ne (a : String) (ha : isNumericLiteral a = true) : a.data ≠ [] := by
  obtain ⟨c, rest, h, _⟩ := isNumericLiteral_head a ha
  rw [h]; simp

/-- C1: for numeric literals `a`, `b`, `c` and binary operator symbols `op1`,
`op2`, written with any whitespace (possibly none) around the operators,
`parseToPostfix` returns `a b op1 c op2` when `op1` has the higher precedence,
or the same precedence with `op2` left-associative, and `a b c op2 op1`
otherwise; `calculate` then applies `op1` first in the former case and `op2`
first in the latter. -/
theorem c1_two_operators {V : Type} (F : FloatOps V) (a b c w1 w2 w3 w4 : String)
    (op1 op2 : Char) (va vb vc : V)
    (ha : isNumericLiteral a = true) (hb : isNumericLiteral b = true)
    (hc : isNumericLiteral c = true)
    (hva : F.stod a = some va) (hvb : F.stod b = some vb) (hvc : F.stod c = some vc)
    (hw1 : isBlank w1 = true) (hw2 : isBlank w2 = true) (hw3 : isBlank w3 = true)
    (hw4 : isBlank w4 = true) (h1 : op1 ∈ binarySymbols) (h2 : op2 ∈ binarySymbols) :
    parseToPostfix F
        (a ++ w1 ++ String.singleton op1 ++ w2 ++ b ++ w3 ++ String.singleton op2 ++ w4 ++ c) =
      .ok (if resolvedFirst op1 op2 = true then
          [numberToken a va, numberToken b vb, operatorToken F (String.singleton op1),
            numberToken c vc, operatorToken F (String.singleton op2)]
        else
          [numberToken a va, numberToken b vb, numberToken c vc,
            operatorToken F (String.singleton op2), operatorToken F (String.singleton op1)]) ∧
    calculate F
        (a ++ w1 ++ String.singleton op1 ++ w2 ++ b ++ w3 ++ String.singleton op2 ++ w4 ++ c) =
      (if resolvedFirst op1 op2 = true then
        (applyOperator F (String.singleton op1) va vb).bind
          (fun r => applyOperator F (String.singleton op2) r vc)
      else
        (applyOperator F (String.singleton op2) vb vc).bind
          (fun r => applyOperator F (String.singleton op1) va r)) := by
  have hp := parse_two_operators F a b c w1 w2 w3 w4 op1 op2 va vb vc ha hb hc hva hvb hvc
    hw1 hw2 hw3 hw4 h1 h2
  refine ⟨hp, ?_⟩
  have hne : (a ++ w1 ++ String.singleton op1 ++ w2 ++ b ++ w3 ++ String.singleton op2 ++ w4
      ++ c).data ≠ [] := by
    rw [data_binary_binary]
    have := isNumericLiteral_ne a ha
    simp [this]
  rw [calculate_of_parse F _ _ hne hp]
  by_cases hres : resolvedFirst op1 op2 = true
  · rw [if_pos hres, if_pos hres]; exact evaluate_left F a b c va vb vc op1 op2 h1 h2
  · rw [if_neg hres, if_neg hres]; exact evaluate_right F a b c va vb vc op1 op2 h1 h2

/-- Witness of C1 in exact arithmetic: `2 + 3 * 4` gives `2 3 4 * +` and 14;
`2^3^2` gives `2 3 2 ^ ^` and 512. -/
theorem c1_two_operators_witness :
    (parseToPostfix Exact.ops "2 + 3 * 4" =
        .ok [numberToken "2" 2, numberToken "3" 3, numberToken "4" 4,
          operatorToken Exact.ops "*", operatorToken Exact.ops "+"] ∧
      calculate Exact.ops "2 + 3 * 4" = .ok 14) ∧
    (parseToPostfix Exact.ops "2^3^2" =
        .ok [numberToken "2" 2, numberToken "3" 3, numberToken "2" 2,
          operatorToken Exact.ops "^", operatorToken Exact.ops "^"] ∧
      calculate Exact.ops "2^3^2" = .ok 512) := by
  have h1 := c1_two_operators Exact.ops "2" "3" "4" " " " " " " " " '+' '*' 2 3 4
    (by decide) (by decide) (by decide) (by decide) (by decide) (by decide)
    (by decide) (by decide) (by decide) (by decide) (by decide) (by decide)
  have h2 := c1_two_operators Exact.ops "2" "3" "2" "" "" "" "" '^' '^' 2 3 2
    (by decide) (by decide) (by decide) (by decide) (by decide) (by decide)
    (by decide) (by decide) (by decide) (by decide) (by decide) (by decide)
  refine ⟨⟨h1.1, ?_⟩, ⟨h2.1, ?_⟩⟩
  · refine h1.2.trans ?_
    rw [if_neg (by decide)]
    simp [applyOperator, Except.bind, String.singleton, String.ext_iff, Exact.ops]
    norm_num
  · refine h2.2.trans ?_
    rw [if_neg (by decide)]
    simp [applyOperator, Except.bind, String.singleton, String.ext_iff, Exact.ops, Exact.pow]
    norm_num

/-- C2: `3 + 4 * 2 / (1 - 5)^2` is converted to `3 4 2 * 1 5 - 2 ^ / +`, with
Number tokens for the literals, Operator tokens for the symbols and no
parenthesis token. -/
theorem c2_shunting_yard_example {V : Type} (F : FloatOps V) (v1 v2 v3 v4 v5 : V)
    (h1 : F.stod "1" = some v1) (h2 : F.stod "2" = some v2) (h3 : F.stod "3" = some v3)
    (h4 : F.stod "4" = some v4) (h5 : F.stod "5" = some v5) :
    parseToPostfix F "3 + 4 * 2 / (1 - 5)^2" =
      .ok [numberToken "3" v3, numberToken "4" v4, numberToken "2" v2, operatorToken F "*",
        numberToken "1" v1, numberToken "5" v5, operatorToken F "-", numberToken "2" v2,
        operatorToken F "^", operatorToken F "/", operatorToken F "+"] := by
  apply scan_top
  refine scan_number F _ "3" v3 [] " + 4 * 2 / (1 - 5)^2".data _ _ _ _
    (by decide) (by decide) h3 rfl rfl ?_
  refine scan_space F _ "3".data "+ 4 * 2 / (1 - 5)^2".data ' ' _ _ _ _ (by decide)
    rfl rfl ?_
  refine scan_operator F _ "3 ".data " 4 * 2 / (1 - 5)^2".data '+' _ _ _ _ _ _ _
    (by decide) rfl rfl rfl rfl ?_
  refine scan_space F _ "3 +".data "4 * 2 / (1 - 5)^2".data ' ' _ _ _ _ (by decide)
    rfl rfl ?_
  refine scan_number F _ "4" v4 "3 + ".data " * 2 / (1 - 5)^2".data _ _ _ _
    (by decide) (by decide) h4 rfl rfl ?_
  refine scan_space F _ "3 + 4".data "* 2 / (1 - 5)^2".data ' ' _ _ _ _ (by decide)
    rfl rfl ?_
  refine scan_operator F _ "3 + 4 ".data " 2 / (1 - 5)^2".data '*' _ _ _ _ _ _ _
    (by decide) rfl rfl rfl rfl ?_
  refine scan_space F _ "3 + 4 *".data "2 / (1 - 5)^2".data ' ' _ _ _ _ (by decide)
    rfl rfl ?_
  refine scan_number F _ "2" v2 "3 + 4 * ".data " / (1 - 5)^2".data _ _ _ _
    (by decide) (by decide) h2 rfl rfl ?_
  refine scan_space F _ "3 + 4 * 2".data "/ (1 - 5)^2".data ' ' _ _ _ _ (by decide)
    rfl rfl ?_
  refine scan_operator F _ "3 + 4 * 2 ".data " (1 - 5)^2".data '/' _ _ _ _ _ _ _
    (by decide) rfl rfl rfl rfl ?_
  refine scan_space F _ "3 + 4 * 2 /".data "(1 - 5)^2".data ' ' _ _ _ _ (by decide)
    rfl rfl ?_
  refine scan_open F _ "3 + 4 * 2 / ".data "1 - 5)^2".data _ _ _ _ rfl rfl ?_
  refine scan_number F _ "1" v1 "3 + 4 * 2 / (".data " - 5)^2".data _ _ _ _
    (by decide) (by decide) h1 rfl rfl ?_
  refine scan_space F _ "3 + 4 * 2 / (1".data "- 5)^2".data ' ' _ _ _ _ (by decide)
    rfl rfl ?_
  refine scan_operator F _ "3 + 4 * 2 / (1 ".data " 5)^2".data '-' _ _ _ _ _ _ _
    (by decide) rfl rfl rfl rfl ?_
  refine scan_space F _ "3 + 4 * 2 / (1 -".data "5)^2".data ' ' _ _ _ _ (by decide)
    rfl rfl ?_
  refine scan_number F _ "5" v5 "3 + 4 * 2 / (1 - ".data ")^2".data _ _ _ _
    (by decide) (by decide) h5 rfl rfl ?_
  refine scan_close F _ "3 + 4 * 2 / (1 - 5".data "^2".data _ _ _ _ _ _ rfl rfl rfl
    (by intro top rest h; cases h; intro hf; cases hf) ?_
  refine scan_operator F _ "3 + 4 * 2 / (1 - 5)".data "2".data '^' _ _ _ _ _ _ _
    (by decide) rfl rfl rfl rfl ?_
  refine scan_number F _ "2" v2 "3 + 4 * 2 / (1 - 5)^".data [] _ _ _ _
    (by decide) (by decide) h2 rfl rfl ?_
  exact scan_end F _ _ _ _ _ (by decide) rfl

/-- Witness of C2 in exact arithmetic. -/
theorem c2_shunting_yard_example_witness :
    parseToPostfix Exact.ops "3 + 4 * 2 / (1 - 5)^2" =
      .ok [numberToken "3" 3, numberToken "4" 4, numberToken "2" 2,
        operatorToken Exact.ops "*", numberToken "1" 1, numberToken "5" 5,
        operatorToken Exact.ops "-", numberToken "2" 2, operatorToken Exact.ops "^",
        operatorToken Exact.ops "/", operatorToken Exact.ops "+"] :=
  c2_shunting_yard_example Exact.ops 1 2 3 4 5 (by decide) (by decide) (by decide) (by decide)
    (by decide)

/-! ## Unary minus -/

theorem isBlank_space : isBlank " " = true := by decide

theorem isBlank_empty : isBlank "" = true := by decide

/-- The text `-a + b`. -/
theorem parse_neg_plus {V : Type} (F : FloatOps V) (a b : String) (va vb : V)
    (ha : isNumericLiteral a = true) (hb : isNumericLiteral b = true)
    (hva : F.stod a = some va) (hvb : F.stod b = some vb) :
    parseToPostfix F ("-" ++ a ++ " + " ++ b) =
      .ok [numberToken a va, operatorToken F "neg", numberToken b vb, operatorToken F "+"] := by
  have hE : ("-" ++ a ++ " + " ++ b).data = '-' :: (a.data ++ ' ' :: '+' :: ' ' :: b.data) := by
    simp [String.data_append]
  generalize ("-" ++ a ++ " + " ++ b) = e at hE
  apply scan_top
  refine scan_operator F e [] (a.data ++ ' ' :: '+' :: ' ' :: b.data) '-' _ _ _ _ _ _ "neg"
    (by decide) (by simpa using hE) rfl rfl rfl ?_
  refine scan_number F e a va ['-'] (' ' :: '+' :: ' ' :: b.data) _ _ _ _ ha rfl hva
    (by simpa using hE) rfl ?_
  refine scan_space F e (['-'] ++ a.data) ('+' :: ' ' :: b.data) ' ' _ _ _ _ (by decide)
    (by simpa using hE) (by simp; omega) ?_
  obtain ⟨l, hl, hd⟩ := lastNonSpace_literal ['-'] a " " ha isBlank_space
  refine scan_operator F e (['-'] ++ (a.data ++ (" " : String).data)) (' ' :: b.data) '+' _ _ _
    [numberToken a va, operatorToken F "neg"] [] _ "+"
    (by decide) (by simpa using hE) (by simp; omega) ?_ rfl ?_
  · rw [hl, unaryContext_number l _ (numberToken a va) hd (by simp [numberToken])]
    rfl
  refine scan_space F e (['-'] ++ a.data ++ [' ', '+']) b.data ' ' _ _ _ _ (by decide)
    (by simpa using hE) (by simp; omega) ?_
  refine scan_number F e b vb (['-'] ++ a.data ++ [' ', '+', ' ']) [] _ _ _ _ hb rfl hvb
    (by simpa using hE) (by simp; omega) ?_
  exact scan_end F e _ _ _ _ (by rw [size_of e _ hE]; simp; omega) rfl

/-- The text `a - -b`. -/
theorem parse_minus_neg {V : Type} (F : FloatOps V) (a b : String) (va vb : V)
    (ha : isNumericLiteral a = true) (hb : isNumericLiteral b = true)
    (hva : F.stod a = some va) (hvb : F.stod b = some vb) :
    parseToPostfix F (a ++ " - -" ++ b) =
      .ok [numberToken a va, numberToken b vb, operatorToken F "neg", operatorToken F "-"] := by
  have hE : (a ++ " - -" ++ b).data = a.data ++ ' ' :: '-' :: ' ' :: '-' :: b.data := by
    simp [String.data_append]
  generalize (a ++ " - -" ++ b) = e at hE
  apply scan_top
  refine scan_number F e a va [] (' ' :: '-' :: ' ' :: '-' :: b.data) _ _ _ _ ha rfl hva
    (by simpa using hE) rfl ?_
  refine scan_space F e a.data ('-' :: ' ' :: '-' :: b.data) ' ' _ _ _ _ (by decide)
    (by simpa using hE) (by simp) ?_
  obtain ⟨l, hl, hd⟩ := lastNonSpace_literal [] a " " ha isBlank_space
  refine scan_operator F e ([] ++ (a.data ++ (" " : String).data)) (' ' :: '-' :: b.data) '-' _ _
    _ [numberToken a va] [] _ "-"
    (by decide) (by simpa using hE) (by simp) ?_ rfl ?_
  · rw [hl, unaryContext_number l _ (numberToken a va) hd (by simp [numberToken])]
    rfl
  refine scan_space F e (a.data ++ [' ', '-']) ('-' :: b.data) ' ' _ _ _ _ (by decide)
    (by simpa using hE) (by simp) ?_
  have hlast : lastNonSpace ((a.data ++ [' ']) ++ ['-'] ++ [' ']) = some '-' := by
    rw [lastNonSpace_append_singleton, if_pos (by decide),
      lastNonSpace_append_char _ '-' (by decide)]
  refine scan_operator F e ((a.data ++ [' ']) ++ ['-'] ++ [' ']) b.data '-' _ _ _
    [numberToken a va] [operatorToken F "-"] _ "neg"
    (by decide) (by simpa using hE) (by simp) ?_ rfl ?_
  · rw [hlast]; rfl
  refine scan_number F e b vb (a.data ++ [' ', '-', ' ', '-']) [] _ _ _ _ hb rfl hvb
    (by simpa using hE) (by simp) ?_
  exact scan_end F e _ _ _ _ (by rw [size_of e _ hE]; simp; omega) rfl

/-- The text `-(a+b)`. -/
theorem parse_neg_group {V : Type} (F : FloatOps V) (a b : String) (va vb : V)
    (ha : isNumericLiteral a = true) (hb : isNumericLiteral b = true)
    (hva : F.stod a = some va) (hvb : F.stod b = some vb) :
    parseToPostfix F ("-(" ++ a ++ "+" ++ b ++ ")") =
      .ok [numberToken a va, numberToken b vb, operatorToken F "+", operatorToken F "neg"] := by
  have hE : ("-(" ++ a ++ "+" ++ b ++ ")").data =
      '-' :: '(' :: (a.data ++ '+' :: (b.data ++ [')'])) := by
    simp [String.data_append]
  generalize ("-(" ++ a ++ "+" ++ b ++ ")") = e at hE
  apply scan_top
  refine scan_operator F e [] ('(' :: (a.data ++ '+' :: (b.data ++ [')']))) '-' _ _ _ _ _ _ "neg"
    (by decide) (by simpa using hE) rfl rfl rfl ?_
  refine scan_open F e ['-'] (a.data ++ '+' :: (b.data ++ [')'])) _ _ _ _
    (by simpa using hE) rfl ?_
  refine scan_number F e a va ['-', '('] ('+' :: (b.data ++ [')'])) _ _ _ _ ha rfl hva
    (by simpa using hE) rfl ?_
  obtain ⟨l, hl, hd⟩ := lastNonSpace_literal ['-', '('] a "" ha isBlank_empty
  refine scan_operator F e (['-', '('] ++ (a.data ++ ("" : String).data)) (b.data ++ [')']) '+' _
    _ _ [numberToken a va] [openParenToken F, operatorToken F "neg"] _ "+"
    (by decide) (by simpa using hE) (by simp; omega) ?_ rfl ?_
  · rw [hl, unaryContext_number l _ (numberToken a va) hd (by simp [numberToken])]
    rfl
  refine scan_number F e b vb (['-', '('] ++ a.data ++ ['+']) [')'] _ _ _ _ hb rfl hvb
    (by simpa using hE) (by simp; omega) ?_
  refine scan_close F e (['-', '('] ++ a.data ++ ['+'] ++ b.data) [] _ _ _
    [numberToken a va, numberToken b vb, operatorToken F "+"] [operatorToken F "neg"] _
    (by simpa using hE) (by simp; omega) rfl (by intro top rest h; cases h; intro hf; cases hf) ?_
  exact scan_end F e _ _ _ _ (by rw [size_of e _ hE]; simp; omega) rfl

theorem evalTokens_add {V : Type} (F : FloatOps V) (tokens : List (Token V)) (x y : V)
    (stack : List V) :
    evalTokens F (operatorToken F "+" :: tokens) (y :: x :: stack) =
      evalTokens F tokens (F.add x y :: stack) := by
  simp [evalTokens, operatorToken, applyOperator]

theorem evalTokens_sub {V : Type} (F : FloatOps V) (tokens : List (Token V)) (x y : V)
    (stack : List V) :
    evalTokens F (operatorToken F "-" :: tokens) (y :: x :: stack) =
      evalTokens F tokens (F.sub x y :: stack) := by
  simp [evalTokens, operatorToken, applyOperator]

/-- C3: unary minus is told apart from binary minus. For numeric literals `a`
and `b`, `-a + b` is converted to `a neg b +`, `a - -b` to `a b neg -` and
`-(a+b)` to `a b + neg`, and `calculate` returns `(-a)+b`, `a-(-b)` and
`-(a+b)`. -/
theorem c3_unary_minus {V : Type} (F : FloatOps V) (a b : String) (va vb : V)
    (ha : isNumericLiteral a = true) (hb : isNumericLiteral b = true)
    (hva : F.stod a = some va) (hvb : F.stod b = some vb) :
    (parseToPostfix F ("-" ++ a ++ " + " ++ b) =
        .ok [numberToken a va, operatorToken F "neg", numberToken b vb, operatorToken F "+"] ∧
      calculate F ("-" ++ a ++ " + " ++ b) = .ok (F.add (F.neg va) vb)) ∧
    (parseToPostfix F (a ++ " - -" ++ b) =
        .ok [numberToken a va, numberToken b vb, operatorToken F "neg", operatorToken F "-"] ∧
      calculate F (a ++ " - -" ++ b) = .ok (F.sub va (F.neg vb))) ∧
    (parseToPostfix F ("-(" ++ a ++ "+" ++ b ++ ")") =
        .ok [numberToken a va, numberToken b vb, operatorToken F "+", operatorToken F "neg"] ∧
      calculate F ("-(" ++ a ++ "+" ++ b ++ ")") = .ok (F.neg (F.add va vb))) := by
  have p1 := parse_neg_plus F a b va vb ha hb hva hvb
  have p2 := parse_minus_neg F a b va vb ha hb hva hvb
  have p3 := parse_neg_group F a b va vb ha hb hva hvb
  refine ⟨⟨p1, ?_⟩, ⟨p2, ?_⟩, ⟨p3, ?_⟩⟩
  · rw [calculate_of_parse F _ _ (by simp [String.data_append]) p1]
    unfold evaluate
    rw [evalTokens_number, evalTokens_neg, evalTokens_number, evalTokens_add]
    rfl
  · rw [calculate_of_parse F _ _ (by simp [String.data_append]) p2]
    unfold evaluate
    rw [evalTokens_number, evalTokens_number, evalTokens_neg, evalTokens_sub]
    rfl
  · rw [calculate_of_parse F _ _ (by simp [String.data_append]) p3]
    unfold evaluate
    rw [evalTokens_number, evalTokens_number, evalTokens_add, evalTokens_neg]
    rfl

/-- Witness of C3 in exact arithmetic: `-3 + 4` is 1, `3 - -4` is 7 and
`-(2+3)` is -5. -/
theorem c3_unary_minus_witness :
    calculate Exact.ops "-3 + 4" = .ok 1 ∧ calculate Exact.ops "3 - -4" = .ok 7 ∧
      calculate Exact.ops "-(2+3)" = .ok (-5) := by
  have h1 := (c3_unary_minus Exact.ops "3" "4" 3 4 (by decide) (by decide) (by decide)
    (by decide)).1.2
  have h2 := (c3_unary_minus Exact.ops "3" "4" 3 4 (by decide) (by decide) (by decide)
    (by decide)).2.1.2
  have h3 := (c3_unary_minus Exact.ops "2" "3" 2 3 (by decide) (by decide) (by decide)
    (by decide)).2.2.2
  refine ⟨h1.trans ?_, h2.trans ?_, h3.trans ?_⟩
  · simp only [Exact.ops]; norm_num
  · simp only [Exact.ops]; norm_num
  · simp only [Exact.ops]; norm_num

/-! ## Behaviour at particular inputs -/

/-- C4: a unary `+` is not discarded. On `+2` the parser emits the binary
Operator token `+` after the number, and `calculate` fails with InvalidInput;
on `2 * +3` it returns `2 * 3 +`, on which `calculate` fails as well. -/
theorem c4_unary_plus_token :
    parseToPostfix Exact.ops "+2" =
        .ok [numberToken "2" 2, operatorToken Exact.ops "+"] ∧
      calculate Exact.ops "+2" =
        .error (.InvalidInput "Insufficient operands for binary operator: +") ∧
      parseToPostfix Exact.ops "2 * +3" =
        .ok [numberToken "2" 2, operatorToken Exact.ops "*", numberToken "3" 3,
          operatorToken Exact.ops "+"] ∧
      calculate Exact.ops "2 * +3" =
        .error (.InvalidInput "Insufficient operands for binary operator: *") := by
  refine ⟨by decide, by decide, by decide, by decide⟩

/-- C5: after a closed group whose last emitted token is an operator, `-` is
taken as unary. `(2+3) - 4` is converted to `2 3 + 4 neg` and `calculate`
fails with InvalidInput, while `(5) - 4` is converted to `5 4 -`. -/
theorem c5_minus_after_group :
    parseToPostfix Exact.ops "(2+3) - 4" =
        .ok [numberToken "2" 2, numberToken "3" 3, operatorToken Exact.ops "+",
          numberToken "4" 4, operatorToken Exact.ops "neg"] ∧
      calculate Exact.ops "(2+3) - 4" =
        .error (.InvalidInput "Invalid expression: stack contains 2 values") ∧
      parseToPostfix Exact.ops "(5) - 4" =
        .ok [numberToken "5" 5, numberToken "4" 4, operatorToken Exact.ops "-"] := by
  refine ⟨by decide, ?_, by decide⟩
  have hp : parseToPostfix Exact.ops "(2+3) - 4" =
      .ok [numberToken "2" 2, numberToken "3" 3, operatorToken Exact.ops "+",
        numberToken "4" 4, operatorToken Exact.ops "neg"] := by decide
  rw [calculate_of_parse Exact.ops _ _ (by decide) hp]
  unfold evaluate
  rw [evalTokens_number, evalTokens_number, evalTokens_add, evalTokens_number, evalTokens_neg]
  rfl

/-- C6: `sin(pi/2)` is converted to `pi 2 / sin`; but `2e` is converted to the
number 2 followed by the constant `e`, while `sin(2e)` fails with
InvalidInput. -/
theorem c6_function_after_argument :
    parseToPostfix Exact.ops "sin(pi/2)" =
        .ok [⟨.Constant, "pi", Exact.ops.pi⟩, numberToken "2" 2, operatorToken Exact.ops "/",
          functionToken Exact.ops "sin"] ∧
      parseToPostfix Exact.ops "2e" = .ok [numberToken "2" 2, ⟨.Constant, "e", Exact.ops.e⟩] ∧
      parseToPostfix Exact.ops "sin(2e)" =
        .error (.InvalidInput "Malformed exponent in number literal") := by
  refine ⟨by decide, by decide, by decide⟩

/-- C10: an `e` that ends the input right after the digits of a literal is
not rejected. `2e` is converted to the number 2 followed by the constant `e`,
and `3 * 2e` to `3 2 e *`; with one more character, as in `2e ` and `2e+`, the
parser fails with InvalidInput. -/
theorem c10_exponent_at_end :
    parseToPostfix Exact.ops "2e" = .ok [numberToken "2" 2, ⟨.Constant, "e", Exact.ops.e⟩] ∧
      parseToPostfix Exact.ops "3 * 2e" =
        .ok [numberToken "3" 3, numberToken "2" 2, ⟨.Constant, "e", Exact.ops.e⟩,
          operatorToken Exact.ops "*"] ∧
      parseToPostfix Exact.ops "2e " =
        .error (.InvalidInput "Malformed exponent in number literal") ∧
      parseToPostfix Exact.ops "2e+" =
        .error (.InvalidInput "Malformed exponent in number literal") := by
  refine ⟨by decide, by decide, by decide, by decide⟩

/-! ## The characters one iteration consumes -/

theorem skipDigits_chars (e : String) (n i : Nat) :
    ∀ k, i ≤ k → k < skipDigits e n i → isdigit (charAt e k) = true := by
  induction n generalizing i with
  | zero => intro k h1 h2; simp only [skipDigits] at h2; omega
  | succ n ih =>
    intro k h1 h2
    rw [skipDigits_succ] at h2
    by_cases hc : i < size e ∧ isdigit (charAt e i) = true
    · rw [if_pos hc] at h2
      rcases Nat.eq_or_lt_of_le h1 with rfl | hlt
      · exact hc.2
      · exact ih (i + 1) k hlt h2
    · rw [if_neg hc] at h2; omega

theorem isNumberChar_digit (c : Char) (h : isdigit c = true) : isNumberChar c = true := by
  simp [isNumberChar, h]

theorem scanExponent_chars (e : String) (i r : Nat)
    (hletter : charAt e i = 'e' ∨ charAt e i = 'E')
    (h : scanExponent e i = .ok r) :
    ∀ k, i ≤ k → k < r → isNumberChar (charAt e k) = true := by
  obtain ⟨x, hx, hx2⟩ := scanExponent_eq e i
  rw [hx2] at h
  by_cases hc : x ≥ size e ∨ isdigit (charAt e x) = false
  · rw [if_pos hc] at h; cases h
  · rw [if_neg hc] at h
    simp only [Except.ok.injEq] at h
    have hdx : isdigit (charAt e x) = true := by
      cases hd : isdigit (charAt e x) with
      | true => rfl
      | false => exact (hc (Or.inr hd)).elim
    intro k h1 h2
    have hl : isNumberChar (charAt e i) = true := by
      rcases hletter with hh | hh <;> rw [hh] <;> decide
    by_cases hk : x + 1 ≤ k
    · exact isNumberChar_digit _ (skipDigits_chars e _ (x + 1) k hk (by rw [h]; exact h2))
    · rcases hx with rfl | ⟨rfl, hsign⟩
      · have : k = i ∨ k = i + 1 := by omega
        rcases this with rfl | rfl
        · exact hl
        · exact isNumberChar_digit _ hdx
      · have : k = i ∨ k = i + 1 ∨ k = i + 2 := by omega
        rcases this with rfl | rfl | rfl
        · exact hl
        · rcases hsign with hh | hh <;> rw [hh] <;> decide
        · exact isNumberChar_digit _ hdx

theorem scanNumber_chars (e : String) (n i : Nat) (dot : Bool) (r : Nat)
    (h : scanNumber e n i dot = .ok r) :
    ∀ k, i ≤ k → k < r → isNumberChar (charAt e k) = true := by
  induction n generalizing i dot with
  | zero => intro k h1 h2; simp [scanNumber] at h; omega
  | succ n ih =>
    intro k h1 h2
    rw [scanNumber_succ] at h
    by_cases hlt : i < size e
    · rw [if_pos hlt] at h
      by_cases hd : isdigit (charAt e i) = true
      · rw [if_pos hd] at h
        rcases Nat.eq_or_lt_of_le h1 with rfl | hgt
        · exact isNumberChar_digit _ hd
        · exact ih (i + 1) dot h k hgt h2
      · rw [if_neg hd] at h
        by_cases hp : charAt e i = '.' ∧ dot = false
        · rw [if_pos hp] at h
          rcases Nat.eq_or_lt_of_le h1 with rfl | hgt
          · rw [hp.1]; decide
          · exact ih (i + 1) true h k hgt h2
        · rw [if_neg hp] at h
          by_cases hexp : (charAt e i = 'e' ∨ charAt e i = 'E') ∧ i + 1 < size e
          · rw [if_pos hexp] at h
            exact scanExponent_chars e i r hexp.1 h k h1 h2
          · rw [if_neg hexp] at h
            simp only [Except.ok.injEq] at h
            omega
    · rw [if_neg hlt] at h
      simp only [Except.ok.injEq] at h
      omega

theorem scanIdentifier_chars (e : String) (n i : Nat) :
    ∀ k, i ≤ k → k < scanIdentifier e n i →
      (isIdentifierChar (charAt e k) = true ∨ isdigit (charAt e k) = true) := by
  induction n generalizing i with
  | zero => intro k h1 h2; simp only [scanIdentifier] at h2; omega
  | succ n ih =>
    intro k h1 h2
    simp only [scanIdentifier] at h2
    by_cases hc : i < size e ∧
        (isIdentifierChar (charAt e i) = true ∨ isdigit (charAt e i) = true)
    · rw [if_pos hc] at h2
      rcases Nat.eq_or_lt_of_le h1 with rfl | hlt
      · exact hc.2
      · exact ih (i + 1) k hlt h2
    · rw [if_neg hc] at h2; omega

theorem isPlain_digit (c : Char) (h : isdigit c = true) : isPlain c := by
  simp only [isdigit, Char.isDigit, Bool.and_eq_true, decide_eq_true_eq] at h
  have h48 : 48 ≤ c.val := h.1
  refine ⟨?_, ?_, ?_⟩ <;> (intro hc; rw [hc] at h48; revert h48; decide)

theorem isPlain_numberChar (c : Char) (h : isNumberChar c = true) : isPlain c := by
  simp only [isNumberChar, Bool.or_eq_true, decide_eq_true_eq] at h
  rcases h with ((((h | h) | h) | h) | h) | h
  · exact isPlain_digit c h
  all_goals (rw [h]; refine ⟨?_, ?_, ?_⟩ <;> decide)

theorem isPlain_identifierChar (c : Char) (h : isIdentifierChar c = true) : isPlain c := by
  simp only [isIdentifierChar, isalpha, Char.isAlpha, Char.isUpper, Char.isLower,
    Bool.or_eq_true, Bool.and_eq_true, decide_eq_true_eq] at h
  rcases h with (h | h) | h
  · have h65 : 65 ≤ c.val := h.1
    refine ⟨?_, ?_, ?_⟩ <;> (intro hc; rw [hc] at h65; revert h65; decide)
  · have h97 : 97 ≤ c.val := h.1
    refine ⟨?_, ?_, ?_⟩ <;> (intro hc; rw [hc] at h97; revert h97; decide)
  · rw [h]; refine ⟨?_, ?_, ?_⟩ <;> decide

theorem isPlain_space (c : Char) (h : isspace c = true) : isPlain c := by
  refine ⟨?_, ?_, ?_⟩ <;> (intro hc; rw [hc] at h; revert h; decide)

theorem openMarkers_cons {V : Type} (t : Token V) (stack : List (Token V)) :
    openMarkers (t :: stack) = openMarkers stack + (if t.type = .OpenParen then 1 else 0) := by
  unfold openMarkers
  rw [List.countP_cons]
  by_cases h : t.type = .OpenParen <;> simp [h]

theorem openMarkers_append_of_none {V : Type} (popped stack : List (Token V))
    (h : ∀ t ∈ popped, t.type ≠ .OpenParen) :
    openMarkers (popped ++ stack) = openMarkers stack := by
  induction popped with
  | nil => rfl
  | cons t ts ih =>
    rw [List.cons_append, openMarkers_cons, if_neg (h t (List.mem_cons_self _ _)),
      ih (fun x hx => h x (List.mem_cons_of_mem _ hx))]
    rfl

/-- What one successful iteration consumes and what it does to the markers on
the stack: it reads `(` and pushes a marker, or reads `)` and removes one, or
reads only characters other than parentheses and leaves the markers alone; it
never reads a comma. -/
theorem parseStep_chars {V : Type} (F : FloatOps V) (e : String) (i : Nat)
    (output stack : List (Token V)) (i' : Nat) (output' stack' : List (Token V))
    (h : parseStep F e i output stack = .ok (i', output', stack')) :
    (i' = i + 1 ∧ charAt e i = '(' ∧ openMarkers stack' = openMarkers stack + 1) ∨
    (i' = i + 1 ∧ charAt e i = ')' ∧ openMarkers stack' + 1 = openMarkers stack) ∨
    ((∀ k, i ≤ k → k < i' → isPlain (charAt e k)) ∧ openMarkers stack' = openMarkers stack) := by
  rcases parseStep_cases F e i output stack i' output' stack' h with
    ⟨hsp, h1, _, h3⟩ | ⟨_, number, hp, _, h3⟩ | ⟨_, identifier, hp, hh⟩ | ⟨hc, h1, _, h3⟩ |
    ⟨hc, h1, o, s, hp, hh⟩ | ⟨_, hno, hnc, hnm, opToken, o, s, hp, hr, _, h3⟩
  · refine Or.inr (Or.inr ⟨?_, by rw [h3]⟩)
    intro k hk1 hk2
    have : k = i := by omega
    subst this
    exact isPlain_space _ hsp
  · refine Or.inr (Or.inr ⟨?_, by rw [h3]⟩)
    intro k hk1 hk2
    exact isPlain_numberChar _
      (scanNumber_chars e _ i false i' (parseNumber_ok F e i number i' hp).1 k hk1 hk2)
  · have hi' := (parseIdentifier_ok F e i identifier i' hp).1
    refine Or.inr (Or.inr ⟨?_, ?_⟩)
    · intro k hk1 hk2
      rcases scanIdentifier_chars e _ i k hk1 (by rw [← hi']; exact hk2) with hid | hd
      · exact isPlain_identifierChar _ hid
      · exact isPlain_digit _ hd
    · rcases hh with ⟨_, _, h3⟩ | ⟨hf, _, h3⟩
      · rw [h3]
      · rw [h3, openMarkers_cons, if_neg (by rw [hf]; decide)]; rfl
  · refine Or.inl ⟨h1, hc, ?_⟩
    rw [h3, openMarkers_cons]; rfl
  · refine Or.inr (Or.inl ⟨h1, hc, ?_⟩)
    obtain ⟨popped, marker, hst, hm, _, hnone⟩ := popToOpenParen_some output stack o s hp
    have hcount : openMarkers stack = openMarkers s + 1 := by
      rw [hst, openMarkers_append_of_none popped _ hnone, openMarkers_cons, if_pos hm]
    rcases hh with ⟨top, rest, hs2, hf, _, h3⟩ | ⟨_, _, h3⟩
    · rw [h3, hcount, hs2, openMarkers_cons, if_neg (by rw [hf]; decide)]
    · rw [h3, hcount]
  · have hi' := (parseOperator_ok F e i output opToken i' hp).1
    have hty := (parseOperator_ok F e i output opToken i' hp).2.1
    obtain ⟨popped, hst, _, hops⟩ := reduceOperators_ok opToken output stack o s hr
    refine Or.inr (Or.inr ⟨?_, ?_⟩)
    · intro k hk1 hk2
      have : k = i := by omega
      subst this
      exact ⟨hno, hnc, hnm⟩
    · rw [h3, openMarkers_cons, if_neg (by rw [hty]; decide), hst,
        openMarkers_append_of_none popped s (fun t ht => by rw [hops t ht]; decide)]
      rfl

/-! ## Commas -/

theorem charAt_of_mem (e : String) (c : Char) (h : c ∈ e.data) :
    ∃ j, j < size e ∧ charAt e j = c := by
  obtain ⟨j, hj, hget⟩ := List.getElem_of_mem h
  refine ⟨j, hj, ?_⟩
  unfold charAt
  rw [List.getD_eq_getElem?_getD, List.getElem?_eq_getElem hj]
  exact hget

/-- While a comma lies ahead the loop cannot end with a token sequence. -/
theorem parseLoop_comma {V : Type} (F : FloatOps V) (e : String) (fuel i : Nat)
    (output stack r : List (Token V))
    (hcomma : ∃ j, i ≤ j ∧ j < size e ∧ charAt e j = ',') :
    parseLoop F e fuel i output stack ≠ .ok r := by
  induction fuel generalizing i output stack with
  | zero => intro h; cases h
  | succ fuel ih =>
    obtain ⟨j, hij, hj, hc⟩ := hcomma
    have hlt : i < size e := by omega
    rw [parseLoop_succ, if_pos hlt]
    cases hp : parseStep F e i output stack with
    | error err => intro h; cases h
    | ok res =>
      obtain ⟨i', o', s'⟩ := res
      simp only
      apply ih
      refine ⟨j, ?_, hj, hc⟩
      -- the comma was not consumed
      by_contra hlt2
      have hplain : isPlain (charAt e j) := by
        rcases parseStep_chars F e i output stack i' o' s' hp with
          ⟨h1, hopen, _⟩ | ⟨h1, hclose, _⟩ | ⟨hall, _⟩
        · have : j = i := by omega
          subst this
          rw [hc] at hopen; cases hopen
        · have : j = i := by omega
          subst this
          rw [hc] at hclose; cases hclose
        · exact hall j hij (by omega)
      exact hplain.2.2 hc

theorem calculate_error_of_parse {V : Type} (F : FloatOps V) (e : String) (err : CalcError)
    (hne : e.data ≠ []) (h : parseToPostfix F e = .error err) :
    calculate F e = .error err := by
  unfold calculate
  have hsz : ¬ size e = 0 := fun h0 => hne (List.length_eq_zero.1 h0)
  rw [if_neg hsz, h]

/-- C8: an expression that contains a comma anywhere is rejected:
`parseToPostfix`, and hence `calculate`, fails with InvalidInput. -/
theorem c8_comma_rejected {V : Type} (F : FloatOps V) (e : String) (h : ',' ∈ e.data) :
    (∃ message, parseToPostfix F e = .error (.InvalidInput message)) ∧
      (∃ message, calculate F e = .error (.InvalidInput message)) := by
  have hparse : ∃ message, parseToPostfix F e = .error (.InvalidInput message) := by
    obtain ⟨j, hj, hc⟩ := charAt_of_mem e ',' h
    cases hp : parseToPostfix F e with
    | ok r =>
      exact (parseLoop_comma F e _ 0 [] [] r ⟨j, Nat.zero_le _, hj, hc⟩ hp).elim
    | error err =>
      obtain ⟨message, hm⟩ := parseToPostfix_error F e err hp
      exact ⟨message, by rw [hm]⟩
  refine ⟨hparse, ?_⟩
  obtain ⟨message, hm⟩ := hparse
  exact ⟨message, calculate_error_of_parse F e _ (List.ne_nil_of_mem h) hm⟩

/-- Witness of C8: `2,3` is rejected. -/
theorem c8_comma_rejected_witness :
    (∃ message, parseToPostfix Exact.ops "2,3" = .error (.InvalidInput message)) ∧
      (∃ message, calculate Exact.ops "2,3" = .error (.InvalidInput message)) :=
  c8_comma_rejected Exact.ops "2,3" (by decide)

/-! ## Parentheses -/

theorem countBefore_zero (e : String) (c : Char) : countBefore e c 0 = 0 := by
  simp [countBefore]

theorem countBefore_succ_ne (e : String) (c : Char) (k : Nat) (h : charAt e k ≠ c) :
    countBefore e c (k + 1) = countBefore e c k := by
  unfold countBefore
  by_cases hk : k < e.data.length
  · have hch : e.data[k] ≠ c := by
      intro hh
      apply h
      unfold charAt
      rw [List.getD_eq_getElem?_getD, List.getElem?_eq_getElem hk]
      exact hh
    rw [List.take_succ, List.getElem?_eq_getElem hk, List.count_append]
    simp [List.count_singleton, hch]
  · rw [List.take_of_length_le (by omega), List.take_of_length_le (by omega)]

theorem countBefore_succ_eq (e : String) (c : Char) (k : Nat) (hk : k < size e)
    (h : charAt e k = c) : countBefore e c (k + 1) = countBefore e c k + 1 := by
  unfold countBefore
  have hk2 : k < e.data.length := hk
  have hch : e.data[k] = c := by
    unfold charAt at h
    rw [List.getD_eq_getElem?_getD, List.getElem?_eq_getElem hk2] at h
    exact h
  rw [List.take_succ, List.getElem?_eq_getElem hk2, List.count_append]
  simp [List.count_singleton, hch]

theorem countBefore_range (e : String) (c : Char) (i i' : Nat)
    (h : ∀ k, i ≤ k → k < i' → charAt e k ≠ c) :
    ∀ k, i ≤ k → k ≤ i' → countBefore e c k = countBefore e c i := by
  intro k
  induction k with
  | zero => intro h1 _; have : i = 0 := by omega
            subst this; rfl
  | succ k ih =>
    intro h1 h2
    rcases Nat.eq_or_lt_of_le h1 with heq | hlt
    · rw [heq]
    · rw [countBefore_succ_ne e c k (h k (by omega) (by omega))]
      exact ih (by omega) (by omega)

theorem countBefore_all (e : String) (c : Char) (k : Nat) (h : size e ≤ k) :
    countBefore e c k = e.data.count c := by
  unfold countBefore
  rw [List.take_of_length_le h]

theorem parseStep_balanced {V : Type} (F : FloatOps V) (e : String) (i : Nat)
    (output stack : List (Token V)) (i' : Nat) (output' stack' : List (Token V))
    (hlt : i < size e) (hb : Balanced e i stack)
    (h : parseStep F e i output stack = .ok (i', output', stack')) :
    Balanced e i' stack' := by
  obtain ⟨hb1, hb2⟩ := hb
  rcases parseStep_chars F e i output stack i' output' stack' h with
    ⟨h1, hopen, hm⟩ | ⟨h1, hclose, hm⟩ | ⟨hall, hm⟩
  · subst h1
    have e1 := countBefore_succ_eq e '(' i hlt hopen
    have e2 := countBefore_succ_ne e ')' i (by rw [hopen]; decide)
    refine ⟨by omega, ?_⟩
    intro k hk
    rcases Nat.eq_or_lt_of_le hk with rfl | hk2
    · omega
    · exact hb2 k (by omega)
  · subst h1
    have e1 := countBefore_succ_eq e ')' i hlt hclose
    have e2 := countBefore_succ_ne e '(' i (by rw [hclose]; decide)
    refine ⟨by omega, ?_⟩
    intro k hk
    rcases Nat.eq_or_lt_of_le hk with rfl | hk2
    · omega
    · exact hb2 k (by omega)
  · have r1 := countBefore_range e '(' i i' (fun k h1 h2 => (hall k h1 h2).1)
    have r2 := countBefore_range e ')' i i' (fun k h1 h2 => (hall k h1 h2).2.1)
    have hprog := parseStep_progress F e i output stack i' output' stack' hlt h
    refine ⟨?_, ?_⟩
    · rw [hm, r1 i' (by omega) (Nat.le_refl _), r2 i' (by omega) (Nat.le_refl _)]
      exact hb1
    intro k hk
    by_cases hki : k ≤ i
    · exact hb2 k hki
    · rw [r1 k (by omega) hk, r2 k (by omega) hk]
      exact hb2 i (Nat.le_refl _)

theorem parseLoop_balanced {V : Type} (F : FloatOps V) (e : String) (fuel i : Nat)
    (output stack r : List (Token V)) (hb : Balanced e i stack)
    (h : parseLoop F e fuel i output stack = .ok r) :
    (∀ k, countBefore e ')' k ≤ countBefore e '(' k) ∧ e.data.count ')' = e.data.count '(' := by
  induction fuel generalizing i output stack with
  | zero => cases h
  | succ fuel ih =>
    rw [parseLoop_succ] at h
    by_cases hlt : i < size e
    · rw [if_pos hlt] at h
      cases hp : parseStep F e i output stack with
      | error err => rw [hp] at h; cases h
      | ok res =>
        obtain ⟨i', o', s'⟩ := res
        rw [hp] at h
        exact ih i' o' s' (parseStep_balanced F e i output stack i' o' s' hlt hb hp) h
    · rw [if_neg hlt] at h
      obtain ⟨_, hnone⟩ := drain_ok_inv output stack r h
      have hzero : openMarkers stack = 0 := by
        have := openMarkers_append_of_none stack [] (fun t ht => (hnone t ht).1)
        simpa [openMarkers] using this
      obtain ⟨hb1, hb2⟩ := hb
      have hall1 := countBefore_all e ')' i (by omega)
      have hall2 := countBefore_all e '(' i (by omega)
      refine ⟨?_, by omega⟩
      intro k
      by_cases hk : k ≤ i
      · exact hb2 k hk
      · rw [countBefore_all e ')' k (by omega), countBefore_all e '(' k (by omega)]
        omega

theorem balanced_start {V : Type} (e : String) : Balanced e 0 ([] : List (Token V)) := by
  refine ⟨by simp [openMarkers, countBefore_zero], ?_⟩
  intro k hk
  have : k = 0 := by omega
  subst this
  simp [countBefore_zero]

/-- C7: unbalanced parentheses are rejected. If some stretch of the input from
its start has more `)` than `(`, or the whole input has more `(` than `)`,
`parseToPostfix` fails with InvalidInput; and whenever `parseToPostfix`
succeeds, no such stretch exists and the two counts are equal. -/
theorem c7_unbalanced_rejected {V : Type} (F : FloatOps V) (e : String) :
    (((∃ k, countBefore e '(' k < countBefore e ')' k) ∨
        e.data.count ')' < e.data.count '(') →
      ∃ message, parseToPostfix F e = .error (.InvalidInput message)) ∧
    (∀ r, parseToPostfix F e = .ok r →
      (∀ k, countBefore e ')' k ≤ countBefore e '(' k) ∧
        e.data.count ')' = e.data.count '(') := by
  have hok : ∀ r, parseToPostfix F e = .ok r →
      (∀ k, countBefore e ')' k ≤ countBefore e '(' k) ∧
        e.data.count ')' = e.data.count '(' :=
    fun r hr => parseLoop_balanced F e _ 0 [] [] r (balanced_start e) hr
  refine ⟨?_, hok⟩
  intro hbad
  cases hp : parseToPostfix F e with
  | ok r =>
    obtain ⟨h1, h2⟩ := hok r hp
    rcases hbad with ⟨k, hk⟩ | hlt
    · have := h1 k; omega
    · omega
  | error err =>
    obtain ⟨message, hm⟩ := parseToPostfix_error F e err hp
    exact ⟨message, by rw [hm]⟩

/-- Witness of C7: `2 + 3)` and `(2 + 3` are rejected. -/
theorem c7_unbalanced_rejected_witness :
    (∃ message, parseToPostfix Exact.ops "2 + 3)" = .error (.InvalidInput message)) ∧
      (∃ message, parseToPostfix Exact.ops "(2 + 3" = .error (.InvalidInput message)) :=
  ⟨(c7_unbalanced_rejected Exact.ops "2 + 3)").1 (Or.inl ⟨6, by decide⟩),
   (c7_unbalanced_rejected Exact.ops "(2 + 3").1 (Or.inr (by decide))⟩

/-! ## Unknown identifiers -/

theorem charAt_eq_getElem (e : String) (i : Nat) (h : i < e.data.length) :
    charAt e i = e.data[i] := by
  unfold charAt
  rw [List.getD_eq_getElem?_getD, List.getElem?_eq_getElem h]
  rfl

theorem scanIdentifier_run (e : String) (n i : Nat) (hn : n = size e - i) :
    scanIdentifier e n i = i + (identifierRun e i).length := by
  induction n generalizing i with
  | zero =>
    have hle : e.data.length ≤ i := by unfold size at hn; omega
    simp [scanIdentifier, identifierRun, List.drop_eq_nil_of_le hle]
  | succ n ih =>
    have hlt : i < e.data.length := by unfold size at hn; omega
    have hdrop : e.data.drop i = e.data[i] :: e.data.drop (i + 1) :=
      List.drop_eq_getElem_cons hlt
    simp only [scanIdentifier]
    rw [charAt_eq_getElem e i hlt]
    by_cases hc : isIdentifierChar e.data[i] = true ∨ isdigit e.data[i] = true
    · rw [if_pos ⟨hlt, hc⟩, ih (i + 1) (by omega)]
      unfold identifierRun
      rw [hdrop, List.takeWhile_cons_of_pos (by simpa using hc)]
      simp only [List.length_cons]
      omega
    · rw [if_neg (fun hh => hc hh.2)]
      unfold identifierRun
      rw [hdrop, List.takeWhile_cons_of_neg (by simpa using hc)]
      rfl

theorem substr_run (e : String) (i : Nat) :
    substr e i (i + (identifierRun e i).length - i) = ⟨identifierRun e i⟩ := by
  unfold substr
  rw [Nat.add_sub_cancel_left]
  have hpre : identifierRun e i <+: e.data.drop i := List.takeWhile_prefix _
  rw [← List.prefix_iff_eq_take.1 hpre]

theorem parseIdentifier_unknown {V : Type} (F : FloatOps V) (e : String) (i : Nat)
    (hunknown : isKnownIdentifier (toLower ⟨identifierRun e i⟩) = false) :
    parseIdentifier F e i =
      .error (.InvalidInput ("Unknown identifier: " ++ String.mk (identifierRun e i))) := by
  simp only [isKnownIdentifier, Bool.or_eq_false_iff, decide_eq_false_iff_not] at hunknown
  obtain ⟨⟨h1, h2⟩, h3⟩ := hunknown
  unfold parseIdentifier
  simp only [scanIdentifier_run e _ i rfl, substr_run]
  have b1 : (toLower ⟨identifierRun e i⟩ == "pi") = false := beq_eq_false_iff_ne.2 h1
  have b2 : (toLower ⟨identifierRun e i⟩ == "e") = false := beq_eq_false_iff_ne.2 h2
  have hl : List.lookup (toLower ⟨identifierRun e i⟩) (constants_ F) = none := by
    simp only [constants_, List.lookup, b1, b2]
  rw [hl]
  simp only [h3]
  rfl

theorem identifierChar_class (c : Char) (h : isIdentifierChar c = true) :
    isspace c = false ∧ isdigit c = false ∧ c ≠ '.' := by
  simp only [isIdentifierChar, isalpha, Char.isAlpha, Char.isUpper, Char.isLower,
    Bool.or_eq_true, Bool.and_eq_true, decide_eq_true_eq] at h
  have hval : 65 ≤ c.val := by
    rcases h with (h | h) | h
    · exact h.1
    · exact Nat.le_trans (by decide) h.1
    · rw [h]; decide
  refine ⟨?_, ?_, ?_⟩
  · simp only [isspace, Bool.or_eq_false_iff, decide_eq_false_iff_not]
    refine ⟨⟨⟨⟨⟨?_, ?_⟩, ?_⟩, ?_⟩, ?_⟩, ?_⟩ <;> (intro hc; rw [hc] at hval; revert hval; decide)
  · simp only [isdigit, Char.isDigit, Bool.and_eq_false_iff, decide_eq_false_iff_not]
    right
    intro h57
    have : c.val ≤ 57 := h57
    have h2 : (65 : UInt32) ≤ 57 := Nat.le_trans hval this
    revert h2; decide
  · intro hc; rw [hc] at hval; revert hval; decide

theorem parseStep_unknown {V : Type} (F : FloatOps V) (e : String) (i : Nat)
    (output stack : List (Token V))
    (hstart : isIdentifierChar (charAt e i) = true)
    (hunknown : isKnownIdentifier (toLower ⟨identifierRun e i⟩) = false) :
    parseStep F e i output stack =
      .error (.InvalidInput ("Unknown identifier: " ++ String.mk (identifierRun e i))) := by
  obtain ⟨h1, h2, h3⟩ := identifierChar_class _ hstart
  unfold parseStep
  simp only [h1, h2, h3, hstart, parseIdentifier_unknown F e i hunknown]
  simp

/-- A state the loop passes through determines the result of
`parseToPostfix`. -/
theorem parseToPostfix_of_reaches {V : Type} (F : FloatOps V) (e : String) (i : Nat)
    (output stack : List (Token V)) (hreach : ScanReaches F e i output stack) :
    ∀ fuel x, parseLoop F e fuel i output stack = x → x ≠ .error .FuelExhausted →
      parseToPostfix F e = x := by
  induction hreach with
  | start => exact fun fuel x h hx => parseToPostfix_of_parseLoop F e fuel x h hx
  | step _ hlt hstep ih =>
    intro fuel x h hx
    exact ih (fuel + 1) x (by rw [parseLoop_step F e fuel _ _ _ _ _ _ hlt hstep, h]) hx

/-- C9: unknown identifiers are rejected. Whenever the scan reaches an index
where a letter or underscore starts a maximal run of letters, digits and
underscores whose lowercased form is neither a constant name nor a function
name, `parseToPostfix` fails with InvalidInput, the message naming the run. -/
theorem c9_unknown_identifier {V : Type} (F : FloatOps V) (e : String) (i : Nat)
    (output stack : List (Token V)) (hreach : ScanReaches F e i output stack)
    (hlt : i < size e) (hstart : isIdentifierChar (charAt e i) = true)
    (hunknown : isKnownIdentifier (toLower ⟨identifierRun e i⟩) = false) :
    parseToPostfix F e =
      .error (.InvalidInput ("Unknown identifier: " ++ String.mk (identifierRun e i))) := by
  refine parseToPostfix_of_reaches F e i output stack hreach 1 _ ?_ (by simp)
  exact parseLoop_step_error F e 0 i output stack _ hlt
    (parseStep_unknown F e i output stack hstart hunknown)

/-- Witness of C9: `foo(1)`, `sin2` and `pi2` are rejected at their first
character, and `2 + foo` at index 4. -/
theorem c9_unknown_identifier_witness :
    parseToPostfix Exact.ops "foo(1)" = .error (.InvalidInput "Unknown identifier: foo") ∧
      parseToPostfix Exact.ops "sin2" = .error (.InvalidInput "Unknown identifier: sin2") ∧
      parseToPostfix Exact.ops "pi2" = .error (.InvalidInput "Unknown identifier: pi2") ∧
      parseToPostfix Exact.ops "2 + foo" = .error (.InvalidInput "Unknown identifier: foo") :=
  ⟨c9_unknown_identifier Exact.ops "foo(1)" 0 [] [] ScanReaches.start (by decide) (by decide)
      (by decide),
   c9_unknown_identifier Exact.ops "sin2" 0 [] [] ScanReaches.start (by decide) (by decide)
      (by decide),
   c9_unknown_identifier Exact.ops "pi2" 0 [] [] ScanReaches.start (by decide) (by decide)
      (by decide),
   c9_unknown_identifier Exact.ops "2 + foo" 4 [numberToken "2" 2]
      [operatorToken Exact.ops "+"]
      (ScanReaches.step (i := 3) (ScanReaches.step (i := 2) (ScanReaches.step (i := 1)
        (ScanReaches.step (i := 0) ScanReaches.start (by decide) (by decide : parseStep Exact.ops
          "2 + foo" 0 [] [] = .ok (1, [numberToken "2" 2], [])))
        (by decide) (by decide : parseStep Exact.ops "2 + foo" 1 [numberToken "2" 2] [] =
          .ok (2, [numberToken "2" 2], [])))
        (by decide) (by decide : parseStep Exact.ops "2 + foo" 2 [numberToken "2" 2] [] =
          .ok (3, [numberToken "2" 2], [operatorToken Exact.ops "+"])))
        (by decide) (by decide : parseStep Exact.ops "2 + foo" 3 [numberToken "2" 2]
          [operatorToken Exact.ops "+"] =
          .ok (4, [numberToken "2" 2], [operatorToken Exact.ops "+"])))
      (by decide) (by decide) (by decide)⟩

/-! ## Empty and blank input -/

/-- C12: on an input that is empty or consists only of whitespace `calculate`
fails with InvalidInput. The empty string is rejected with the message
"Empty expression" by the test that precedes the call of the parser; on a
non-empty blank string `parseToPostfix` returns the empty token sequence, which
`evaluate` rejects with "Invalid expression: stack contains 0 values". -/
theorem c12_empty_or_blank {V : Type} (F : FloatOps V) (w : String)
    (hw : isBlank w = true) :
    (w.data = [] → calculate F w = .error (.InvalidInput "Empty expression")) ∧
    (w.data ≠ [] →
      parseToPostfix F w = .ok [] ∧
      evaluate F [] = .error (.InvalidInput "Invalid expression: stack contains 0 values") ∧
      calculate F w =
        .error (.InvalidInput "Invalid expression: stack contains 0 values")) := by
  refine ⟨?_, ?_⟩
  · intro hnil
    unfold calculate
    rw [if_pos (by unfold size; rw [hnil]; rfl)]
  · intro hne
    have hparse : parseToPostfix F w = .ok [] := by
      apply scan_top
      refine scan_blank F w w [] [] 0 [] [] [] hw (by simp) rfl ?_
      exact scan_end F w _ [] [] [] (by unfold size; omega) rfl
    have heval : evaluate F ([] : List (Token V)) =
        .error (.InvalidInput "Invalid expression: stack contains 0 values") := by
      unfold evaluate
      simp only [evalTokens, List.length_nil]
      have hs : "Invalid expression: stack contains " ++ toString (0 : Nat) ++ " values" =
          "Invalid expression: stack contains 0 values" := by decide
      rw [hs]
    refine ⟨hparse, heval, ?_⟩
    rw [calculate_of_parse F w [] hne hparse, heval]

/-- Witness of C12: the empty string and a string of three spaces. -/
theorem c12_empty_or_blank_witness :
    calculate Exact.ops "" = .error (.InvalidInput "Empty expression") ∧
      parseToPostfix Exact.ops "   " = .ok [] ∧
      calculate Exact.ops "   " =
        .error (.InvalidInput "Invalid expression: stack contains 0 values") :=
  ⟨(c12_empty_or_blank Exact.ops "" (by decide)).1 rfl,
   ((c12_empty_or_blank Exact.ops "   " (by decide)).2 (by decide)).1,
   ((c12_empty_or_blank Exact.ops "   " (by decide)).2 (by decide)).2.2⟩

/-! ## Operand order -/

/-- C13: a binary operator is applied to the two values below it in the order
in which they were pushed: `evaluate` of `x y op` is `applyOperator op x y`. -/
theorem c13_operand_order {V : Type} (F : FloatOps V) (op : Char) (tx ty : String)
    (x y z : V) (hop : op ∈ binarySymbols) :
    evaluate F [⟨.Number, tx, x⟩, ⟨.Number, ty, y⟩, ⟨.Operator, String.singleton op, z⟩] =
      applyOperator F (String.singleton op) x y := by
  have hstep : evalTokens F [⟨.Operator, String.singleton op, z⟩] [y, x] =
      match applyOperator F (String.singleton op) x y with
      | .error err => .error err
      | .ok r => .ok [r] := by
    simp only [binarySymbols, List.mem_cons, List.mem_singleton, List.not_mem_nil,
      or_false] at hop
    rcases hop with rfl | rfl | rfl | rfl | rfl | rfl <;>
      simp [evalTokens, String.singleton, String.ext_iff]
  unfold evaluate
  have h2 : evalTokens F [⟨.Number, tx, x⟩, ⟨.Number, ty, y⟩,
      ⟨.Operator, String.singleton op, z⟩] [] =
      evalTokens F [⟨.Operator, String.singleton op, z⟩] [y, x] := by
    simp [evalTokens]
  rw [h2, hstep]
  cases applyOperator F (String.singleton op) x y with
  | error err => rfl
  | ok r => rfl

/-- Witness of C13 in exact arithmetic: `5 3 -` is 2 and `8 2 /` is 4. -/
theorem c13_operand_order_witness :
    evaluate Exact.ops [⟨.Number, "5", 5⟩, ⟨.Number, "3", 3⟩, ⟨.Operator, "-", 0⟩] = .ok 2 ∧
      evaluate Exact.ops [⟨.Number, "8", 8⟩, ⟨.Number, "2", 2⟩, ⟨.Operator, "/", 0⟩] =
        .ok 4 := by
  refine ⟨(c13_operand_order Exact.ops '-' "5" "3" 5 3 0 (by decide)).trans ?_,
    (c13_operand_order Exact.ops '/' "8" "2" 8 2 0 (by decide)).trans ?_⟩
  · simp [applyOperator, String.singleton, String.ext_iff, Exact.ops]
    norm_num
  · simp [applyOperator, String.singleton, String.ext_iff, Exact.ops]
    norm_num

/-! ## Domain failures -/

/-- The text `5 / 0`. -/
theorem parse_five_div_zero {V : Type} (F : FloatOps V) (v0 v5 : V)
    (h5 : F.stod "5" = some v5) (h0 : F.stod "0" = some v0) :
    parseToPostfix F "5 / 0" =
      .ok [numberToken "5" v5, numberToken "0" v0, operatorToken F "/"] := by
  apply scan_top
  refine scan_number F _ "5" v5 [] " / 0".data _ _ _ _
    (by decide) (by decide) h5 rfl rfl ?_
  refine scan_space F _ "5".data "/ 0".data ' ' _ _ _ _ (by decide)
    rfl rfl ?_
  refine scan_operator F _ "5 ".data " 0".data '/' _ _ _ _ _ _ _
    (by decide) rfl rfl rfl rfl ?_
  refine scan_space F _ "5 /".data "0".data ' ' _ _ _ _ (by decide)
    rfl rfl ?_
  refine scan_number F _ "0" v0 "5 / ".data [] _ _ _ _
    (by decide) (by decide) h0 rfl rfl ?_
  exact scan_end F _ _ _ _ _ (by decide) rfl

/-- The text `5 % 0`. -/
theorem parse_five_mod_zero {V : Type} (F : FloatOps V) (v0 v5 : V)
    (h5 : F.stod "5" = some v5) (h0 : F.stod "0" = some v0) :
    parseToPostfix F "5 % 0" =
      .ok [numberToken "5" v5, numberToken "0" v0, operatorToken F "%"] := by
  apply scan_top
  refine scan_number F _ "5" v5 [] " % 0".data _ _ _ _
    (by decide) (by decide) h5 rfl rfl ?_
  refine scan_space F _ "5".data "% 0".data ' ' _ _ _ _ (by decide)
    rfl rfl ?_
  refine scan_operator F _ "5 ".data " 0".data '%' _ _ _ _ _ _ _
    (by decide) rfl rfl rfl rfl ?_
  refine scan_space F _ "5 %".data "0".data ' ' _ _ _ _ (by decide)
    rfl rfl ?_
  refine scan_number F _ "0" v0 "5 % ".data [] _ _ _ _
    (by decide) (by decide) h0 rfl rfl ?_
  exact scan_end F _ _ _ _ _ (by decide) rfl

/-- The text `asin(2)`. -/
theorem parse_asin_two {V : Type} (F : FloatOps V) (v2 : V)
    (h2 : F.stod "2" = some v2) :
    parseToPostfix F "asin(2)" =
      .ok [numberToken "2" v2, functionToken F "asin"] := by
  apply scan_top
  refine scan_step F _ _ 4 _ _ _ _ _ (by decide) rfl ?_
  refine scan_open F _ "asin".data "2)".data _ _ _ _ rfl rfl ?_
  refine scan_number F _ "2" v2 "asin(".data ")".data _ _ _ _
    (by decide) (by decide) h2 rfl rfl ?_
  refine scan_close_function F _ "asin(2".data [] _ _ _ _ _ _ _ rfl rfl rfl rfl ?_
  exact scan_end F _ _ _ _ _ (by decide) rfl

/-- The text `log(-1)`. -/
theorem parse_log_minus_one {V : Type} (F : FloatOps V) (v1 : V)
    (h1 : F.stod "1" = some v1) :
    parseToPostfix F "log(-1)" =
      .ok [numberToken "1" v1, operatorToken F "neg", functionToken F "log"] := by
  apply scan_top
  refine scan_step F _ _ 3 _ _ _ _ _ (by decide) rfl ?_
  refine scan_open F _ "log".data "-1)".data _ _ _ _ rfl rfl ?_
  refine scan_operator F _ "log(".data "1)".data '-' _ _ _ _ _ _ _
    (by decide) rfl rfl rfl rfl ?_
  refine scan_number F _ "1" v1 "log(-".data ")".data _ _ _ _
    (by decide) (by decide) h1 rfl rfl ?_
  refine scan_close_function F _ "log(-1".data [] _ _ _ _ _ _ _ rfl rfl rfl rfl ?_
  exact scan_end F _ _ _ _ _ (by decide) rfl

/-- The text `sqrt(-1)`. -/
theorem parse_sqrt_minus_one {V : Type} (F : FloatOps V) (v1 : V)
    (h1 : F.stod "1" = some v1) :
    parseToPostfix F "sqrt(-1)" =
      .ok [numberToken "1" v1, operatorToken F "neg", functionToken F "sqrt"] := by
  apply scan_top
  refine scan_step F _ _ 4 _ _ _ _ _ (by decide) rfl ?_
  refine scan_open F _ "sqrt".data "-1)".data _ _ _ _ rfl rfl ?_
  refine scan_operator F _ "sqrt(".data "1)".data '-' _ _ _ _ _ _ _
    (by decide) rfl rfl rfl rfl ?_
  refine scan_number F _ "1" v1 "sqrt(-".data ")".data _ _ _ _
    (by decide) (by decide) h1 rfl rfl ?_
  refine scan_close_function F _ "sqrt(-1".data [] _ _ _ _ _ _ _ rfl rfl rfl rfl ?_
  exact scan_end F _ _ _ _ _ (by decide) rfl

/-- The text `(-8)^0.5`. -/
theorem parse_power_of_minus_eight {V : Type} (F : FloatOps V) (v8 vh : V)
    (h8 : F.stod "8" = some v8) (hh : F.stod "0.5" = some vh) :
    parseToPostfix F "(-8)^0.5" =
      .ok [numberToken "8" v8, operatorToken F "neg", numberToken "0.5" vh, operatorToken F "^"] := by
  apply scan_top
  refine scan_open F _ [] "-8)^0.5".data _ _ _ _ rfl rfl ?_
  refine scan_operator F _ "(".data "8)^0.5".data '-' _ _ _ _ _ _ _
    (by decide) rfl rfl rfl rfl ?_
  refine scan_number F _ "8" v8 "(-".data ")^0.5".data _ _ _ _
    (by decide) (by decide) h8 rfl rfl ?_
  refine scan_close F _ "(-8".data "^0.5".data _ _ _ _ _ _ rfl rfl rfl
    (by intro top rest h; cases h) ?_
  refine scan_operator F _ "(-8)".data "0.5".data '^' _ _ _ _ _ _ _
    (by decide) rfl rfl rfl rfl ?_
  refine scan_number F _ "0.5" vh "(-8)^".data [] _ _ _ _
    (by decide) (by decide) hh rfl rfl ?_
  exact scan_end F _ _ _ _ _ (by decide) rfl

theorem evalTokens_function {V : Type} (F : FloatOps V) (name : String)
    (tokens : List (Token V)) (x : V) (stack : List V) :
    evalTokens F (functionToken F name :: tokens) (x :: stack) =
      match applyFunction F name x with
      | .error err => .error err
      | .ok r => evalTokens F tokens (r :: stack) := rfl

theorem evalTokens_binary_error {V : Type} (F : FloatOps V) (op : Char)
    (hop : op ∈ binarySymbols) (tokens : List (Token V)) (x y : V) (stack : List V)
    (err : CalcError) (h : applyOperator F (String.singleton op) x y = .error err) :
    evalTokens F (operatorToken F (String.singleton op) :: tokens) (y :: x :: stack) =
      .error err := by
  rw [evalTokens_binary F op hop, h]

theorem evaluate_error {V : Type} (F : FloatOps V) (tokens : List (Token V))
    (err : CalcError) (h : evalTokens F tokens [] = .error err) :
    evaluate F tokens = .error err := by
  unfold evaluate; rw [h]

/-- C15: division and modulo fail with MathDomain exactly when the absolute
value of the divisor is below `1e-10`; otherwise `/` returns the quotient.
Hence `5 / 0` and `5 % 0` fail with MathDomain, given that the literal `0`
converts to a value whose absolute value is below `1e-10`. -/
theorem c15_division_by_zero {V : Type} (F : FloatOps V) (a b v5 v0 : V)
    (h5 : F.stod "5" = some v5) (h0 : F.stod "0" = some v0)
    (hz : F.lt (F.abs v0) F.epsilon = true) :
    ((∃ message, applyOperator F "/" a b = .error (.MathDomain message)) ↔
        F.lt (F.abs b) F.epsilon = true) ∧
    ((∃ message, applyOperator F "%" a b = .error (.MathDomain message)) ↔
        F.lt (F.abs b) F.epsilon = true) ∧
    (F.lt (F.abs b) F.epsilon = false → applyOperator F "/" a b = .ok (F.div a b)) ∧
    (F.lt (F.abs b) F.epsilon = false → applyOperator F "%" a b = .ok (F.fmod a b)) ∧
    calculate F "5 / 0" = .error (.MathDomain "Division by zero") ∧
    calculate F "5 % 0" = .error (.MathDomain "Modulo by zero") := by
  have hdiv : ∀ x y : V, applyOperator F "/" x y =
      if F.lt (F.abs y) F.epsilon = true then .error (.MathDomain "Division by zero")
      else .ok (F.div x y) := by
    intro x y; simp [applyOperator]
  have hmod : ∀ x y : V, applyOperator F "%" x y =
      if F.lt (F.abs y) F.epsilon = true then .error (.MathDomain "Modulo by zero")
      else .ok (F.fmod x y) := by
    intro x y; simp [applyOperator]
  refine ⟨?_, ?_, ?_, ?_, ?_, ?_⟩
  · rw [hdiv]
    by_cases hb : F.lt (F.abs b) F.epsilon = true
    · rw [if_pos hb]; exact ⟨fun _ => hb, fun _ => ⟨_, rfl⟩⟩
    · rw [if_neg hb]; exact ⟨fun ⟨m, hm⟩ => (by cases hm), fun h => (hb h).elim⟩
  · rw [hmod]
    by_cases hb : F.lt (F.abs b) F.epsilon = true
    · rw [if_pos hb]; exact ⟨fun _ => hb, fun _ => ⟨_, rfl⟩⟩
    · rw [if_neg hb]; exact ⟨fun ⟨m, hm⟩ => (by cases hm), fun h => (hb h).elim⟩
  · intro hb; rw [hdiv, if_neg (by rw [hb]; decide)]
  · intro hb; rw [hmod, if_neg (by rw [hb]; decide)]
  · rw [calculate_of_parse F _ _ (by decide) (parse_five_div_zero F v0 v5 h5 h0)]
    apply evaluate_error
    rw [evalTokens_number, evalTokens_number]
    exact evalTokens_binary_error F '/' (by decide) _ _ _ _ _
      (by rw [show String.singleton '/' = "/" from rfl, hdiv, if_pos hz])
  · rw [calculate_of_parse F _ _ (by decide) (parse_five_mod_zero F v0 v5 h5 h0)]
    apply evaluate_error
    rw [evalTokens_number, evalTokens_number]
    exact evalTokens_binary_error F '%' (by decide) _ _ _ _ _
      (by rw [show String.singleton '%' = "%" from rfl, hmod, if_pos hz])

/-- Witness of C15 in exact arithmetic, with the divisor `1e-11`: division by
it fails, and so do `5 / 0` and `5 % 0`. -/
theorem c15_division_by_zero_witness :
    (∃ message, applyOperator Exact.ops "/" 1 (mkRat 1 (10 ^ 11)) =
        .error (.MathDomain message)) ∧
      calculate Exact.ops "5 / 0" = .error (.MathDomain "Division by zero") ∧
      calculate Exact.ops "5 % 0" = .error (.MathDomain "Modulo by zero") := by
  have hz : Exact.ops.lt (Exact.ops.abs 0) Exact.ops.epsilon = true := by
    simp [Exact.ops]; norm_num
  have hsmall : Exact.ops.lt (Exact.ops.abs (mkRat 1 (10 ^ 11))) Exact.ops.epsilon = true := by
    simp [Exact.ops]
    rw [abs_of_pos (by norm_num)]
    norm_num
  have h := c15_division_by_zero Exact.ops 1 (mkRat 1 (10 ^ 11)) 5 0 (by decide) (by decide) hz
  exact ⟨h.1.2 hsmall, h.2.2.2.2.1, h.2.2.2.2.2⟩

/-- C16: a value outside the domain gives MathDomain. `asin` and `acos` fail
when the argument is below -1 or above 1, `log` and `ln` when it is at most 0,
`sqrt` when it is below 0, and `^` when the base is below 0 and the remainder
of the exponent by 1 is not 0. Hence `asin(2)`, `log(-1)`, `sqrt(-1)` and
`(-8)^0.5` fail with MathDomain, given the comparisons of the converted
literals that the library is expected to return. -/
theorem c16_domain_violations {V : Type} (F : FloatOps V) (x a b v1 v2 v8 vh : V)
    (h1 : F.stod "1" = some v1) (h2 : F.stod "2" = some v2) (h8 : F.stod "8" = some v8)
    (hh : F.stod "0.5" = some vh)
    (c2 : F.lt F.one v2 = true) (c1 : F.le (F.neg v1) F.zero = true)
    (c1s : F.lt (F.neg v1) F.zero = true) (c8 : F.lt (F.neg v8) F.zero = true)
    (ch : F.eq (F.fmod vh F.one) F.zero = false) :
    ((F.lt x F.minusOne = true ∨ F.lt F.one x = true) →
        applyFunction F "asin" x =
          .error (.MathDomain "Arcsin argument must be in range [-1, 1]") ∧
        applyFunction F "acos" x =
          .error (.MathDomain "Arccos argument must be in range [-1, 1]")) ∧
    (F.le x F.zero = true →
        applyFunction F "log" x = .error (.MathDomain "Logarithm argument must be positive") ∧
        applyFunction F "ln" x =
          .error (.MathDomain "Natural logarithm argument must be positive")) ∧
    (F.lt x F.zero = true →
        applyFunction F "sqrt" x =
          .error (.MathDomain "Square root of negative number is not a real number")) ∧
    (F.lt a F.zero = true → F.eq (F.fmod b F.one) F.zero = false →
        applyOperator F "^" a b =
          .error (.MathDomain "Cannot raise negative number to non-integer power")) ∧
    calculate F "asin(2)" = .error (.MathDomain "Arcsin argument must be in range [-1, 1]") ∧
    calculate F "log(-1)" = .error (.MathDomain "Logarithm argument must be positive") ∧
    calculate F "sqrt(-1)" =
      .error (.MathDomain "Square root of negative number is not a real number") ∧
    calculate F "(-8)^0.5" =
      .error (.MathDomain "Cannot raise negative number to non-integer power") := by
  have hasin : ∀ y : V, (F.lt y F.minusOne = true ∨ F.lt F.one y = true) →
      applyFunction F "asin" y =
        .error (.MathDomain "Arcsin argument must be in range [-1, 1]") := by
    intro y hy; simp [applyFunction, hy]
  have hlog : ∀ y : V, F.le y F.zero = true →
      applyFunction F "log" y = .error (.MathDomain "Logarithm argument must be positive") := by
    intro y hy; simp [applyFunction, hy]
  have hsqrt : ∀ y : V, F.lt y F.zero = true →
      applyFunction F "sqrt" y =
        .error (.MathDomain "Square root of negative number is not a real number") := by
    intro y hy; simp [applyFunction, hy]
  have hpow : ∀ p q : V, F.lt p F.zero = true → F.eq (F.fmod q F.one) F.zero = false →
      applyOperator F "^" p q =
        .error (.MathDomain "Cannot raise negative number to non-integer power") := by
    intro p q hp hq; simp [applyOperator, hp, hq]
  refine ⟨?_, ?_, hsqrt x, hpow a b, ?_, ?_, ?_, ?_⟩
  · intro hx
    exact ⟨hasin x hx, by simp [applyFunction, hx]⟩
  · intro hx
    exact ⟨hlog x hx, by simp [applyFunction, hx]⟩
  · rw [calculate_of_parse F _ _ (by decide) (parse_asin_two F v2 h2)]
    apply evaluate_error
    rw [evalTokens_number, evalTokens_function, hasin v2 (Or.inr c2)]
  · rw [calculate_of_parse F _ _ (by decide) (parse_log_minus_one F v1 h1)]
    apply evaluate_error
    rw [evalTokens_number, evalTokens_neg, evalTokens_function, hlog _ c1]
  · rw [calculate_of_parse F _ _ (by decide) (parse_sqrt_minus_one F v1 h1)]
    apply evaluate_error
    rw [evalTokens_number, evalTokens_neg, evalTokens_function, hsqrt _ c1s]
  · rw [calculate_of_parse F _ _ (by decide) (parse_power_of_minus_eight F v8 vh h8 hh)]
    apply evaluate_error
    rw [evalTokens_number, evalTokens_neg, evalTokens_number]
    exact evalTokens_binary_error F '^' (by decide) _ _ _ _ _
      (by rw [show String.singleton '^' = "^" from rfl]; exact hpow _ _ c8 ch)

/-- Witness of C16 in exact arithmetic. -/
theorem c16_domain_violations_witness :
    calculate Exact.ops "asin(2)" =
        .error (.MathDomain "Arcsin argument must be in range [-1, 1]") ∧
      calculate Exact.ops "log(-1)" =
        .error (.MathDomain "Logarithm argument must be positive") ∧
      calculate Exact.ops "sqrt(-1)" =
        .error (.MathDomain "Square root of negative number is not a real number") ∧
      calculate Exact.ops "(-8)^0.5" =
        .error (.MathDomain "Cannot raise negative number to non-integer power") := by
  have hhalf : Exact.decimalValue "0.5" = some (1 / 2) := by
    have : (mkRat 5 10 : ℚ) = 1 / 2 := by norm_num [Rat.mkRat_eq_div]
    rw [← this]; decide
  have h := c16_domain_violations Exact.ops 0 0 0 1 2 8 (1 / 2) (by decide) (by decide)
    (by decide) hhalf (by simp [Exact.ops]) (by simp [Exact.ops]) (by simp [Exact.ops])
    (by simp [Exact.ops])
    (by
      have ht : Int.tdiv 1 2 = 0 := by decide
      simp [Exact.ops, Exact.fmod, ht])
  exact h.2.2.2.2

/-! ## The unary test, by indices -/

theorem skipSpacesBack_index (e : String) (i : Nat) :
    skipSpacesBack e i ≤ i ∧
      (∀ j, skipSpacesBack e i ≤ j → j < i → isspace (charAt e j) = true) ∧
      (skipSpacesBack e i ≠ 0 → isspace (charAt e (skipSpacesBack e i - 1)) = false) := by
  induction i with
  | zero => exact ⟨Nat.le_refl _, fun j _ h => by omega, fun h => (h rfl).elim⟩
  | succ i ih =>
    simp only [skipSpacesBack]
    by_cases hs : isspace (charAt e i) = true
    · rw [if_pos hs]
      obtain ⟨h1, h2, h3⟩ := ih
      refine ⟨by omega, ?_, h3⟩
      intro j hj1 hj2
      rcases Nat.eq_or_lt_of_le (Nat.le_of_lt_succ hj2) with rfl | hlt
      · exact hs
      · exact h2 j hj1 hlt
    · rw [if_neg hs]
      refine ⟨Nat.le_refl _, fun j h1 h2 => by omega, ?_⟩
      intro _
      simpa using hs

/-- C19: `isUnaryOperator` returns true exactly when the index is 0, or only
whitespace precedes the index, or the nearest preceding non-whitespace
character is `(`, `,` or one of the operator symbols `+ - * / % ^`, or the
output is non-empty and its last token is an Operator. -/
theorem c19_unary_rule {V : Type} (e : String) (i : Nat) (output : List (Token V)) :
    isUnaryOperator e i output = true ↔
      (i = 0 ∨
        (∀ j, j < i → isspace (charAt e j) = true) ∨
        (∃ k, k < i ∧ isspace (charAt e k) = false ∧
          (∀ j, k < j → j < i → isspace (charAt e j) = true) ∧
          (charAt e k = '(' ∨ charAt e k = ',' ∨ charAt e k ∈ binarySymbols)) ∨
        (∃ t, output.getLast? = some t ∧ t.type = .Operator)) := by
  obtain ⟨hle, hblank, hnon⟩ := skipSpacesBack_index e i
  unfold isUnaryOperator
  by_cases h0 : i = 0
  · rw [if_pos h0]; exact ⟨fun _ => Or.inl h0, fun _ => rfl⟩
  rw [if_neg h0]
  simp only
  by_cases hp : skipSpacesBack e i = 0
  · rw [if_pos hp]
    refine ⟨fun _ => Or.inr (Or.inl ?_), fun _ => rfl⟩
    intro j hj
    exact hblank j (by omega) hj
  rw [if_neg hp]
  have hk : skipSpacesBack e i - 1 < i := by omega
  have hnonspace := hnon hp
  by_cases hset : charAt e (skipSpacesBack e i - 1) = '(' ∨
      charAt e (skipSpacesBack e i - 1) = ',' ∨
      (operators_.lookup (String.singleton (charAt e (skipSpacesBack e i - 1)))).isSome = true
  · rw [if_pos hset]
    refine ⟨fun _ => Or.inr (Or.inr (Or.inl ⟨skipSpacesBack e i - 1, hk, hnonspace, ?_, ?_⟩)),
      fun _ => rfl⟩
    · intro j h1 h2
      exact hblank j (by omega) h2
    · rcases hset with h | h | h
      · exact Or.inl h
      · exact Or.inr (Or.inl h)
      · rw [lookup_singleton] at h
        exact Or.inr (Or.inr (of_decide_eq_true h))
  · rw [if_neg hset]
    have hlast : ((match output.getLast? with
        | some lastToken => if lastToken.type = .Operator then true else false
        | none => false) = true) ↔ ∃ t, output.getLast? = some t ∧ t.type = .Operator := by
      cases output.getLast? with
      | none => simp
      | some t => by_cases ht : t.type = .Operator <;> simp [ht]
    refine Iff.trans (by exact hlast) ?_
    constructor
    · intro h; exact Or.inr (Or.inr (Or.inr h))
    · rintro (h | h | ⟨k, hk1, hk2, hk3, hk4⟩ | h)
      · exact (h0 h).elim
      · have := h _ hk
        rw [hnonspace] at this; cases this
      · -- the nearest non-blank character is unique
        have hkeq : k = skipSpacesBack e i - 1 := by
          rcases Nat.lt_trichotomy k (skipSpacesBack e i - 1) with hlt | heq | hgt
          · have := hk3 _ hlt hk
            rw [hnonspace] at this; cases this
          · exact heq
          · have := hblank k (by omega) hk1
            rw [hk2] at this; cases this
        subst hkeq
        exfalso
        apply hset
        rcases hk4 with h | h | h
        · exact Or.inl h
        · exact Or.inr (Or.inl h)
        · exact Or.inr (Or.inr (by rw [lookup_singleton]; exact decide_eq_true h))
      · exact h

/-! ## Negation and exponentiation -/

theorem operators_precedence_le (text : String) (info : OperatorInfo)
    (h : operators_.lookup text = some info) : info.precedence ≤ 5 := by
  simp only [operators_, List.lookup] at h
  repeat' split at h
  all_goals (cases h <;> decide)

/-- Pushing `neg` pops nothing. -/
theorem reduceOperators_neg {V : Type} (F : FloatOps V) (output stack : List (Token V))
    (hst : StackValid stack) :
    reduceOperators (operatorToken F "neg") output stack = .ok (output, stack) := by
  cases stack with
  | nil => rfl
  | cons top rest =>
    simp only [reduceOperators]
    by_cases ht : top.type ≠ .Operator
    · rw [if_pos ht]
    · rw [if_neg ht]
      have hneg : operators_.lookup "neg" = some ⟨5, true, 1⟩ := by decide
      rw [show (operatorToken F "neg").text = "neg" from rfl, hneg]
      simp only
      cases hti : operators_.lookup top.text with
      | none =>
        have := hst top (List.mem_cons_self _ _) (not_not.1 ht)
        rw [hti] at this; cases this
      | some topInfo =>
        have hle := operators_precedence_le top.text topInfo hti
        simp only [Bool.not_true, Bool.false_and, Bool.true_and, Bool.false_or]
        rw [if_pos (by simpa using hle)]

/-- The text `-a^b`. -/
theorem parse_neg_power {V : Type} (F : FloatOps V) (a b : String) (va vb : V)
    (ha : isNumericLiteral a = true) (hb : isNumericLiteral b = true)
    (hva : F.stod a = some va) (hvb : F.stod b = some vb) :
    parseToPostfix F ("-" ++ a ++ "^" ++ b) =
      .ok [numberToken a va, operatorToken F "neg", numberToken b vb, operatorToken F "^"] := by
  have hE : ("-" ++ a ++ "^" ++ b).data = '-' :: (a.data ++ '^' :: b.data) := by
    simp [String.data_append]
  generalize ("-" ++ a ++ "^" ++ b) = e at hE
  apply scan_top
  refine scan_operator F e [] (a.data ++ '^' :: b.data) '-' _ _ _ _ _ _ "neg"
    (by decide) (by simpa using hE) rfl rfl rfl ?_
  refine scan_number F e a va ['-'] ('^' :: b.data) _ _ _ _ ha rfl hva
    (by simpa using hE) rfl ?_
  obtain ⟨l, hl, hd⟩ := lastNonSpace_literal ['-'] a "" ha isBlank_empty
  refine scan_operator F e (['-'] ++ (a.data ++ ("" : String).data)) b.data '^' _ _ _
    [numberToken a va, operatorToken F "neg"] [] _ "^"
    (by decide) (by simpa using hE) (by simp; omega) ?_ rfl ?_
  · rw [hl, unaryContext_number l _ (numberToken a va) hd (by simp [numberToken])]
    rfl
  refine scan_number F e b vb (['-'] ++ a.data ++ ['^']) [] _ _ _ _ hb rfl hvb
    (by simpa using hE) (by simp; omega) ?_
  exact scan_end F e _ _ _ _ (by rw [size_of e _ hE]; simp; omega) rfl

/-- The text `a^-b`. -/
theorem parse_power_neg {V : Type} (F : FloatOps V) (a b : String) (va vb : V)
    (ha : isNumericLiteral a = true) (hb : isNumericLiteral b = true)
    (hva : F.stod a = some va) (hvb : F.stod b = some vb) :
    parseToPostfix F (a ++ "^-" ++ b) =
      .ok [numberToken a va, numberToken b vb, operatorToken F "neg", operatorToken F "^"] := by
  have hE : (a ++ "^-" ++ b).data = a.data ++ '^' :: '-' :: b.data := by
    simp [String.data_append]
  generalize (a ++ "^-" ++ b) = e at hE
  apply scan_top
  refine scan_number F e a va [] ('^' :: '-' :: b.data) _ _ _ _ ha rfl hva
    (by simpa using hE) rfl ?_
  obtain ⟨l, hl, hd⟩ := lastNonSpace_literal [] a "" ha isBlank_empty
  refine scan_operator F e ([] ++ (a.data ++ ("" : String).data)) ('-' :: b.data) '^' _ _ _
    [numberToken a va] [] _ "^"
    (by decide) (by simpa using hE) (by simp) ?_ rfl ?_
  · rw [hl, unaryContext_number l _ (numberToken a va) hd (by simp [numberToken])]
    rfl
  have hlast : lastNonSpace (a.data ++ ['^']) = some '^' :=
    lastNonSpace_append_char _ '^' (by decide)
  refine scan_operator F e (a.data ++ ['^']) b.data '-' _ _ _
    [numberToken a va] [operatorToken F "^"] _ "neg"
    (by decide) (by simpa using hE) (by simp) ?_ rfl ?_
  · rw [hlast]; rfl
  refine scan_number F e b vb (a.data ++ ['^', '-']) [] _ _ _ _ hb rfl hvb
    (by simpa using hE) (by simp) ?_
  exact scan_end F e _ _ _ _ (by rw [size_of e _ hE]; simp; omega) rfl

/-- C20: unary negation binds tighter than exponentiation on its left. For
numeric literals `a` and `b`, `-a^b` is converted to `a neg b ^`, so that
`calculate` raises `-a` to the power `b`, and `a^-b` is converted to
`a b neg ^`; pushing a `neg` operator pops no operator from a stack whose
operators are in the operator table. -/
theorem c20_negation_before_power {V : Type} (F : FloatOps V) (a b : String) (va vb : V)
    (output stack : List (Token V))
    (ha : isNumericLiteral a = true) (hb : isNumericLiteral b = true)
    (hva : F.stod a = some va) (hvb : F.stod b = some vb) (hst : StackValid stack) :
    parseToPostfix F ("-" ++ a ++ "^" ++ b) =
        .ok [numberToken a va, operatorToken F "neg", numberToken b vb, operatorToken F "^"] ∧
      calculate F ("-" ++ a ++ "^" ++ b) = applyOperator F "^" (F.neg va) vb ∧
      parseToPostfix F (a ++ "^-" ++ b) =
        .ok [numberToken a va, numberToken b vb, operatorToken F "neg", operatorToken F "^"] ∧
      calculate F (a ++ "^-" ++ b) = applyOperator F "^" va (F.neg vb) ∧
      reduceOperators (operatorToken F "neg") output stack = .ok (output, stack) := by
  have p1 := parse_neg_power F a b va vb ha hb hva hvb
  have p2 := parse_power_neg F a b va vb ha hb hva hvb
  have hend : ∀ x y : V, (match evalTokens F [operatorToken F "^"] [y, x] with
      | .error err => .error err
      | .ok [top] => .ok top
      | .ok stack => .error (.InvalidInput
          ("Invalid expression: stack contains " ++ toString stack.length ++ " values"))) =
      applyOperator F "^" x y := by
    intro x y
    have := evalTokens_binary F '^' (by decide) [] x y []
    rw [show operatorToken F "^" = operatorToken F (String.singleton '^') from rfl, this,
      show String.singleton '^' = "^" from rfl]
    cases applyOperator F "^" x y with
    | error err => rfl
    | ok r => rfl
  refine ⟨p1, ?_, p2, ?_, reduceOperators_neg F output stack hst⟩
  · rw [calculate_of_parse F _ _ (by simp [String.data_append]) p1]
    unfold evaluate
    rw [evalTokens_number, evalTokens_neg, evalTokens_number]
    exact hend _ _
  · rw [calculate_of_parse F _ _ (by simp [String.data_append]) p2]
    unfold evaluate
    rw [evalTokens_number, evalTokens_number, evalTokens_neg]
    exact hend _ _

/-- Witness of C20 in exact arithmetic: `-2^2` is 4. -/
theorem c20_negation_before_power_witness :
    parseToPostfix Exact.ops "-2^2" =
        .ok [numberToken "2" 2, operatorToken Exact.ops "neg", numberToken "2" 2,
          operatorToken Exact.ops "^"] ∧
      calculate Exact.ops "-2^2" = .ok 4 := by
  have h := c20_negation_before_power Exact.ops "2" "2" 2 2 [] [] (by decide) (by decide)
    (by decide) (by decide) stackValid_nil
  refine ⟨h.1, h.2.1.trans ?_⟩
  have ht : Int.tdiv 2 1 = 2 := by decide
  simp [applyOperator, Exact.ops, Exact.pow, Exact.fmod, ht]
  norm_num

/-! ## What the evaluator can return -/

theorem lookup_isSome_cases (text : String) (h : (operators_.lookup text).isSome = true) :
    text = "+" ∨ text = "-" ∨ text = "*" ∨ text = "/" ∨ text = "%" ∨ text = "^" ∨
      text = "neg" := by
  by_contra hne
  simp only [not_or] at hne
  obtain ⟨h1, h2, h3, h4, h5, h6, h7⟩ := hne
  have : operators_.lookup text = none := by
    simp only [operators_, List.lookup, beq_eq_false_iff_ne.2 h1, beq_eq_false_iff_ne.2 h2,
      beq_eq_false_iff_ne.2 h3, beq_eq_false_iff_ne.2 h4, beq_eq_false_iff_ne.2 h5,
      beq_eq_false_iff_ne.2 h6, beq_eq_false_iff_ne.2 h7]
  rw [this] at h
  cases h

theorem functions_contains_cases (name : String) (h : functions.contains name = true) :
    name = "sin" ∨ name = "cos" ∨ name = "tan" ∨ name = "asin" ∨ name = "acos" ∨
      name = "atan" ∨ name = "log" ∨ name = "ln" ∨ name = "sqrt" ∨ name = "exp" ∨
      name = "abs" := by
  simpa [functions] using h

theorem guarded_outcome {V : Type} (c : Prop) [Decidable c] (message : String) (r : V)
    (x : Except CalcError V)
    (h : x = if c then .error (.MathDomain message) else .ok r) :
    (∃ r, x = .ok r) ∨ (∃ message, x = .error (.MathDomain message)) := by
  by_cases hc : c
  · rw [if_pos hc] at h; exact Or.inr ⟨_, h⟩
  · rw [if_neg hc] at h; exact Or.inl ⟨_, h⟩

/-- A binary operator of the table returns a value or fails with MathDomain. -/
theorem applyOperator_binary {V : Type} (F : FloatOps V) (text : String) (a b : V)
    (h : (operators_.lookup text).isSome = true) (hneg : text ≠ "neg") :
    (∃ r, applyOperator F text a b = .ok r) ∨
      (∃ message, applyOperator F text a b = .error (.MathDomain message)) := by
  rcases lookup_isSome_cases text h with rfl | rfl | rfl | rfl | rfl | rfl | rfl
  · exact Or.inl ⟨_, rfl⟩
  · exact Or.inl ⟨_, rfl⟩
  · exact Or.inl ⟨_, rfl⟩
  · exact guarded_outcome (F.lt (F.abs b) F.epsilon = true) "Division by zero" (F.div a b) _ rfl
  · exact guarded_outcome (F.lt (F.abs b) F.epsilon = true) "Modulo by zero" (F.fmod a b) _ rfl
  · by_cases h1 : F.lt a F.zero = true ∧ F.eq (F.fmod b F.one) F.zero = false
    · refine Or.inr ⟨"Cannot raise negative number to non-integer power", ?_⟩
      simp only [applyOperator]
      simp only [String.reduceEq, if_false, if_true, if_pos h1]
    · by_cases h2 : F.isnan (F.pow a b) = true ∨ F.isinf (F.pow a b) = true
      · refine Or.inr ⟨"Power operation resulted in invalid value", ?_⟩
        simp only [applyOperator]
        simp only [String.reduceEq, if_false, if_true, if_neg h1, if_pos h2]
      · refine Or.inl ⟨F.pow a b, ?_⟩
        simp only [applyOperator]
        simp only [String.reduceEq, if_false, if_true, if_neg h1, if_neg h2]
  · exact (hneg rfl).elim

/-- A function of the set returns a value or fails with MathDomain. -/
theorem applyFunction_known {V : Type} (F : FloatOps V) (name : String) (x : V)
    (h : functions.contains name = true) :
    (∃ r, applyFunction F name x = .ok r) ∨
      (∃ message, applyFunction F name x = .error (.MathDomain message)) := by
  rcases functions_contains_cases name h with
    rfl | rfl | rfl | rfl | rfl | rfl | rfl | rfl | rfl | rfl | rfl
  · exact Or.inl ⟨_, rfl⟩
  · exact Or.inl ⟨_, rfl⟩
  · by_cases hc : F.isinf (F.tan x) = true ∨ F.isnan (F.tan x) = true
    · refine Or.inr ⟨"Tangent is undefined for the given angle", ?_⟩
      simp only [applyFunction]
      simp only [String.reduceEq, if_false, if_true, if_pos hc]
    · refine Or.inl ⟨F.tan x, ?_⟩
      simp only [applyFunction]
      simp only [String.reduceEq, if_false, if_true, if_neg hc]
  · by_cases hc : F.lt x F.minusOne = true ∨ F.lt F.one x = true
    · refine Or.inr ⟨"Arcsin argument must be in range [-1, 1]", ?_⟩
      simp only [applyFunction]
      simp only [String.reduceEq, if_false, if_true, if_pos hc]
    · refine Or.inl ⟨F.asin x, ?_⟩
      simp only [applyFunction]
      simp only [String.reduceEq, if_false, if_true, if_neg hc]
  · by_cases hc : F.lt x F.minusOne = true ∨ F.lt F.one x = true
    · refine Or.inr ⟨"Arccos argument must be in range [-1, 1]", ?_⟩
      simp only [applyFunction]
      simp only [String.reduceEq, if_false, if_true, if_pos hc]
    · refine Or.inl ⟨F.acos x, ?_⟩
      simp only [applyFunction]
      simp only [String.reduceEq, if_false, if_true, if_neg hc]
  · exact Or.inl ⟨_, rfl⟩
  · exact guarded_outcome (F.le x F.zero = true) "Logarithm argument must be positive"
      (F.log10 x) _ rfl
  · exact guarded_outcome (F.le x F.zero = true) "Natural logarithm argument must be positive"
      (F.log x) _ rfl
  · exact guarded_outcome (F.lt x F.zero = true)
      "Square root of negative number is not a real number" (F.sqrt x) _ rfl
  · exact guarded_outcome (F.isinf (F.exp x) = true) "Exponential overflow" (F.exp x) _ rfl
  · exact Or.inl ⟨_, rfl⟩

theorem lookup_pos : operators_.lookup "pos" = none := by decide

/-- The loop of `evaluate` on tokens it can dispatch on: when every token finds
its operands the loop returns a stack of the predicted depth or fails with
MathDomain; otherwise it fails with a structural InvalidInput or, at an
earlier token, with MathDomain. -/
theorem evalTokens_outcome {V : Type} (F : FloatOps V) (tokens : List (Token V))
    (stack : List V) (hvalid : ∀ t ∈ tokens, isWellTyped t = true) :
    (∀ d, depthAfter tokens stack.length = some d →
      (∃ final, evalTokens F tokens stack = .ok final ∧ final.length = d) ∨
        (∃ message, evalTokens F tokens stack = .error (.MathDomain message))) ∧
    (depthAfter tokens stack.length = none →
      (∃ message, evalTokens F tokens stack = .error (.InvalidInput message) ∧
          isStructuralMessage message) ∨
        (∃ message, evalTokens F tokens stack = .error (.MathDomain message))) := by
  induction tokens generalizing stack with
  | nil =>
    refine ⟨?_, ?_⟩
    · intro d hd
      simp only [depthAfter, Option.some.injEq] at hd
      exact Or.inl ⟨stack, rfl, hd⟩
    · intro hd; simp [depthAfter] at hd
  | cons t ts ih =>
    have hts : ∀ x ∈ ts, isWellTyped x = true := fun x hx => hvalid x (List.mem_cons_of_mem _ hx)
    have ht : isWellTyped t = true := hvalid t (List.mem_cons_self _ _)
    obtain ⟨ty, text, value⟩ := t
    cases ty with
    | Number =>
      have := ih (value :: stack) hts
      simpa only [evalTokens, depthAfter, List.length_cons] using this
    | Constant =>
      have := ih (value :: stack) hts
      simpa only [evalTokens, depthAfter, List.length_cons] using this
    | OpenParen => simp [isWellTyped] at ht
    | CloseParen => simp [isWellTyped] at ht
    | Function =>
      have hname : functions.contains text = true := by simpa [isWellTyped] using ht
      cases stack with
      | nil =>
        refine ⟨?_, ?_⟩
        · intro d hd; simp [depthAfter] at hd
        · intro _
          exact Or.inl ⟨_, by simp only [evalTokens], Or.inr (Or.inr (Or.inl ⟨text, rfl⟩))⟩
      | cons arg rest =>
        have hdepth : depthAfter (⟨.Function, text, value⟩ :: ts) (arg :: rest).length =
            depthAfter ts (arg :: rest).length := by
          simp [depthAfter]
        rw [hdepth]
        rcases applyFunction_known F text arg hname with ⟨r, hr⟩ | ⟨m, hm⟩
        · have := ih (r :: rest) hts
          simpa only [evalTokens, hr, List.length_cons] using this
        · exact ⟨fun d _ => Or.inr ⟨m, by simp only [evalTokens, hm]⟩,
            fun _ => Or.inr ⟨m, by simp only [evalTokens, hm]⟩⟩
    | Operator =>
      have hop : (operators_.lookup text).isSome = true := by simpa [isWellTyped] using ht
      have hpos : text ≠ "pos" := by
        intro hp; rw [hp, lookup_pos] at hop; cases hop
      cases stack with
      | nil =>
        refine ⟨?_, ?_⟩
        · intro d hd
          by_cases hn : text = "neg" <;> simp [depthAfter, hn] at hd
        · intro _
          exact Or.inl ⟨_, by simp only [evalTokens], Or.inl ⟨text, rfl⟩⟩
      | cons b rest =>
        by_cases hn : text = "neg"
        · have hdepth : depthAfter (⟨.Operator, text, value⟩ :: ts) (b :: rest).length =
              depthAfter ts (b :: rest).length := by
            simp [depthAfter, hn]
          rw [hdepth]
          have := ih (F.neg b :: rest) hts
          simpa only [evalTokens, hn, applyUnaryOperator, true_or, if_true,
            List.length_cons] using this
        · have hcond : ¬ (text = "neg" ∨ text = "pos") := fun h => h.elim hn hpos
          cases rest with
          | nil =>
            refine ⟨?_, ?_⟩
            · intro d hd; simp [depthAfter, hn] at hd
            · intro _
              exact Or.inl ⟨_, by simp only [evalTokens, if_neg hcond],
                Or.inr (Or.inl ⟨text, rfl⟩)⟩
          | cons a more =>
            have hdepth : depthAfter (⟨.Operator, text, value⟩ :: ts) (b :: a :: more).length =
                depthAfter ts (a :: more).length := by
              simp [depthAfter, hn]
            rw [hdepth]
            rcases applyOperator_binary F text a b hop hn with ⟨r, hr⟩ | ⟨m, hm⟩
            · have := ih (r :: more) hts
              simpa only [evalTokens, if_neg hcond, hr, List.length_cons] using this
            · exact ⟨fun d _ => Or.inr ⟨m, by simp only [evalTokens, if_neg hcond, hm]⟩,
                fun _ => Or.inr ⟨m, by simp only [evalTokens, if_neg hcond, hm]⟩⟩

theorem error_kind_ite {V : Type} (c : Prop) [Decidable c] (x y : Except CalcError V)
    (hx : ∀ err, x = .error err →
      (∃ message, err = .InvalidInput message) ∨ (∃ message, err = .MathDomain message))
    (hy : ∀ err, y = .error err →
      (∃ message, err = .InvalidInput message) ∨ (∃ message, err = .MathDomain message)) :
    ∀ err, (if c then x else y) = .error err →
      (∃ message, err = .InvalidInput message) ∨ (∃ message, err = .MathDomain message) := by
  split <;> assumption

theorem applyOperator_error_kind {V : Type} (F : FloatOps V) (text : String) (a b : V) :
    ∀ err, applyOperator F text a b = .error err →
      (∃ message, err = .InvalidInput message) ∨ (∃ message, err = .MathDomain message) := by
  simp only [applyOperator]
  repeat (first
    | refine error_kind_ite _ _ _ ?_ ?_
    | (intro err h; cases h <;> first | exact Or.inl ⟨_, rfl⟩ | exact Or.inr ⟨_, rfl⟩))

theorem applyFunction_error_kind {V : Type} (F : FloatOps V) (name : String) (x : V) :
    ∀ err, applyFunction F name x = .error err →
      (∃ message, err = .InvalidInput message) ∨ (∃ message, err = .MathDomain message) := by
  simp only [applyFunction]
  repeat (first
    | refine error_kind_ite _ _ _ ?_ ?_
    | (intro err h; cases h <;> first | exact Or.inl ⟨_, rfl⟩ | exact Or.inr ⟨_, rfl⟩))

theorem applyUnaryOperator_error_kind {V : Type} (F : FloatOps V) (text : String) (a : V) :
    ∀ err, applyUnaryOperator F text a = .error err →
      (∃ message, err = .InvalidInput message) ∨ (∃ message, err = .MathDomain message) := by
  simp only [applyUnaryOperator]
  repeat (first
    | refine error_kind_ite _ _ _ ?_ ?_
    | (intro err h; cases h <;> exact Or.inl ⟨_, rfl⟩))

/-- Whatever the tokens, the loop of `evaluate` fails only with InvalidInput
or MathDomain. -/
theorem evalTokens_error_kind {V : Type} (F : FloatOps V) (tokens : List (Token V))
    (stack : List V) (err : CalcError) (h : evalTokens F tokens stack = .error err) :
    (∃ message, err = .InvalidInput message) ∨ (∃ message, err = .MathDomain message) := by
  induction tokens generalizing stack with
  | nil => simp [evalTokens] at h
  | cons t ts ih =>
    obtain ⟨ty, text, value⟩ := t
    cases ty with
    | Number => simp only [evalTokens] at h; exact ih _ h
    | Constant => simp only [evalTokens] at h; exact ih _ h
    | OpenParen => simp only [evalTokens, Except.error.injEq] at h; exact Or.inl ⟨_, h.symm⟩
    | CloseParen => simp only [evalTokens, Except.error.injEq] at h; exact Or.inl ⟨_, h.symm⟩
    | Function =>
      cases stack with
      | nil => simp only [evalTokens, Except.error.injEq] at h; exact Or.inl ⟨_, h.symm⟩
      | cons arg rest =>
        simp only [evalTokens] at h
        cases hr : applyFunction F text arg with
        | error e2 => rw [hr] at h; cases h; exact applyFunction_error_kind F _ _ _ hr
        | ok r => rw [hr] at h; exact ih _ h
    | Operator =>
      cases stack with
      | nil => simp only [evalTokens, Except.error.injEq] at h; exact Or.inl ⟨_, h.symm⟩
      | cons b rest =>
        simp only [evalTokens] at h
        by_cases hc : text = "neg" ∨ text = "pos"
        · rw [if_pos hc] at h
          cases hr : applyUnaryOperator F text b with
          | error e2 => rw [hr] at h; cases h; exact applyUnaryOperator_error_kind F _ _ _ hr
          | ok r => rw [hr] at h; exact ih _ h
        · rw [if_neg hc] at h
          cases rest with
          | nil => simp only [Except.error.injEq] at h; exact Or.inl ⟨_, h.symm⟩
          | cons a more =>
            simp only at h
            cases hr : applyOperator F text a b with
            | error e2 => rw [hr] at h; cases h; exact applyOperator_error_kind F _ _ _ _ hr
            | ok r => rw [hr] at h; exact ih _ h

theorem evaluate_error_kind {V : Type} (F : FloatOps V) (tokens : List (Token V))
    (err : CalcError) (h : evaluate F tokens = .error err) :
    (∃ message, err = .InvalidInput message) ∨ (∃ message, err = .MathDomain message) := by
  unfold evaluate at h
  cases he : evalTokens F tokens [] with
  | error e2 =>
    rw [he] at h
    cases h
    exact evalTokens_error_kind F tokens [] _ he
  | ok final =>
    rw [he] at h
    cases final with
    | nil => simp only [Except.error.injEq] at h; exact Or.inl ⟨_, h.symm⟩
    | cons v rest =>
      cases rest with
      | nil => cases h
      | cons v2 more => simp only [Except.error.injEq] at h; exact Or.inl ⟨_, h.symm⟩

/-- The loop of `evaluate` on tokens it can dispatch on, in full: a MathDomain
failure met before any token runs short of values is what the loop returns;
without one, the loop returns a stack of the predicted depth when every token
finds its values, and fails with a structural InvalidInput otherwise. -/
theorem evalTokens_exact {V : Type} (F : FloatOps V) (tokens : List (Token V))
    (stack : List V) (hvalid : ∀ t ∈ tokens, isWellTyped t = true) :
    (∀ message, domainFailure F tokens stack = some message →
      evalTokens F tokens stack = .error (.MathDomain message)) ∧
    (domainFailure F tokens stack = none →
      (∀ d, depthAfter tokens stack.length = some d →
        ∃ final, evalTokens F tokens stack = .ok final ∧ final.length = d) ∧
      (depthAfter tokens stack.length = none →
        ∃ message, evalTokens F tokens stack = .error (.InvalidInput message) ∧
          isStructuralMessage message)) := by
  induction tokens generalizing stack with
  | nil =>
    refine ⟨fun m hm => by simp [domainFailure] at hm, fun _ => ⟨?_, ?_⟩⟩
    · intro d hd
      simp only [depthAfter, Option.some.injEq] at hd
      exact ⟨stack, rfl, hd⟩
    · intro hd; simp [depthAfter] at hd
  | cons t ts ih =>
    have hts : ∀ x ∈ ts, isWellTyped x = true := fun x hx => hvalid x (List.mem_cons_of_mem _ hx)
    have ht : isWellTyped t = true := hvalid t (List.mem_cons_self _ _)
    obtain ⟨ty, text, value⟩ := t
    cases ty with
    | Number =>
      have := ih (value :: stack) hts
      simpa only [evalTokens, depthAfter, domainFailure, List.length_cons] using this
    | Constant =>
      have := ih (value :: stack) hts
      simpa only [evalTokens, depthAfter, domainFailure, List.length_cons] using this
    | OpenParen => simp [isWellTyped] at ht
    | CloseParen => simp [isWellTyped] at ht
    | Function =>
      have hname : functions.contains text = true := by simpa [isWellTyped] using ht
      cases stack with
      | nil =>
        refine ⟨fun m hm => by simp [domainFailure] at hm, fun _ => ⟨?_, ?_⟩⟩
        · intro d hd; simp [depthAfter] at hd
        · intro _
          exact ⟨_, by simp only [evalTokens], Or.inr (Or.inr (Or.inl ⟨text, rfl⟩))⟩
      | cons arg rest =>
        have hdepth : depthAfter (⟨.Function, text, value⟩ :: ts) (arg :: rest).length =
            depthAfter ts (arg :: rest).length := by
          simp [depthAfter]
        rw [hdepth]
        rcases applyFunction_known F text arg hname with ⟨r, hr⟩ | ⟨m, hm⟩
        · have := ih (r :: rest) hts
          simpa only [evalTokens, domainFailure, hr, List.length_cons] using this
        · refine ⟨fun m2 h2 => ?_, fun h2 => ?_⟩
          · simp only [domainFailure, hm, Option.some.injEq] at h2
            simp only [evalTokens, hm, h2]
          · simp only [domainFailure, hm] at h2
            cases h2
    | Operator =>
      have hop : (operators_.lookup text).isSome = true := by simpa [isWellTyped] using ht
      have hpos : text ≠ "pos" := by
        intro hp; rw [hp, lookup_pos] at hop; cases hop
      cases stack with
      | nil =>
        refine ⟨fun m hm => ?_, fun _ => ⟨?_, ?_⟩⟩
        · by_cases hn : text = "neg" <;> simp [domainFailure, hn] at hm
        · intro d hd
          by_cases hn : text = "neg" <;> simp [depthAfter, hn] at hd
        · intro _
          exact ⟨_, by simp only [evalTokens], Or.inl ⟨text, rfl⟩⟩
      | cons b rest =>
        by_cases hn : text = "neg"
        · have hdepth : depthAfter (⟨.Operator, text, value⟩ :: ts) (b :: rest).length =
              depthAfter ts (b :: rest).length := by
            simp [depthAfter, hn]
          rw [hdepth]
          have := ih (F.neg b :: rest) hts
          simpa only [evalTokens, domainFailure, hn, applyUnaryOperator, true_or, if_true,
            List.length_cons] using this
        · have hcond : ¬ (text = "neg" ∨ text = "pos") := fun h => h.elim hn hpos
          cases rest with
          | nil =>
            refine ⟨fun m hm => by simp [domainFailure, hn] at hm, fun _ => ⟨?_, ?_⟩⟩
            · intro d hd; simp [depthAfter, hn] at hd
            · intro _
              exact ⟨_, by simp only [evalTokens, if_neg hcond],
                Or.inr (Or.inl ⟨text, rfl⟩)⟩
          | cons a more =>
            have hdepth : depthAfter (⟨.Operator, text, value⟩ :: ts) (b :: a :: more).length =
                depthAfter ts (a :: more).length := by
              simp [depthAfter, hn]
            rw [hdepth]
            rcases applyOperator_binary F text a b hop hn with ⟨r, hr⟩ | ⟨m, hm⟩
            · have := ih (r :: more) hts
              simpa only [evalTokens, domainFailure, if_neg hcond, if_neg hn, hr,
                List.length_cons] using this
            · refine ⟨fun m2 h2 => ?_, fun h2 => ?_⟩
              · simp only [domainFailure, if_neg hn, hm, Option.some.injEq] at h2
                simp only [evalTokens, if_neg hcond, hm, h2]
              · simp only [domainFailure, if_neg hn, hm] at h2
                cases h2

/-! ## Structure of the sequences `evaluate` accepts -/

theorem evalTokens_append {V : Type} (F : FloatOps V) (pre suf : List (Token V))
    (stack : List V) :
    evalTokens F (pre ++ suf) stack =
      match evalTokens F pre stack with
      | .error err => .error err
      | .ok middle => evalTokens F suf middle := by
  induction pre generalizing stack with
  | nil => rfl
  | cons t ts ih =>
    obtain ⟨ty, text, value⟩ := t
    cases ty with
    | Number => simpa only [evalTokens, List.cons_append] using ih _
    | Constant => simpa only [evalTokens, List.cons_append] using ih _
    | OpenParen => simp only [evalTokens, List.cons_append]
    | CloseParen => simp only [evalTokens, List.cons_append]
    | Function =>
      cases stack with
      | nil => simp only [evalTokens, List.cons_append]
      | cons arg rest =>
        simp only [evalTokens, List.cons_append]
        cases applyFunction F text arg with
        | error e2 => rfl
        | ok r => exact ih _
    | Operator =>
      cases stack with
      | nil => simp only [evalTokens, List.cons_append]
      | cons b rest =>
        simp only [evalTokens, List.cons_append]
        by_cases hc : text = "neg" ∨ text = "pos"
        · rw [if_pos hc, if_pos hc]
          cases applyUnaryOperator F text b with
          | error e2 => rfl
          | ok r => exact ih _
        · rw [if_neg hc, if_neg hc]
          cases rest with
          | nil => rfl
          | cons a more =>
            simp only
            cases applyOperator F text a b with
            | error e2 => rfl
            | ok r => exact ih _

/-- A token whose requirement fails at the depth of the stack stops the loop
of `evaluate` with a structural InvalidInput. -/
theorem evalTokens_requirement {V : Type} (F : FloatOps V) (t : Token V)
    (rest : List (Token V)) (stack : List V) (ht : isWellTyped t = true)
    (hfail : depthAfter [t] stack.length = none) :
    ∃ message, evalTokens F (t :: rest) stack = .error (.InvalidInput message) ∧
      isStructuralMessage message := by
  obtain ⟨ty, text, value⟩ := t
  cases ty with
  | Number => simp [depthAfter] at hfail
  | Constant => simp [depthAfter] at hfail
  | OpenParen => simp [isWellTyped] at ht
  | CloseParen => simp [isWellTyped] at ht
  | Function =>
    cases stack with
    | nil => exact ⟨_, by simp only [evalTokens], Or.inr (Or.inr (Or.inl ⟨text, rfl⟩))⟩
    | cons arg more => simp [depthAfter] at hfail
  | Operator =>
    have hop : (operators_.lookup text).isSome = true := by simpa [isWellTyped] using ht
    have hpos : text ≠ "pos" := by
      intro hp; rw [hp, lookup_pos] at hop; cases hop
    cases stack with
    | nil => exact ⟨_, by simp only [evalTokens], Or.inl ⟨text, rfl⟩⟩
    | cons b more =>
      by_cases hn : text = "neg"
      · simp [depthAfter, hn] at hfail
      · have hcond : ¬ (text = "neg" ∨ text = "pos") := fun h => h.elim hn hpos
        cases more with
        | nil =>
          exact ⟨_, by simp only [evalTokens, if_neg hcond], Or.inr (Or.inl ⟨text, rfl⟩)⟩
        | cons a deeper => simp [depthAfter, hn] at hfail

/-- The text `2 +`. -/
theorem parse_two_plus {V : Type} (F : FloatOps V) (v2 : V) (h2 : F.stod "2" = some v2) :
    parseToPostfix F "2 +" = .ok [numberToken "2" v2, operatorToken F "+"] := by
  apply scan_top
  refine scan_number F _ "2" v2 [] " +".data _ _ _ _
    (by decide) (by decide) h2 rfl rfl ?_
  refine scan_space F _ "2".data "+".data ' ' _ _ _ _ (by decide)
    rfl rfl ?_
  refine scan_operator F _ "2 ".data [] '+' _ _ _ _ _ _ _
    (by decide) rfl rfl rfl rfl ?_
  exact scan_end F _ _ _ _ _ (by decide) rfl

/-- C14: `evaluate` accepts exactly the structurally well-formed postfix
sequences. For tokens the evaluator can dispatch on, with `depthAfter` the
depth of the value stack and `domainFailure` the first MathDomain failure of
an applied operator or function: `evaluate` returns a value exactly when every
requirement holds, the final depth is 1 and no domain failure occurs; it fails
with MathDomain exactly when a domain failure occurs, with that message;
without a domain failure, a failed requirement gives a structural InvalidInput
and a final depth `n ≠ 1` gives "Invalid expression: stack contains n values";
at the first token whose requirement fails the failure is a structural
InvalidInput unless the tokens before it already fail with MathDomain; with
final depth 1 `evaluate` never fails with InvalidInput, and otherwise it
returns no value; and `calculate "2 +"` is InvalidInput. -/
theorem c14_evaluate_structure {V : Type} (F : FloatOps V) (tokens : List (Token V))
    (hvalid : ∀ t ∈ tokens, isWellTyped t = true) :
    ((∃ r, evaluate F tokens = .ok r) ↔
      (depthAfter tokens 0 = some 1 ∧ domainFailure F tokens [] = none)) ∧
    (∀ message, evaluate F tokens = .error (.MathDomain message) ↔
      domainFailure F tokens [] = some message) ∧
    (domainFailure F tokens [] = none → depthAfter tokens 0 = none →
      ∃ message, evaluate F tokens = .error (.InvalidInput message) ∧
        isStructuralMessage message) ∧
    (∀ n, n ≠ 1 → depthAfter tokens 0 = some n → domainFailure F tokens [] = none →
      evaluate F tokens = .error (.InvalidInput
        ("Invalid expression: stack contains " ++ toString n ++ " values"))) ∧
    (∀ pre t suf d, tokens = pre ++ t :: suf → depthAfter pre 0 = some d →
      depthAfter [t] d = none →
      (domainFailure F pre [] = none ∧
        ∃ message, evaluate F tokens = .error (.InvalidInput message) ∧
          isStructuralMessage message) ∨
        (∃ message, domainFailure F pre [] = some message ∧
          evalTokens F pre [] = .error (.MathDomain message) ∧
          evaluate F tokens = .error (.MathDomain message))) ∧
    (depthAfter tokens 0 = some 1 →
      ∀ message, evaluate F tokens ≠ .error (.InvalidInput message)) ∧
    (depthAfter tokens 0 ≠ some 1 →
      (∀ r, evaluate F tokens ≠ .ok r) ∧
        ((∃ message, evaluate F tokens = .error (.InvalidInput message) ∧
            isStructuralMessage message) ∨
          (∃ message, domainFailure F tokens [] = some message ∧
            evaluate F tokens = .error (.MathDomain message)))) ∧
    (∀ v2, F.stod "2" = some v2 →
      calculate F "2 +" =
        .error (.InvalidInput "Insufficient operands for binary operator: +")) := by
  have hex := evalTokens_exact F tokens [] hvalid
  simp only [List.length_nil] at hex
  obtain ⟨hfail, hclean⟩ := hex
  have hdomain : ∀ message, domainFailure F tokens [] = some message →
      evaluate F tokens = .error (.MathDomain message) := by
    intro m hm
    simp only [evaluate, hfail m hm]
  have hshort : domainFailure F tokens [] = none → depthAfter tokens 0 = none →
      ∃ message, evaluate F tokens = .error (.InvalidInput message) ∧
        isStructuralMessage message := by
    intro hnone hd
    obtain ⟨m, hm, hs⟩ := (hclean hnone).2 hd
    exact ⟨m, by simp only [evaluate, hm], hs⟩
  have hone : domainFailure F tokens [] = none → depthAfter tokens 0 = some 1 →
      ∃ r, evaluate F tokens = .ok r := by
    intro hnone hd
    obtain ⟨final, hf, hlen⟩ := (hclean hnone).1 1 hd
    cases final with
    | nil => cases hlen
    | cons v rest =>
      cases rest with
      | nil => exact ⟨v, by simp only [evaluate, hf]⟩
      | cons v2 more => simp at hlen
  have hwrong : ∀ n, n ≠ 1 → depthAfter tokens 0 = some n →
      domainFailure F tokens [] = none →
      evaluate F tokens = .error (.InvalidInput
        ("Invalid expression: stack contains " ++ toString n ++ " values")) := by
    intro n hn1 hn hnone
    obtain ⟨final, hf, hlen⟩ := (hclean hnone).1 n hn
    subst hlen
    cases final with
    | nil => simp only [evaluate, hf]
    | cons v rest =>
      cases rest with
      | nil => exact absurd rfl hn1
      | cons v2 more => simp only [evaluate, hf]
  have hvalue : ∀ r, evaluate F tokens = .ok r →
      depthAfter tokens 0 = some 1 ∧ domainFailure F tokens [] = none := by
    intro r hr
    cases hdf : domainFailure F tokens [] with
    | some m => rw [hdomain m hdf] at hr; cases hr
    | none =>
      refine ⟨?_, rfl⟩
      cases hd : depthAfter tokens 0 with
      | none =>
        obtain ⟨m, hm, _⟩ := hshort hdf hd
        rw [hm] at hr; cases hr
      | some n =>
        by_cases hn1 : n = 1
        · rw [hn1]
        · rw [hwrong n hn1 hd hdf] at hr; cases hr
  refine ⟨⟨fun ⟨r, hr⟩ => hvalue r hr, fun h => hone h.2 h.1⟩, ?_, hshort, hwrong, ?_, ?_, ?_, ?_⟩
  · intro message
    refine ⟨fun hm => ?_, hdomain message⟩
    cases hdf : domainFailure F tokens [] with
    | some m =>
      rw [hdomain m hdf] at hm
      simp only [Except.error.injEq, CalcError.MathDomain.injEq] at hm
      rw [hm]
    | none =>
      cases hd : depthAfter tokens 0 with
      | none =>
        obtain ⟨m, hm2, _⟩ := hshort hdf hd
        rw [hm2] at hm; cases hm
      | some n =>
        by_cases hn1 : n = 1
        · obtain ⟨r, hr⟩ := hone hdf (by rw [hd, hn1])
          rw [hr] at hm; cases hm
        · rw [hwrong n hn1 hd hdf] at hm; cases hm
  · intro pre t suf d htok hpre hfail2
    have hpv : ∀ x ∈ pre, isWellTyped x = true := fun x hx =>
      hvalid x (by rw [htok]; exact List.mem_append_left _ hx)
    have htv : isWellTyped t = true :=
      hvalid t (by rw [htok]; exact List.mem_append_right _ (List.mem_cons_self _ _))
    have hp := evalTokens_exact F pre [] hpv
    simp only [List.length_nil] at hp
    have happ := evalTokens_append F pre (t :: suf) []
    rw [← htok] at happ
    cases hdf : domainFailure F pre [] with
    | none =>
      left
      obtain ⟨middle, hmid, hlen⟩ := (hp.2 hdf).1 d hpre
      rw [hmid] at happ
      obtain ⟨m, hm, hs⟩ := evalTokens_requirement F t suf middle htv (by rw [hlen]; exact hfail2)
      exact ⟨rfl, m, by simp only [evaluate, happ, hm], hs⟩
    | some m =>
      right
      have hm := hp.1 m hdf
      rw [hm] at happ
      exact ⟨m, rfl, hm, by simp only [evaluate, happ]⟩
  · intro hd message hm
    cases hdf : domainFailure F tokens [] with
    | some m => rw [hdomain m hdf] at hm; cases hm
    | none =>
      obtain ⟨r, hr⟩ := hone hdf hd
      rw [hr] at hm; cases hm
  · intro hne
    refine ⟨fun r hr => hne (hvalue r hr).1, ?_⟩
    cases hdf : domainFailure F tokens [] with
    | some m => exact Or.inr ⟨m, rfl, hdomain m hdf⟩
    | none =>
      left
      cases hd : depthAfter tokens 0 with
      | none => exact hshort hdf hd
      | some n =>
        have hn1 : n ≠ 1 := fun h1 => hne (by rw [hd, h1])
        exact ⟨_, hwrong n hn1 hd hdf, Or.inr (Or.inr (Or.inr ⟨n, rfl⟩))⟩
  · intro v2 h2
    rw [calculate_of_parse F "2 +" _ (by decide) (parse_two_plus F v2 h2)]
    rfl

/-- Witness of C14: in exact arithmetic `2 +` has a failing requirement, `2 3`
leaves two values, `2 3 +` is accepted, and `5 0 /` fails with MathDomain. -/
theorem c14_evaluate_structure_witness :
    (∃ message, evaluate Exact.ops [numberToken "2" 2, operatorToken Exact.ops "+"] =
        .error (.InvalidInput message) ∧ isStructuralMessage message) ∧
      evaluate Exact.ops [numberToken "2" 2, numberToken "3" 3] =
        .error (.InvalidInput
          ("Invalid expression: stack contains " ++ toString 2 ++ " values")) ∧
      (∃ r, evaluate Exact.ops
        [numberToken "2" 2, numberToken "3" 3, operatorToken Exact.ops "+"] = .ok r) ∧
      evaluate Exact.ops [numberToken "5" 5, numberToken "0" 0, operatorToken Exact.ops "/"] =
        .error (.MathDomain "Division by zero") ∧
      calculate Exact.ops "2 +" =
        .error (.InvalidInput "Insufficient operands for binary operator: +") := by
  have hpos : (0 : ℚ) < mkRat 1 10000000000 := by norm_num [Rat.mkRat_eq_div]
  have hdiv : domainFailure Exact.ops
      [numberToken "5" 5, numberToken "0" 0, operatorToken Exact.ops "/"] [] =
      some "Division by zero" := by
    simp [domainFailure, numberToken, operatorToken, applyOperator, Exact.ops, hpos]
  exact ⟨(c14_evaluate_structure Exact.ops [numberToken "2" 2, operatorToken Exact.ops "+"]
      (by decide)).2.2.1 (by decide) (by decide),
    (c14_evaluate_structure Exact.ops [numberToken "2" 2, numberToken "3" 3]
      (by decide)).2.2.2.1 2 (by decide) (by decide) (by decide),
    (c14_evaluate_structure Exact.ops
      [numberToken "2" 2, numberToken "3" 3, operatorToken Exact.ops "+"]
      (by decide)).1.2 ⟨by decide, by decide⟩,
    ((c14_evaluate_structure Exact.ops
      [numberToken "5" 5, numberToken "0" 0, operatorToken Exact.ops "/"]
      (by decide)).2.1 "Division by zero").2 hdiv,
    (c14_evaluate_structure Exact.ops [] (by decide)).2.2.2.2.2.2.2 2 (by decide)⟩

/-! ## What the parser emits -/

theorem parseIdentifier_typed {V : Type} (F : FloatOps V) (expression : String) (index : Nat)
    (identifier : Token V) (i' : Nat)
    (h : parseIdentifier F expression index = .ok (identifier, i')) :
    isWellTyped identifier = true := by
  unfold parseIdentifier at h
  simp only at h
  split at h
  · simp only [Except.ok.injEq, Prod.mk.injEq] at h
    rw [← h.1]; rfl
  · split at h
    · rename_i hf
      simp only [Except.ok.injEq, Prod.mk.injEq] at h
      rw [← h.1]
      exact hf
    · cases h

theorem stackTyped_nil {V : Type} : StackTyped ([] : List (Token V)) := by
  intro t ht; cases ht

/-- One iteration of the main loop keeps the output dispatchable and the stack
made of dispatchable tokens and OpenParen markers. -/
theorem parseStep_typed {V : Type} (F : FloatOps V) (expression : String) (i : Nat)
    (output stack : List (Token V)) (i' : Nat) (output' stack' : List (Token V))
    (hout : ∀ t ∈ output, isWellTyped t = true) (hst : StackTyped stack)
    (h : parseStep F expression i output stack = .ok (i', output', stack')) :
    (∀ t ∈ output', isWellTyped t = true) ∧ StackTyped stack' := by
  rcases parseStep_cases F expression i output stack i' output' stack' h with
    ⟨_, _, h2, h3⟩ | ⟨_, number, hp, h2, h3⟩ | ⟨_, identifier, hp, hh⟩ | ⟨_, _, h2, h3⟩ |
    ⟨_, _, o, s, hp, hh⟩ | ⟨_, _, _, _, opToken, o, s, hp, hr, h2, h3⟩
  · rw [h2, h3]; exact ⟨hout, hst⟩
  · rw [h2, h3]
    refine ⟨?_, hst⟩
    intro t hmem
    rcases List.mem_append.1 hmem with hmem | hmem
    · exact hout t hmem
    · obtain ⟨_, value, _, hn⟩ := parseNumber_ok F expression i number i' hp
      rw [List.mem_singleton.1 hmem, hn]; rfl
  · have hty := parseIdentifier_typed F expression i identifier i' hp
    rcases hh with ⟨_, h2, h3⟩ | ⟨_, h2, h3⟩
    · rw [h2, h3]
      refine ⟨?_, hst⟩
      intro t hmem
      rcases List.mem_append.1 hmem with hmem | hmem
      · exact hout t hmem
      · rw [List.mem_singleton.1 hmem]; exact hty
    · rw [h2, h3]
      refine ⟨hout, ?_⟩
      intro t hmem
      rcases List.mem_cons.1 hmem with rfl | hmem
      · exact Or.inl hty
      · exact hst t hmem
  · rw [h2, h3]
    refine ⟨hout, ?_⟩
    intro t hmem
    rcases List.mem_cons.1 hmem with rfl | hmem
    · exact Or.inr rfl
    · exact hst t hmem
  · obtain ⟨popped, marker, h1, _, ho, hpop⟩ := popToOpenParen_some output stack o s hp
    have hs : StackTyped s := by
      intro t hmem
      exact hst t (by rw [h1]; simp [hmem])
    have hotyped : ∀ t ∈ o, isWellTyped t = true := by
      intro t hmem
      rw [ho] at hmem
      rcases List.mem_append.1 hmem with hmem | hmem
      · exact hout t hmem
      · rcases hst t (by rw [h1]; simp [hmem]) with hw | hopen
        · exact hw
        · exact absurd hopen (hpop t hmem)
    rcases hh with ⟨top, rest, hs2, hf, h2, h3⟩ | ⟨_, h2, h3⟩
    · rw [h2, h3]
      refine ⟨?_, ?_⟩
      · intro t hmem
        rcases List.mem_append.1 hmem with hmem | hmem
        · exact hotyped t hmem
        · rw [List.mem_singleton.1 hmem]
          rcases hs top (by rw [hs2]; exact List.mem_cons_self _ _) with hw | hopen
          · exact hw
          · rw [hf] at hopen; cases hopen
      · intro t hmem
        exact hs t (by rw [hs2]; exact List.mem_cons_of_mem _ hmem)
    · rw [h2, h3]; exact ⟨hotyped, hs⟩
  · obtain ⟨popped, h1, ho, hpop⟩ := reduceOperators_ok opToken output stack o s hr
    obtain ⟨_, hty, _, hlook, _⟩ := parseOperator_ok F expression i output opToken i' hp
    rw [h2, h3]
    refine ⟨?_, ?_⟩
    · intro t hmem
      rw [ho] at hmem
      rcases List.mem_append.1 hmem with hmem | hmem
      · exact hout t hmem
      · rcases hst t (by rw [h1]; simp [hmem]) with hw | hopen
        · exact hw
        · rw [hpop t hmem] at hopen; cases hopen
    · intro t hmem
      rcases List.mem_cons.1 hmem with rfl | hmem
      · left
        unfold isWellTyped
        rw [hty]
        exact hlook
      · exact hst t (by rw [h1]; simp [hmem])

theorem parseLoop_typed {V : Type} (F : FloatOps V) (e : String) (fuel i : Nat)
    (output stack r : List (Token V))
    (hout : ∀ t ∈ output, isWellTyped t = true) (hst : StackTyped stack)
    (h : parseLoop F e fuel i output stack = .ok r) :
    ∀ t ∈ r, isWellTyped t = true := by
  induction fuel generalizing i output stack with
  | zero => cases h
  | succ fuel ih =>
    rw [parseLoop_succ] at h
    by_cases hlt : i < size e
    · rw [if_pos hlt] at h
      cases hp : parseStep F e i output stack with
      | error err => rw [hp] at h; cases h
      | ok res =>
        obtain ⟨i', o', s'⟩ := res
        rw [hp] at h
        obtain ⟨h1, h2⟩ := parseStep_typed F e i output stack i' o' s' hout hst hp
        exact ih i' o' s' h1 h2 h
    · rw [if_neg hlt] at h
      obtain ⟨hr, hnone⟩ := drain_ok_inv output stack r h
      intro t hmem
      rw [hr] at hmem
      rcases List.mem_append.1 hmem with hmem | hmem
      · exact hout t hmem
      · rcases hst t hmem with hw | hopen
        · exact hw
        · exact absurd hopen (hnone t hmem).1

theorem parseToPostfix_typed {V : Type} (F : FloatOps V) (e : String)
    (tokens : List (Token V)) (h : parseToPostfix F e = .ok tokens) :
    ∀ t ∈ tokens, isWellTyped t = true :=
  parseLoop_typed F e _ 0 [] [] tokens (by intro t ht; cases ht) stackTyped_nil h

theorem isWellTyped_cases {V : Type} (t : Token V) (h : isWellTyped t = true) :
    t.type = .Number ∨ t.type = .Constant ∨
      (t.type = .Operator ∧ (operators_.lookup t.text).isSome = true) ∨
      (t.type = .Function ∧ functions.contains t.text = true) := by
  obtain ⟨ty, text, value⟩ := t
  cases ty with
  | Number => exact Or.inl rfl
  | Constant => exact Or.inr (Or.inl rfl)
  | Operator => exact Or.inr (Or.inr (Or.inl ⟨rfl, h⟩))
  | Function => exact Or.inr (Or.inr (Or.inr ⟨rfl, h⟩))
  | OpenParen => simp [isWellTyped] at h
  | CloseParen => simp [isWellTyped] at h

theorem head_append (a b : String) (c : Char) (h : a.data.head? = some c) :
    (a ++ b).data.head? = some c := by
  rw [String.data_append]
  cases hd : a.data with
  | nil => rw [hd] at h; cases h
  | cons x rest => rw [hd] at h; exact h

theorem structural_head (message : String) (h : isStructuralMessage message) :
    message.data.head? = some 'I' := by
  rcases h with ⟨text, rfl⟩ | ⟨text, rfl⟩ | ⟨text, rfl⟩ | ⟨n, rfl⟩
  · exact head_append _ _ _ (by decide)
  · exact head_append _ _ _ (by decide)
  · exact head_append _ _ _ (by decide)
  · exact head_append _ _ _ (head_append _ _ _ (by decide))

theorem defensive_head (message : String) (h : isDefensiveMessage message) :
    message.data.head? = some 'U' := by
  rcases h with rfl | ⟨text, rfl⟩ | ⟨text, rfl⟩ | ⟨text, rfl⟩
  · decide
  · exact head_append _ _ _ (by decide)
  · exact head_append _ _ _ (by decide)
  · exact head_append _ _ _ (by decide)

/-- On tokens it can dispatch on, `evaluate` fails with InvalidInput only for
a structural reason. -/
theorem evaluate_structural {V : Type} (F : FloatOps V) (tokens : List (Token V))
    (hvalid : ∀ t ∈ tokens, isWellTyped t = true) (message : String)
    (h : evaluate F tokens = .error (.InvalidInput message)) :
    isStructuralMessage message := by
  have hout := evalTokens_outcome F tokens [] hvalid
  simp only [List.length_nil] at hout
  cases hd : depthAfter tokens 0 with
  | none =>
    rcases hout.2 hd with ⟨m, hm, hs⟩ | ⟨m, hm⟩
    · simp only [evaluate, hm, Except.error.injEq, CalcError.InvalidInput.injEq] at h
      rw [← h]; exact hs
    · simp only [evaluate, hm, Except.error.injEq] at h
      cases h
  | some n =>
    rcases hout.1 n hd with ⟨final, hf, _⟩ | ⟨m, hm⟩
    · cases final with
      | nil =>
        simp only [evaluate, hf, Except.error.injEq, CalcError.InvalidInput.injEq] at h
        rw [← h]; exact Or.inr (Or.inr (Or.inr ⟨_, rfl⟩))
      | cons v rest =>
        cases rest with
        | nil => simp only [evaluate, hf] at h; cases h
        | cons v2 more =>
          simp only [evaluate, hf, Except.error.injEq, CalcError.InvalidInput.injEq] at h
          rw [← h]; exact Or.inr (Or.inr (Or.inr ⟨_, rfl⟩))
    · simp only [evaluate, hm, Except.error.injEq] at h
      cases h

/-- C17: the parser output invariant. Whenever `parseToPostfix` succeeds,
every token it returns is a Number, a Constant, an Operator whose text is a key
of the operator table, or a Function whose text is in the function set; no
OpenParen or CloseParen appears; and `evaluate` and `calculate` on that input
never fail with one of the defensive messages "Unexpected token type",
"Unknown operator", "Unknown unary operator", "Unknown function". -/
theorem c17_parser_output {V : Type} (F : FloatOps V) (e : String) (tokens : List (Token V))
    (h : parseToPostfix F e = .ok tokens) :
    (∀ t ∈ tokens, t.type = .Number ∨ t.type = .Constant ∨
      (t.type = .Operator ∧ t.text ∈ ["+", "-", "*", "/", "%", "^", "neg"] ∧
        (operators_.lookup t.text).isSome = true) ∨
      (t.type = .Function ∧ t.text ∈ functions)) ∧
    (∀ t ∈ tokens, t.type ≠ .OpenParen ∧ t.type ≠ .CloseParen) ∧
    (∀ message, evaluate F tokens = .error (.InvalidInput message) →
      ¬ isDefensiveMessage message) ∧
    (∀ message, calculate F e = .error (.InvalidInput message) →
      ¬ isDefensiveMessage message) := by
  have htyped := parseToPostfix_typed F e tokens h
  have hcases : ∀ t ∈ tokens, t.type = .Number ∨ t.type = .Constant ∨
      (t.type = .Operator ∧ t.text ∈ ["+", "-", "*", "/", "%", "^", "neg"] ∧
        (operators_.lookup t.text).isSome = true) ∨
      (t.type = .Function ∧ t.text ∈ functions) := by
    intro t hmem
    rcases isWellTyped_cases t (htyped t hmem) with hn | hc | ⟨ho, hl⟩ | ⟨hf, hl⟩
    · exact Or.inl hn
    · exact Or.inr (Or.inl hc)
    · refine Or.inr (Or.inr (Or.inl ⟨ho, ?_, hl⟩))
      have := lookup_isSome_cases t.text hl
      simpa using this
    · exact Or.inr (Or.inr (Or.inr ⟨hf, by simpa using hl⟩))
  have heval : ∀ message, evaluate F tokens = .error (.InvalidInput message) →
      ¬ isDefensiveMessage message := by
    intro message hm hdef
    have h1 := structural_head message (evaluate_structural F tokens htyped message hm)
    have h2 := defensive_head message hdef
    rw [h1] at h2
    cases h2
  refine ⟨hcases, ?_, heval, ?_⟩
  · intro t hmem
    rcases hcases t hmem with hn | hc | ⟨ho, _⟩ | ⟨hf, _⟩ <;>
      (constructor <;> intro hbad <;> simp_all)
  · intro message hm
    by_cases hne : e.data = []
    · unfold calculate at hm
      rw [if_pos (by simp [size, hne])] at hm
      simp only [Except.error.injEq, CalcError.InvalidInput.injEq] at hm
      intro hdef
      have h2 := defensive_head message hdef
      rw [← hm] at h2
      revert h2
      decide
    · rw [calculate_of_parse F e tokens hne h] at hm
      exact heval message hm

/-- Witness of C17: the output for `sin(pi/2)` in exact arithmetic. -/
theorem c17_parser_output_witness :
    parseToPostfix Exact.ops "sin(pi/2)" =
        .ok [⟨.Constant, "pi", Exact.ops.pi⟩, numberToken "2" 2, operatorToken Exact.ops "/",
          functionToken Exact.ops "sin"] ∧
      ∀ t ∈ ([⟨.Constant, "pi", Exact.ops.pi⟩, numberToken "2" 2, operatorToken Exact.ops "/",
          functionToken Exact.ops "sin"] : List (Token ℚ)),
        t.type ≠ .OpenParen ∧ t.type ≠ .CloseParen :=
  ⟨by decide, (c17_parser_output Exact.ops "sin(pi/2)" _ (by decide)).2.1⟩

/-! ## No stack call on an empty stack -/

theorem popToOpenParenChecked_eq {V : Type} (output stack : List (Token V)) (n : Nat)
    (hn : stack.length ≤ n) :
    popToOpenParenChecked n output stack = some (popToOpenParen output stack) := by
  induction stack generalizing output n with
  | nil => unfold popToOpenParenChecked; rfl
  | cons top rest ih =>
    cases n with
    | zero => simp at hn
    | succ n =>
      unfold popToOpenParenChecked
      simp only [List.isEmpty_cons, Bool.false_eq_true, if_false, stackTop, stackPop,
        popToOpenParen]
      split
      · rfl
      · exact ih _ n (by simpa using hn)

theorem moveFunctionChecked_isSome {V : Type} (output stack : List (Token V)) :
    (moveFunctionChecked output stack).isSome = true := by
  unfold moveFunctionChecked
  cases stack with
  | nil => rfl
  | cons top rest =>
    simp only [List.isEmpty_cons, Bool.false_eq_true, if_false, stackTop, stackPop]
    split <;> rfl

theorem reduceOperatorsChecked_eq {V : Type} (opToken : Token V)
    (output stack : List (Token V)) (n : Nat) (hn : stack.length ≤ n) :
    reduceOperatorsChecked opToken n output stack =
      some (reduceOperators opToken output stack) := by
  induction stack generalizing output n with
  | nil => unfold reduceOperatorsChecked; rfl
  | cons top rest ih =>
    cases n with
    | zero => simp at hn
    | succ n =>
      unfold reduceOperatorsChecked
      simp only [List.isEmpty_cons, Bool.false_eq_true, if_false, stackTop, stackPop,
        reduceOperators]
      split
      · rfl
      · cases operators_.lookup opToken.text with
        | none => rfl
        | some currentInfo =>
          cases operators_.lookup top.text with
          | none => rfl
          | some topInfo =>
            simp only
            split
            · rfl
            · exact ih _ n (by simpa using hn)

theorem drainChecked_eq {V : Type} (output stack : List (Token V)) (n : Nat)
    (hn : stack.length ≤ n) :
    drainChecked n output stack = some (drain output stack) := by
  induction stack generalizing output n with
  | nil => unfold drainChecked; rfl
  | cons top rest ih =>
    cases n with
    | zero => simp at hn
    | succ n =>
      unfold drainChecked
      simp only [List.isEmpty_cons, Bool.false_eq_true, if_false, stackTop, stackPop, drain]
      split
      · rfl
      · exact ih _ n (by simpa using hn)

theorem evalTokensChecked_eq {V : Type} (F : FloatOps V) (tokens : List (Token V))
    (stack : List V) :
    evalTokensChecked F tokens stack = some (evalTokens F tokens stack) := by
  induction tokens generalizing stack with
  | nil => rfl
  | cons t ts ih =>
    obtain ⟨ty, text, value⟩ := t
    cases ty with
    | Number => simpa only [evalTokens, evalTokensChecked] using ih _
    | Constant => simpa only [evalTokens, evalTokensChecked] using ih _
    | OpenParen => simp only [evalTokens, evalTokensChecked]
    | CloseParen => simp only [evalTokens, evalTokensChecked]
    | Function =>
      cases stack with
      | nil => simp only [evalTokens, evalTokensChecked, List.isEmpty_nil, if_true]
      | cons arg rest =>
        simp only [evalTokens, evalTokensChecked, List.isEmpty_cons, Bool.false_eq_true,
          if_false, stackTop, stackPop]
        cases applyFunction F text arg with
        | error e2 => rfl
        | ok r => exact ih _
    | Operator =>
      cases stack with
      | nil =>
        simp only [evalTokens, evalTokensChecked, List.length_nil, Nat.lt_one_iff, if_true]
      | cons b rest =>
        have h1 : ¬ (b :: rest).length < 1 := by simp
        simp only [evalTokens, evalTokensChecked, if_neg h1, stackTop, stackPop]
        by_cases hc : text = "neg" ∨ text = "pos"
        · rw [if_pos hc, if_pos hc]
          cases applyUnaryOperator F text b with
          | error e2 => rfl
          | ok r => exact ih _
        · rw [if_neg hc, if_neg hc]
          cases rest with
          | nil => simp
          | cons a more =>
            have h2 : ¬ (b :: a :: more).length < 2 := by simp
            simp only [if_neg h2, stackTop, stackPop]
            cases applyOperator F text a b with
            | error e2 => rfl
            | ok r => exact ih _

theorem evaluateChecked_eq {V : Type} (F : FloatOps V) (tokens : List (Token V)) :
    evaluateChecked F tokens = some (evaluate F tokens) := by
  unfold evaluateChecked evaluate
  rw [evalTokensChecked_eq]
  cases evalTokens F tokens [] with
  | error err => rfl
  | ok stack =>
    cases stack with
    | nil => rfl
    | cons v rest =>
      cases rest with
      | nil => rfl
      | cons v2 more => simp [stackTop]

/-! ## Termination and the failures of `calculate` -/

theorem skipDigits_fuel (e : String) (n m i : Nat) (hn : size e - i ≤ n)
    (hm : size e - i ≤ m) : skipDigits e n i = skipDigits e m i := by
  induction n generalizing m i with
  | zero =>
    cases m with
    | zero => rfl
    | succ m =>
      rw [skipDigits_succ, if_neg (by intro h; have := h.1; omega)]
      rfl
  | succ n ih =>
    cases m with
    | zero =>
      rw [skipDigits_succ, if_neg (by intro h; have := h.1; omega)]
      rfl
    | succ m =>
      rw [skipDigits_succ, skipDigits_succ]
      by_cases hc : i < size e ∧ isdigit (charAt e i) = true
      · rw [if_pos hc, if_pos hc]
        exact ih m (i + 1) (by omega) (by omega)
      · rw [if_neg hc, if_neg hc]

theorem scanIdentifier_fuel (e : String) (n m i : Nat) (hn : size e - i ≤ n)
    (hm : size e - i ≤ m) : scanIdentifier e n i = scanIdentifier e m i := by
  induction n generalizing m i with
  | zero =>
    cases m with
    | zero => rfl
    | succ m =>
      simp only [scanIdentifier]
      rw [if_neg (by intro h; have := h.1; omega)]
  | succ n ih =>
    cases m with
    | zero =>
      simp only [scanIdentifier]
      rw [if_neg (by intro h; have := h.1; omega)]
    | succ m =>
      simp only [scanIdentifier]
      split
      · exact ih m (i + 1) (by omega) (by omega)
      · rfl

theorem scanNumber_fuel (e : String) (n m i : Nat) (dot : Bool) (hn : size e - i ≤ n)
    (hm : size e - i ≤ m) : scanNumber e n i dot = scanNumber e m i dot := by
  induction n generalizing m i dot with
  | zero =>
    cases m with
    | zero => rfl
    | succ m =>
      rw [scanNumber_succ, if_neg (by omega)]
      rfl
  | succ n ih =>
    cases m with
    | zero =>
      rw [scanNumber_succ, if_neg (by omega)]
      rfl
    | succ m =>
      rw [scanNumber_succ, scanNumber_succ]
      by_cases hlt : i < size e
      · rw [if_pos hlt, if_pos hlt]
        by_cases hd : isdigit (charAt e i) = true
        · rw [if_pos hd, if_pos hd]
          exact ih m (i + 1) dot (by omega) (by omega)
        · rw [if_neg hd, if_neg hd]
          by_cases hp : charAt e i = '.' ∧ dot = false
          · rw [if_pos hp, if_pos hp]
            exact ih m (i + 1) true (by omega) (by omega)
          · rw [if_neg hp, if_neg hp]
      · rw [if_neg hlt, if_neg hlt]

theorem scanReaches_valid {V : Type} (F : FloatOps V) (e : String) (i : Nat)
    (output stack : List (Token V)) (h : ScanReaches F e i output stack) :
    StackValid stack := by
  induction h with
  | start => exact stackValid_nil
  | step _ _ hstep ih => exact parseStep_valid F e _ _ _ _ _ _ ih hstep

theorem calculate_outcome {V : Type} (F : FloatOps V) (e : String) :
    (∃ r, calculate F e = .ok r) ∨
      (∃ message, calculate F e = .error (.InvalidInput message)) ∨
      (∃ message, calculate F e = .error (.MathDomain message)) := by
  unfold calculate
  split
  · exact Or.inr (Or.inl ⟨_, rfl⟩)
  · cases hp : parseToPostfix F e with
    | error err =>
      obtain ⟨m, hm⟩ := parseToPostfix_error F e err hp
      exact Or.inr (Or.inl ⟨m, by rw [hm]⟩)
    | ok tokens =>
      simp only
      cases he : evaluate F tokens with
      | ok r => exact Or.inl ⟨r, rfl⟩
      | error err =>
        rcases evaluate_error_kind F tokens err he with ⟨m, hm⟩ | ⟨m, hm⟩
        · exact Or.inr (Or.inl ⟨m, by rw [hm]⟩)
        · exact Or.inr (Or.inr ⟨m, by rw [hm]⟩)

/-- C18: `calculate` is total with only the two typed failures. For every
input: `calculate` ends with a value, with InvalidInput or with MathDomain;
`parseToPostfix` returns tokens or InvalidInput within its `size + 1`
iterations, and more iterations change nothing; every iteration of the main
loop moves the index forward, also through `parseNumber` and `parseIdentifier`,
whose scans do not depend on the bound of their recursion once it covers the
rest of the input; on every state the main loop reaches, both `operators_.at`
lookups of the reduction loop find their key; and no `top` or `pop` is made on
an empty operator stack or value stack. -/
theorem c18_calculate_total {V : Type} (F : FloatOps V) (e : String) :
    ((∃ r, calculate F e = .ok r) ∨
      (∃ message, calculate F e = .error (.InvalidInput message)) ∨
      (∃ message, calculate F e = .error (.MathDomain message))) ∧
    ((∃ tokens, parseToPostfix F e = .ok tokens) ∨
      (∃ message, parseToPostfix F e = .error (.InvalidInput message))) ∧
    (∀ k, parseLoop F e (size e + 1 + k) 0 [] [] = parseToPostfix F e) ∧
    (∀ i output stack i' output' stack', i < size e →
      parseStep F e i output stack = .ok (i', output', stack') → i < i') ∧
    (∀ i number i', i < size e →
      (isdigit (charAt e i) = true ∨ charAt e i = '.') →
      parseNumber F e i = .ok (number, i') → i < i') ∧
    (∀ i identifier i', i < size e → isIdentifierChar (charAt e i) = true →
      parseIdentifier F e i = .ok (identifier, i') → i < i') ∧
    (∀ n i dot, size e - i ≤ n →
      skipDigits e n i = skipDigits e (size e - i) i ∧
      scanIdentifier e n i = scanIdentifier e (size e - i) i ∧
      scanNumber e n i dot = scanNumber e (size e - i) i dot) ∧
    (∀ i output stack, ScanReaches F e i output stack →
      ∀ opToken i', parseOperator F e i output = .ok (opToken, i') →
        ∃ o s, reduceOperators opToken output stack = .ok (o, s)) ∧
    (∀ output stack : List (Token V),
      popToOpenParenChecked stack.length output stack = some (popToOpenParen output stack) ∧
      (moveFunctionChecked output stack).isSome = true ∧
      drainChecked stack.length output stack = some (drain output stack) ∧
      ∀ opToken, reduceOperatorsChecked opToken stack.length output stack =
        some (reduceOperators opToken output stack)) ∧
    (∀ tokens, evaluateChecked F tokens = some (evaluate F tokens)) := by
  refine ⟨calculate_outcome F e, ?_, ?_, ?_, ?_, ?_, ?_, ?_, ?_, ?_⟩
  · cases hp : parseToPostfix F e with
    | error err =>
      obtain ⟨m, hm⟩ := parseToPostfix_error F e err hp
      exact Or.inr ⟨m, by rw [hm]⟩
    | ok tokens => exact Or.inl ⟨tokens, rfl⟩
  · intro k
    refine parseLoop_mono F e (size e + 1) k 0 [] [] _ rfl ?_
    intro hbad
    obtain ⟨m, hm⟩ := parseToPostfix_error F e _ hbad
    cases hm
  · intro i output stack i' output' stack' hlt h
    exact parseStep_progress F e i output stack i' output' stack' hlt h
  · intro i number i' hlt hc h
    exact scanNumber_gt e i i' hlt hc (parseNumber_ok F e i number i' h).1
  · intro i identifier i' hlt hc h
    rw [(parseIdentifier_ok F e i identifier i' h).1]
    exact scanIdentifier_gt e i hlt hc
  · intro n i dot hn
    exact ⟨skipDigits_fuel e n _ i hn (Nat.le_refl _),
      scanIdentifier_fuel e n _ i hn (Nat.le_refl _),
      scanNumber_fuel e n _ i dot hn (Nat.le_refl _)⟩
  · intro i output stack hreach opToken i' hp
    cases hr : reduceOperators opToken output stack with
    | ok res => exact ⟨res.1, res.2, rfl⟩
    | error err =>
      exact (reduceOperators_error opToken output stack err
        (parseOperator_ok F e i output opToken i' hp).2.2.2.1
        (scanReaches_valid F e i output stack hreach) hr).elim
  · intro output stack
    exact ⟨popToOpenParenChecked_eq output stack _ (Nat.le_refl _),
      moveFunctionChecked_isSome output stack,
      drainChecked_eq output stack _ (Nat.le_refl _),
      fun opToken => reduceOperatorsChecked_eq opToken output stack _ (Nat.le_refl _)⟩
  · intro tokens
    exact evaluateChecked_eq F tokens

/-! ## Lowercasing the input -/

theorem toLower_cases (c : Char) : c.toLower = c ∨ c ∈ upperLetters := by
  by_cases h : c.toNat ≥ 65 ∧ c.toNat ≤ 90
  · right
    have hc : c = Char.ofNat c.toNat := by
      simp [Char.ofNat_toNat]
    obtain ⟨h1, h2⟩ := h
    generalize c.toNat = n at hc h1 h2
    subst hc
    interval_cases n <;> decide
  · left
    simp [Char.toLower, h]

theorem isspace_toLower (c : Char) : isspace c.toLower = isspace c := by
  rcases toLower_cases c with h | h
  · rw [h]
  · exact (by decide : ∀ c ∈ upperLetters, isspace c.toLower = isspace c) c h

theorem isdigit_toLower (c : Char) : isdigit c.toLower = isdigit c := by
  rcases toLower_cases c with h | h
  · rw [h]
  · exact (by decide : ∀ c ∈ upperLetters, isdigit c.toLower = isdigit c) c h

theorem isIdentifierChar_toLower (c : Char) :
    isIdentifierChar c.toLower = isIdentifierChar c := by
  rcases toLower_cases c with h | h
  · rw [h]
  · exact (by decide : ∀ c ∈ upperLetters,
      isIdentifierChar c.toLower = isIdentifierChar c) c h

theorem toLower_toLower (c : Char) : c.toLower.toLower = c.toLower := by
  rcases toLower_cases c with h | h
  · rw [h, h]
  · exact (by decide : ∀ c ∈ upperLetters, c.toLower.toLower = c.toLower) c h

theorem toLower_of_not_identifierChar (c : Char) (h : isIdentifierChar c = false) :
    c.toLower = c := by
  rcases toLower_cases c with hc | hc
  · exact hc
  · have := (by decide : ∀ c ∈ upperLetters, isIdentifierChar c = true) c hc
    rw [this] at h; cases h

/-- Lowercasing neither creates nor removes one of the characters the
scanner compares with. -/
theorem toLower_eq_iff (c x : Char) (hx : x ∈ ['.', ',', '(', ')', '+', '-']) :
    c.toLower = x ↔ c = x := by
  rcases toLower_cases c with h | h
  · rw [h]
  · have h1 := (by decide : ∀ c ∈ upperLetters, ∀ x ∈ ['.', ',', '(', ')', '+', '-'],
      c.toLower ≠ x ∧ c ≠ x) c h x hx
    exact ⟨fun hc => absurd hc h1.1, fun hc => absurd hc h1.2⟩

theorem toLower_exponent (c : Char) :
    (c.toLower = 'e' ∨ c.toLower = 'E') ↔ (c = 'e' ∨ c = 'E') := by
  rcases toLower_cases c with h | h
  · rw [h]
  · exact (by decide : ∀ c ∈ upperLetters,
      ((c.toLower = 'e' ∨ c.toLower = 'E') ↔ (c = 'e' ∨ c = 'E'))) c h

theorem lookup_singleton_toLower (c : Char) :
    (operators_.lookup (String.singleton c.toLower)).isSome =
      (operators_.lookup (String.singleton c)).isSome := by
  rcases toLower_cases c with h | h
  · rw [h]
  · exact (by decide : ∀ c ∈ upperLetters,
      (operators_.lookup (String.singleton c.toLower)).isSome =
        (operators_.lookup (String.singleton c)).isSome) c h

theorem size_toLower (s : String) : size (toLower s) = size s := by
  simp [size, toLower]

theorem charAt_toLower (s : String) (i : Nat) :
    charAt (toLower s) i = (charAt s i).toLower := by
  unfold charAt toLower
  simp only [List.getD_eq_getElem?_getD, List.getElem?_map]
  cases s.data[i]? with
  | none => decide
  | some c => rfl

theorem substr_toLower (s : String) (a b : Nat) :
    substr (toLower s) a b = toLower (substr s a b) := by
  simp [substr, toLower, List.map_drop, List.map_take]

theorem toLower_idem (s : String) : toLower (toLower s) = toLower s := by
  unfold toLower
  simp only [List.map_map]
  congr 1
  exact List.map_congr_left (fun c _ => toLower_toLower c)

theorem skipDigits_toLower (s : String) (n i : Nat) :
    skipDigits (toLower s) n i = skipDigits s n i := by
  induction n generalizing i with
  | zero => rfl
  | succ n ih =>
    simp only [skipDigits, size_toLower, charAt_toLower, isdigit_toLower, ih]

theorem scanExponent_toLower (s : String) (i : Nat) :
    scanExponent (toLower s) i = scanExponent s i := by
  simp only [scanExponent, size_toLower, charAt_toLower, isdigit_toLower, skipDigits_toLower,
    toLower_eq_iff _ '+' (by decide), toLower_eq_iff _ '-' (by decide)]

theorem scanNumber_toLower (s : String) (n i : Nat) (dot : Bool) :
    scanNumber (toLower s) n i dot = scanNumber s n i dot := by
  induction n generalizing i dot with
  | zero => rfl
  | succ n ih =>
    simp only [scanNumber, size_toLower, charAt_toLower, isdigit_toLower, ih,
      scanExponent_toLower, toLower_eq_iff _ '.' (by decide), toLower_exponent]

theorem scanIdentifier_toLower (s : String) (n i : Nat) :
    scanIdentifier (toLower s) n i = scanIdentifier s n i := by
  induction n generalizing i with
  | zero => rfl
  | succ n ih =>
    simp only [scanIdentifier, size_toLower, charAt_toLower, isdigit_toLower,
      isIdentifierChar_toLower, ih]

theorem skipSpacesBack_toLower (s : String) (p : Nat) :
    skipSpacesBack (toLower s) p = skipSpacesBack s p := by
  induction p with
  | zero => rfl
  | succ p ih => simp only [skipSpacesBack, charAt_toLower, isspace_toLower, ih]

theorem lowerLiteral_type {V : Type} (t : Token V) : (lowerLiteral t).type = t.type := by
  unfold lowerLiteral
  split
  · rename_i h; exact h.symm
  · rfl

theorem lowerLiteral_value {V : Type} (t : Token V) : (lowerLiteral t).value = t.value := by
  unfold lowerLiteral
  split <;> rfl

theorem lowerLiteral_of_ne {V : Type} (t : Token V) (h : t.type ≠ .Number) :
    lowerLiteral t = t := by
  unfold lowerLiteral
  rw [if_neg h]

theorem getLast?_map_type {V : Type} (output : List (Token V)) :
    (output.map lowerLiteral).getLast?.map (fun t => t.type) =
      output.getLast?.map (fun t => t.type) := by
  rw [List.getLast?_map]
  cases output.getLast? with
  | none => rfl
  | some t => simp [lowerLiteral_type]

theorem isUnaryOperator_toLower {V : Type} (s : String) (i : Nat) (output : List (Token V)) :
    isUnaryOperator (toLower s) i (output.map lowerLiteral) = isUnaryOperator s i output := by
  have hlast := getLast?_map_type output
  unfold isUnaryOperator
  simp only [skipSpacesBack_toLower, charAt_toLower, lookup_singleton_toLower,
    toLower_eq_iff _ '(' (by decide), toLower_eq_iff _ ',' (by decide)]
  cases h1 : (output.map lowerLiteral).getLast? with
  | none =>
    rw [h1] at hlast
    cases h2 : output.getLast? with
    | none => rfl
    | some t => rw [h2] at hlast; cases hlast
  | some u =>
    rw [h1] at hlast
    cases h2 : output.getLast? with
    | none => rw [h2] at hlast; cases hlast
    | some t =>
      rw [h2] at hlast
      simp only [Option.map_some', Option.some.injEq] at hlast
      simp only [hlast]

theorem parseNumber_toLower_ok {V : Type} (F : FloatOps V)
    (hstod : ∀ t, F.stod (toLower t) = F.stod t) (s : String) (i : Nat)
    (number : Token V) (i' : Nat) (h : parseNumber F s i = .ok (number, i')) :
    parseNumber F (toLower s) i = .ok (lowerLiteral number, i') := by
  obtain ⟨hscan, value, hv, hn⟩ := parseNumber_ok F s i number i' h
  unfold parseNumber
  simp only [size_toLower, scanNumber_toLower, hscan, substr_toLower, hstod, hv]
  rw [hn]
  rfl

theorem parseNumber_toLower_error {V : Type} (F : FloatOps V)
    (hstod : ∀ t, F.stod (toLower t) = F.stod t) (s : String) (i : Nat)
    (err : CalcError) (h : parseNumber F s i = .error err) :
    ∃ other, parseNumber F (toLower s) i = .error other := by
  unfold parseNumber at h ⊢
  simp only [size_toLower, scanNumber_toLower, substr_toLower, hstod]
  cases hs : scanNumber s (size s - i) i false with
  | error e2 => exact ⟨e2, rfl⟩
  | ok r =>
    rw [hs] at h
    simp only at h ⊢
    cases hv : F.stod (substr s i (r - i)) with
    | none => exact ⟨_, rfl⟩
    | some value => rw [hv] at h; cases h

theorem parseIdentifier_toLower_ok {V : Type} (F : FloatOps V) (s : String) (i : Nat)
    (r : Token V × Nat) (h : parseIdentifier F s i = .ok r) :
    parseIdentifier F (toLower s) i = .ok r := by
  unfold parseIdentifier at h ⊢
  simp only [size_toLower, scanIdentifier_toLower, substr_toLower, toLower_idem] at h ⊢
  cases hl : List.lookup (toLower (substr s i (scanIdentifier s (size s - i) i - i)))
      (constants_ F) with
  | some value => rw [hl] at h; exact h
  | none =>
    rw [hl] at h
    simp only at h ⊢
    by_cases hf : functions.contains
        (toLower (substr s i (scanIdentifier s (size s - i) i - i))) = true
    · rw [if_pos hf] at h ⊢; exact h
    · rw [if_neg hf] at h; cases h

theorem parseIdentifier_toLower_error {V : Type} (F : FloatOps V) (s : String) (i : Nat)
    (err : CalcError) (h : parseIdentifier F s i = .error err) :
    ∃ other, parseIdentifier F (toLower s) i = .error other := by
  unfold parseIdentifier at h ⊢
  simp only [size_toLower, scanIdentifier_toLower, substr_toLower, toLower_idem] at h ⊢
  cases hl : List.lookup (toLower (substr s i (scanIdentifier s (size s - i) i - i)))
      (constants_ F) with
  | some value => rw [hl] at h; cases h
  | none =>
    rw [hl] at h
    simp only at h ⊢
    by_cases hf : functions.contains
        (toLower (substr s i (scanIdentifier s (size s - i) i - i))) = true
    · rw [if_pos hf] at h; cases h
    · rw [if_neg hf]; exact ⟨_, rfl⟩

theorem parseOperator_toLower {V : Type} (F : FloatOps V) (s : String) (i : Nat)
    (output : List (Token V)) (hch : isIdentifierChar (charAt s i) = false) :
    parseOperator F (toLower s) i (output.map lowerLiteral) = parseOperator F s i output := by
  unfold parseOperator
  simp only [charAt_toLower, toLower_of_not_identifierChar _ hch, isUnaryOperator_toLower]

theorem map_append_singleton {V : Type} (output : List (Token V)) (t : Token V) :
    output.map lowerLiteral ++ [lowerLiteral t] = (output ++ [t]).map lowerLiteral := by
  simp

theorem popToOpenParen_map {V : Type} (output stack : List (Token V)) :
    popToOpenParen (output.map lowerLiteral) (stack.map lowerLiteral) =
      (popToOpenParen output stack).map
        (fun p => (p.1.map lowerLiteral, p.2.map lowerLiteral)) := by
  induction stack generalizing output with
  | nil => rfl
  | cons top rest ih =>
    simp only [List.map_cons, popToOpenParen, lowerLiteral_type]
    by_cases ht : top.type = .OpenParen
    · rw [if_pos ht, if_pos ht]; rfl
    · rw [if_neg ht, if_neg ht, map_append_singleton, ih]

theorem reduceOperators_map {V : Type} (opToken : Token V) (output stack : List (Token V)) :
    reduceOperators opToken (output.map lowerLiteral) (stack.map lowerLiteral) =
      (reduceOperators opToken output stack).map
        (fun p => (p.1.map lowerLiteral, p.2.map lowerLiteral)) := by
  induction stack generalizing output with
  | nil => rfl
  | cons top rest ih =>
    simp only [List.map_cons, reduceOperators, lowerLiteral_type]
    by_cases ht : top.type ≠ .Operator
    · rw [if_pos ht, if_pos ht]; rfl
    · rw [if_neg ht, if_neg ht]
      have hn : top.type ≠ .Number := by
        intro hbad; apply ht; rw [hbad]; decide
      rw [lowerLiteral_of_ne top hn]
      cases operators_.lookup opToken.text with
      | none => rfl
      | some currentInfo =>
        cases operators_.lookup top.text with
        | none => rfl
        | some topInfo =>
          simp only
          split
          · simp only [Except.map, List.map_cons, lowerLiteral_of_ne top hn]
          · have := ih (output ++ [top])
            rw [← map_append_singleton, lowerLiteral_of_ne top hn] at this
            exact this

theorem drain_map {V : Type} (output stack : List (Token V)) :
    drain (output.map lowerLiteral) (stack.map lowerLiteral) =
      (drain output stack).map (List.map lowerLiteral) := by
  induction stack generalizing output with
  | nil => rfl
  | cons top rest ih =>
    simp only [List.map_cons, drain, lowerLiteral_type]
    split
    · rfl
    · rw [map_append_singleton, ih]

/-- One iteration of the main loop on the lowercased input follows the
iteration on the input itself, with the text of the literals lowercased. -/
theorem parseStep_toLower {V : Type} (F : FloatOps V)
    (hstod : ∀ t, F.stod (toLower t) = F.stod t) (s : String) (i : Nat)
    (output stack : List (Token V)) :
    (∀ i' output' stack', parseStep F s i output stack = .ok (i', output', stack') →
      parseStep F (toLower s) i (output.map lowerLiteral) (stack.map lowerLiteral) =
        .ok (i', output'.map lowerLiteral, stack'.map lowerLiteral)) ∧
    (∀ err, parseStep F s i output stack = .error err →
      ∃ other, parseStep F (toLower s) i (output.map lowerLiteral)
        (stack.map lowerLiteral) = .error other) := by
  unfold parseStep
  simp only [charAt_toLower, size_toLower, isspace_toLower, isdigit_toLower,
    isIdentifierChar_toLower, toLower_eq_iff _ '.' (by decide),
    toLower_eq_iff _ ',' (by decide), toLower_eq_iff _ '(' (by decide),
    toLower_eq_iff _ ')' (by decide)]
  by_cases hsp : isspace (charAt s i) = true
  · simp only [if_pos hsp]
    refine ⟨fun i' o' s' h => ?_, fun err h => by cases h⟩
    simp only [Except.ok.injEq, Prod.mk.injEq] at h
    obtain ⟨rfl, rfl, rfl⟩ := h
    rfl
  simp only [if_neg hsp]
  by_cases hnum : isdigit (charAt s i) = true ∨ (charAt s i = '.' ∧
      i + 1 < size s ∧ isdigit (charAt s (i + 1)) = true)
  · simp only [if_pos hnum]
    cases hp : parseNumber F s i with
    | error e2 =>
      obtain ⟨other, ho⟩ := parseNumber_toLower_error F hstod s i e2 hp
      simp only [ho]
      exact ⟨fun i' o' s' h => (by cases h), fun err _ => ⟨other, rfl⟩⟩
    | ok res =>
      obtain ⟨number, j⟩ := res
      simp only [parseNumber_toLower_ok F hstod s i number j hp]
      refine ⟨fun i' o' s' h => ?_, fun err h => by cases h⟩
      simp only [Except.ok.injEq, Prod.mk.injEq] at h
      obtain ⟨rfl, rfl, rfl⟩ := h
      simp
  simp only [if_neg hnum]
  by_cases hid : isIdentifierChar (charAt s i) = true
  · simp only [if_pos hid]
    cases hp : parseIdentifier F s i with
    | error e2 =>
      obtain ⟨other, ho⟩ := parseIdentifier_toLower_error F s i e2 hp
      simp only [ho]
      exact ⟨fun i' o' s' h => (by cases h), fun err _ => ⟨other, rfl⟩⟩
    | ok res =>
      obtain ⟨identifier, j⟩ := res
      have hty := (parseIdentifier_ok F s i identifier j hp).2
      have hne : identifier.type ≠ .Number := by
        rcases hty with h | h <;> rw [h] <;> decide
      have hfix := lowerLiteral_of_ne identifier hne
      simp only [parseIdentifier_toLower_ok F s i _ hp]
      by_cases hc : identifier.type = .Constant
      · simp only [if_pos hc]
        refine ⟨fun i' o' s' h => ?_, fun err h => by cases h⟩
        simp only [Except.ok.injEq, Prod.mk.injEq] at h
        obtain ⟨rfl, rfl, rfl⟩ := h
        simp [hfix]
      · simp only [if_neg hc]
        refine ⟨fun i' o' s' h => ?_, fun err h => by cases h⟩
        simp only [Except.ok.injEq, Prod.mk.injEq] at h
        obtain ⟨rfl, rfl, rfl⟩ := h
        simp [hfix]
  simp only [if_neg hid]
  have hch : isIdentifierChar (charAt s i) = false := by
    cases hb : isIdentifierChar (charAt s i) with
    | true => exact absurd hb hid
    | false => rfl
  by_cases hcomma : charAt s i = ','
  · simp only [if_pos hcomma]
    exact ⟨fun i' o' s' h => (by cases h), fun err _ => ⟨_, rfl⟩⟩
  simp only [if_neg hcomma]
  by_cases hopen : charAt s i = '('
  · simp only [if_pos hopen]
    refine ⟨fun i' o' s' h => ?_, fun err h => by cases h⟩
    simp only [Except.ok.injEq, Prod.mk.injEq] at h
    obtain ⟨rfl, rfl, rfl⟩ := h
    simp [lowerLiteral]
  simp only [if_neg hopen]
  by_cases hclose : charAt s i = ')'
  · simp only [if_pos hclose, popToOpenParen_map]
    cases hp : popToOpenParen output stack with
    | none => exact ⟨fun i' o' s' h => (by cases h), fun err _ => ⟨_, rfl⟩⟩
    | some res =>
      obtain ⟨o, s2⟩ := res
      cases s2 with
      | nil =>
        refine ⟨fun i' o' s' h => ?_, fun err h => by cases h⟩
        simp only [Except.ok.injEq, Prod.mk.injEq] at h
        obtain ⟨rfl, rfl, rfl⟩ := h
        rfl
      | cons top rest =>
        simp only [Option.map_some', List.map_cons, lowerLiteral_type]
        by_cases hf : top.type = .Function
        · simp only [if_pos hf]
          refine ⟨fun i' o' s' h => ?_, fun err h => by cases h⟩
          simp only [Except.ok.injEq, Prod.mk.injEq] at h
          obtain ⟨rfl, rfl, rfl⟩ := h
          simp
        · simp only [if_neg hf]
          refine ⟨fun i' o' s' h => ?_, fun err h => by cases h⟩
          simp only [Except.ok.injEq, Prod.mk.injEq] at h
          obtain ⟨rfl, rfl, rfl⟩ := h
          simp
  simp only [if_neg hclose, parseOperator_toLower F s i output hch]
  cases hp : parseOperator F s i output with
  | error e2 => exact ⟨fun i' o' s' h => (by cases h), fun err _ => ⟨_, rfl⟩⟩
  | ok res =>
    obtain ⟨opToken, j⟩ := res
    have hty := (parseOperator_ok F s i output opToken j hp).2.1
    have hne : opToken.type ≠ .Number := by rw [hty]; decide
    have hfix := lowerLiteral_of_ne opToken hne
    simp only [reduceOperators_map]
    cases hr : reduceOperators opToken output stack with
    | error e3 => exact ⟨fun i' o' s' h => (by cases h), fun err _ => ⟨_, rfl⟩⟩
    | ok res2 =>
      obtain ⟨o, s2⟩ := res2
      refine ⟨fun i' o' s' h => ?_, fun err h => by cases h⟩
      simp only [Except.ok.injEq, Prod.mk.injEq] at h
      obtain ⟨rfl, rfl, rfl⟩ := h
      simp [Except.map, hfix]

theorem parseLoop_toLower {V : Type} (F : FloatOps V)
    (hstod : ∀ t, F.stod (toLower t) = F.stod t) (s : String) (fuel i : Nat)
    (output stack : List (Token V)) :
    (∀ r, parseLoop F s fuel i output stack = .ok r →
      parseLoop F (toLower s) fuel i (output.map lowerLiteral) (stack.map lowerLiteral) =
        .ok (r.map lowerLiteral)) ∧
    (∀ err, parseLoop F s fuel i output stack = .error err →
      ∃ other, parseLoop F (toLower s) fuel i (output.map lowerLiteral)
        (stack.map lowerLiteral) = .error other) := by
  induction fuel generalizing i output stack with
  | zero => exact ⟨fun r h => (by cases h), fun err _ => ⟨_, rfl⟩⟩
  | succ fuel ih =>
    rw [parseLoop_succ, parseLoop_succ, size_toLower]
    by_cases hlt : i < size s
    · rw [if_pos hlt, if_pos hlt]
      obtain ⟨hok, herr⟩ := parseStep_toLower F hstod s i output stack
      cases hp : parseStep F s i output stack with
      | error e2 =>
        obtain ⟨other, ho⟩ := herr e2 hp
        rw [ho]
        exact ⟨fun r h => (by cases h), fun err _ => ⟨other, rfl⟩⟩
      | ok res =>
        obtain ⟨i', o', s'⟩ := res
        rw [hok i' o' s' hp]
        exact ih i' o' s'
    · rw [if_neg hlt, if_neg hlt, drain_map]
      cases hd : drain output stack with
      | error e2 => exact ⟨fun r h => (by cases h), fun err _ => ⟨_, rfl⟩⟩
      | ok r2 =>
        refine ⟨fun r h => ?_, fun err h => by cases h⟩
        cases h
        rfl

theorem parseToPostfix_toLower {V : Type} (F : FloatOps V)
    (hstod : ∀ t, F.stod (toLower t) = F.stod t) (s : String) :
    (∀ tokens, parseToPostfix F s = .ok tokens →
      parseToPostfix F (toLower s) = .ok (tokens.map lowerLiteral)) ∧
    (∀ err, parseToPostfix F s = .error err →
      ∃ message, parseToPostfix F (toLower s) = .error (.InvalidInput message)) := by
  have h := parseLoop_toLower F hstod s (size s + 1) 0 [] []
  unfold parseToPostfix
  rw [size_toLower]
  refine ⟨h.1, ?_⟩
  intro err he
  obtain ⟨other, ho⟩ := h.2 err he
  have hk : parseToPostfix F (toLower s) = .error other := by
    unfold parseToPostfix
    rw [size_toLower]
    exact ho
  obtain ⟨message, hm⟩ := parseToPostfix_error F (toLower s) other hk
  exact ⟨message, by rw [← hm]; exact ho⟩

/-! ## The exact reader of literals does not depend on letter case -/

theorem toLower_of_isDigit (c : Char) (h : c.isDigit = true) : c.toLower = c := by
  rcases toLower_cases c with hc | hc
  · exact hc
  · have := (by decide : ∀ c ∈ upperLetters, c.isDigit = false) c hc
    rw [this] at h; cases h

theorem map_toLower_of_digits (l : List Char) (h : l.all Char.isDigit = true) :
    l.map Char.toLower = l := by
  induction l with
  | nil => rfl
  | cons c rest ih =>
    simp only [List.all_cons, Bool.and_eq_true] at h
    rw [List.map_cons, toLower_of_isDigit c h.1, ih h.2]

theorem all_isDigit_map (l : List Char) :
    (l.map Char.toLower).all Char.isDigit = l.all Char.isDigit := by
  induction l with
  | nil => rfl
  | cons c rest ih =>
    simp only [List.map_cons, List.all_cons, ih]
    congr 1
    exact isdigit_toLower c

theorem takeWhile_isDigit_map (l : List Char) :
    (l.map Char.toLower).takeWhile Char.isDigit = l.takeWhile Char.isDigit := by
  induction l with
  | nil => rfl
  | cons c rest ih =>
    have hd : c.toLower.isDigit = c.isDigit := isdigit_toLower c
    cases hc : c.isDigit with
    | true =>
      rw [List.map_cons, List.takeWhile_cons, List.takeWhile_cons, hd, hc]
      simp only [if_true]
      rw [ih, toLower_of_isDigit c hc]
    | false =>
      rw [List.map_cons, List.takeWhile_cons, List.takeWhile_cons, hd, hc]
      rfl

theorem dropWhile_isDigit_map (l : List Char) :
    (l.map Char.toLower).dropWhile Char.isDigit =
      (l.dropWhile Char.isDigit).map Char.toLower := by
  induction l with
  | nil => rfl
  | cons c rest ih =>
    have hd : c.toLower.isDigit = c.isDigit := isdigit_toLower c
    cases hc : c.isDigit with
    | true =>
      rw [List.map_cons, List.dropWhile_cons, List.dropWhile_cons, hd, hc]
      simp only [if_true]
      exact ih
    | false =>
      rw [List.map_cons, List.dropWhile_cons, List.dropWhile_cons, hd, hc]
      rfl

theorem exponentDigits_map (digits : List Char) (g : Nat → Int) :
    (if digits.map Char.toLower ≠ [] ∧ (digits.map Char.toLower).all Char.isDigit = true then
        some (g (Exact.digitsValue (digits.map Char.toLower))) else none) =
      (if digits ≠ [] ∧ digits.all Char.isDigit = true then
        some (g (Exact.digitsValue digits)) else none) := by
  by_cases h : digits.all Char.isDigit = true
  · rw [map_toLower_of_digits digits h]
  · rw [if_neg (fun hc => h (by rw [← all_isDigit_map]; exact hc.2)), if_neg (fun hc => h hc.2)]

theorem exponentValue_map (l : List Char) :
    Exact.exponentValue (l.map Char.toLower) = Exact.exponentValue l := by
  cases l with
  | nil => rfl
  | cons ch rest =>
    simp only [List.map_cons, Exact.exponentValue, toLower_exponent]
    by_cases he : ch = 'e' ∨ ch = 'E'
    · rw [if_pos he, if_pos he]
      cases rest with
      | nil => rfl
      | cons c ds =>
        by_cases hm : c = '-'
        · subst hm
          exact exponentDigits_map ds (fun n => -(n : Int))
        · by_cases hp : c = '+'
          · subst hp
            exact exponentDigits_map ds (fun n => (n : Int))
          · have hm2 : c.toLower ≠ '-' := fun h => hm ((toLower_eq_iff c '-' (by decide)).1 h)
            have hp2 : c.toLower ≠ '+' := fun h => hp ((toLower_eq_iff c '+' (by decide)).1 h)
            have h1 : ∀ (x : Char) (xs : List Char), x ≠ '-' → x ≠ '+' →
                (match x :: xs with
                  | '-' :: digits =>
                    if digits ≠ [] ∧ digits.all Char.isDigit = true then
                      some (-(Exact.digitsValue digits : Int)) else none
                  | '+' :: digits =>
                    if digits ≠ [] ∧ digits.all Char.isDigit = true then
                      some (Exact.digitsValue digits : Int) else none
                  | digits =>
                    if digits ≠ [] ∧ digits.all Char.isDigit = true then
                      some (Exact.digitsValue digits : Int) else none) =
                if x :: xs ≠ [] ∧ (x :: xs).all Char.isDigit = true then
                  some (Exact.digitsValue (x :: xs) : Int) else none := by
              intro x xs hx1 hx2
              split
              · rename_i heq; simp only [List.cons.injEq] at heq; exact absurd heq.1 hx1
              · rename_i heq; simp only [List.cons.injEq] at heq; exact absurd heq.1 hx2
              · rfl
            rw [List.map_cons]
            refine Eq.trans (h1 c.toLower (ds.map Char.toLower) hm2 hp2) ?_
            refine Eq.trans ?_ (h1 c ds hm hp).symm
            exact exponentDigits_map (c :: ds) (fun n => (n : Int))
    · rw [if_neg he, if_neg he]

theorem decimalValue_eq (literal : String) :
    Exact.decimalValue literal =
      if literal.data.takeWhile Char.isDigit = [] ∧
          fractionDigits (literal.data.dropWhile Char.isDigit) = [] then none
      else
        match Exact.exponentValue (afterFraction (literal.data.dropWhile Char.isDigit)) with
        | none => none
        | some exponent =>
          if exponent - (fractionDigits (literal.data.dropWhile Char.isDigit)).length ≥ 0 then
            some (mkRat (Exact.digitsValue (literal.data.takeWhile Char.isDigit ++
                fractionDigits (literal.data.dropWhile Char.isDigit)) *
              10 ^ (exponent -
                (fractionDigits (literal.data.dropWhile Char.isDigit)).length).toNat) 1)
          else
            some (mkRat (Exact.digitsValue (literal.data.takeWhile Char.isDigit ++
                fractionDigits (literal.data.dropWhile Char.isDigit)))
              (10 ^ (-(exponent -
                (fractionDigits (literal.data.dropWhile Char.isDigit)).length)).toNat)) := rfl

theorem fractionDigits_map (l : List Char) :
    fractionDigits (l.map Char.toLower) = fractionDigits l := by
  cases l with
  | nil => rfl
  | cons c rest =>
    by_cases hdot : c = '.'
    · subst hdot
      exact takeWhile_isDigit_map rest
    · have hdot2 : c.toLower ≠ '.' :=
        fun h => hdot ((toLower_eq_iff c '.' (by decide)).1 h)
      have h1 : ∀ (x : Char) (xs : List Char), x ≠ '.' → fractionDigits (x :: xs) = [] := by
        intro x xs hx
        unfold fractionDigits
        split
        · rename_i heq; simp only [List.cons.injEq] at heq; exact absurd heq.1 hx
        · rfl
      rw [List.map_cons, h1 _ _ hdot, h1 _ _ hdot2]

theorem afterFraction_map (l : List Char) :
    afterFraction (l.map Char.toLower) = (afterFraction l).map Char.toLower := by
  cases l with
  | nil => rfl
  | cons c rest =>
    by_cases hdot : c = '.'
    · subst hdot
      exact dropWhile_isDigit_map rest
    · have hdot2 : c.toLower ≠ '.' :=
        fun h => hdot ((toLower_eq_iff c '.' (by decide)).1 h)
      have h2 : ∀ (x : Char) (xs : List Char), x ≠ '.' → afterFraction (x :: xs) = x :: xs := by
        intro x xs hx
        unfold afterFraction
        split
        · rename_i heq; simp only [List.cons.injEq] at heq; exact absurd heq.1 hx
        · rfl
      rw [List.map_cons, h2 _ _ hdot, h2 _ _ hdot2, List.map_cons]

theorem decimalValue_toLower (t : String) :
    Exact.decimalValue (toLower t) = Exact.decimalValue t := by
  rw [decimalValue_eq, decimalValue_eq]
  simp only [toLower, takeWhile_isDigit_map, dropWhile_isDigit_map, fractionDigits_map,
    afterFraction_map, exponentValue_map]

theorem exact_stod_toLower (t : String) : Exact.ops.stod (toLower t) = Exact.ops.stod t :=
  decimalValue_toLower t

theorem parseIdentifier_text {V : Type} (F : FloatOps V) (e : String) (i : Nat)
    (identifier : Token V) (i' : Nat)
    (h : parseIdentifier F e i = .ok (identifier, i')) :
    toLower identifier.text = identifier.text := by
  unfold parseIdentifier at h
  simp only at h
  split at h
  · simp only [Except.ok.injEq, Prod.mk.injEq] at h
    rw [← h.1]
    exact toLower_idem _
  · split at h
    · simp only [Except.ok.injEq, Prod.mk.injEq] at h
      rw [← h.1]
      exact toLower_idem _
    · cases h

/-- One iteration of the main loop keeps the text of every Constant and
Function token, in the output and on the stack, in lower case. -/
theorem parseStep_lowercased {V : Type} (F : FloatOps V) (e : String) (i : Nat)
    (output stack : List (Token V)) (i' : Nat) (output' stack' : List (Token V))
    (hout : ∀ t ∈ output, t.type = .Constant ∨ t.type = .Function → toLower t.text = t.text)
    (hst : ∀ t ∈ stack, t.type = .Constant ∨ t.type = .Function → toLower t.text = t.text)
    (h : parseStep F e i output stack = .ok (i', output', stack')) :
    (∀ t ∈ output', t.type = .Constant ∨ t.type = .Function → toLower t.text = t.text) ∧
    (∀ t ∈ stack', t.type = .Constant ∨ t.type = .Function → toLower t.text = t.text) := by
  rcases parseStep_cases F e i output stack i' output' stack' h with
    ⟨_, _, h2, h3⟩ | ⟨_, number, hp, h2, h3⟩ | ⟨_, identifier, hp, hh⟩ | ⟨_, _, h2, h3⟩ |
    ⟨_, _, o, s, hp, hh⟩ | ⟨_, _, _, _, opToken, o, s, hp, hr, h2, h3⟩
  · rw [h2, h3]; exact ⟨hout, hst⟩
  · rw [h2, h3]
    refine ⟨?_, hst⟩
    intro t hmem hty
    rcases List.mem_append.1 hmem with hmem | hmem
    · exact hout t hmem hty
    · obtain ⟨_, value, _, hn⟩ := parseNumber_ok F e i number i' hp
      rw [List.mem_singleton.1 hmem, hn] at hty
      rcases hty with hty | hty <;> cases hty
  · have htext := parseIdentifier_text F e i identifier i' hp
    rcases hh with ⟨_, h2, h3⟩ | ⟨_, h2, h3⟩
    · rw [h2, h3]
      refine ⟨?_, hst⟩
      intro t hmem hty
      rcases List.mem_append.1 hmem with hmem | hmem
      · exact hout t hmem hty
      · rw [List.mem_singleton.1 hmem]; exact htext
    · rw [h2, h3]
      refine ⟨hout, ?_⟩
      intro t hmem hty
      rcases List.mem_cons.1 hmem with rfl | hmem
      · exact htext
      · exact hst t hmem hty
  · rw [h2, h3]
    refine ⟨hout, ?_⟩
    intro t hmem hty
    rcases List.mem_cons.1 hmem with rfl | hmem
    · rcases hty with hty | hty <;> cases hty
    · exact hst t hmem hty
  · obtain ⟨popped, marker, h1, _, ho, _⟩ := popToOpenParen_some output stack o s hp
    have hs : ∀ t ∈ s, t.type = .Constant ∨ t.type = .Function → toLower t.text = t.text :=
      fun t hmem => hst t (by rw [h1]; simp [hmem])
    have hotyped : ∀ t ∈ o,
        t.type = .Constant ∨ t.type = .Function → toLower t.text = t.text := by
      intro t hmem
      rw [ho] at hmem
      rcases List.mem_append.1 hmem with hmem | hmem
      · exact hout t hmem
      · exact hst t (by rw [h1]; simp [hmem])
    rcases hh with ⟨top, rest, hs2, _, h2, h3⟩ | ⟨_, h2, h3⟩
    · rw [h2, h3]
      refine ⟨?_, ?_⟩
      · intro t hmem
        rcases List.mem_append.1 hmem with hmem | hmem
        · exact hotyped t hmem
        · rw [List.mem_singleton.1 hmem]
          exact hs top (by rw [hs2]; exact List.mem_cons_self _ _)
      · intro t hmem
        exact hs t (by rw [hs2]; exact List.mem_cons_of_mem _ hmem)
    · rw [h2, h3]; exact ⟨hotyped, hs⟩
  · obtain ⟨popped, h1, ho, _⟩ := reduceOperators_ok opToken output stack o s hr
    obtain ⟨_, hty, _, _, _⟩ := parseOperator_ok F e i output opToken i' hp
    rw [h2, h3]
    refine ⟨?_, ?_⟩
    · intro t hmem
      rw [ho] at hmem
      rcases List.mem_append.1 hmem with hmem | hmem
      · exact hout t hmem
      · exact hst t (by rw [h1]; simp [hmem])
    · intro t hmem hk
      rcases List.mem_cons.1 hmem with rfl | hmem
      · rw [hty] at hk
        rcases hk with hk | hk <;> cases hk
      · exact hst t (by rw [h1]; simp [hmem]) hk

theorem parseLoop_lowercased {V : Type} (F : FloatOps V) (e : String) (fuel i : Nat)
    (output stack r : List (Token V))
    (hout : ∀ t ∈ output, t.type = .Constant ∨ t.type = .Function → toLower t.text = t.text)
    (hst : ∀ t ∈ stack, t.type = .Constant ∨ t.type = .Function → toLower t.text = t.text)
    (h : parseLoop F e fuel i output stack = .ok r) :
    ∀ t ∈ r, t.type = .Constant ∨ t.type = .Function → toLower t.text = t.text := by
  induction fuel generalizing i output stack with
  | zero => cases h
  | succ fuel ih =>
    rw [parseLoop_succ] at h
    by_cases hlt : i < size e
    · rw [if_pos hlt] at h
      cases hp : parseStep F e i output stack with
      | error err => rw [hp] at h; cases h
      | ok res =>
        obtain ⟨i', o', s'⟩ := res
        rw [hp] at h
        obtain ⟨h1, h2⟩ := parseStep_lowercased F e i output stack i' o' s' hout hst hp
        exact ih i' o' s' h1 h2 h
    · rw [if_neg hlt] at h
      obtain ⟨hr, _⟩ := drain_ok_inv output stack r h
      intro t hmem
      rw [hr] at hmem
      rcases List.mem_append.1 hmem with hmem | hmem
      · exact hout t hmem
      · exact hst t hmem

theorem forall₂_lowerLiteral {V : Type} (tokens : List (Token V)) :
    List.Forall₂ (fun t u : Token V => t.type = u.type ∧ t.value = u.value ∧
        (t.type = .Constant ∨ t.type = .Function ∨ t.type = .Operator → t.text = u.text))
      tokens (tokens.map lowerLiteral) := by
  induction tokens with
  | nil => exact List.Forall₂.nil
  | cons t ts ih =>
    refine List.Forall₂.cons ⟨(lowerLiteral_type t).symm, (lowerLiteral_value t).symm, ?_⟩ ih
    intro hty
    have hne : t.type ≠ .Number := by
      rcases hty with h | h | h <;> rw [h] <;> decide
    rw [lowerLiteral_of_ne t hne]

/-- The text `SIN(Pi/2)`. -/
theorem parse_upper_sin {V : Type} (F : FloatOps V) (v2 : V) (h2 : F.stod "2" = some v2) :
    parseToPostfix F "SIN(Pi/2)" =
      .ok [⟨.Constant, "pi", F.pi⟩, numberToken "2" v2, operatorToken F "/",
        functionToken F "sin"] := by
  apply scan_top
  refine scan_step F _ _ 3 _ _ _ _ _ (by decide) rfl ?_
  refine scan_open F _ "SIN".data "Pi/2)".data _ _ _ _ rfl rfl ?_
  refine scan_step F _ _ 6 _ _ _ _ _ (by decide) rfl ?_
  refine scan_operator F _ "SIN(Pi".data "2)".data '/' _ _ _ _ _ _ _
    (by decide) rfl rfl rfl rfl ?_
  refine scan_number F _ "2" v2 "SIN(Pi/".data ")".data _ _ _ _
    (by decide) (by decide) h2 rfl rfl ?_
  refine scan_close_function F _ "SIN(Pi/2".data [] _ _ _ _ _ _ _ rfl rfl rfl rfl ?_
  exact scan_end F _ _ _ _ _ (by decide) rfl

/-- The text `sin(pi/2)`. -/
theorem parse_lower_sin {V : Type} (F : FloatOps V) (v2 : V) (h2 : F.stod "2" = some v2) :
    parseToPostfix F "sin(pi/2)" =
      .ok [⟨.Constant, "pi", F.pi⟩, numberToken "2" v2, operatorToken F "/",
        functionToken F "sin"] := by
  apply scan_top
  refine scan_step F _ _ 3 _ _ _ _ _ (by decide) rfl ?_
  refine scan_open F _ "sin".data "pi/2)".data _ _ _ _ rfl rfl ?_
  refine scan_step F _ _ 6 _ _ _ _ _ (by decide) rfl ?_
  refine scan_operator F _ "sin(pi".data "2)".data '/' _ _ _ _ _ _ _
    (by decide) rfl rfl rfl rfl ?_
  refine scan_number F _ "2" v2 "sin(pi/".data ")".data _ _ _ _
    (by decide) (by decide) h2 rfl rfl ?_
  refine scan_close_function F _ "sin(pi/2".data [] _ _ _ _ _ _ _ rfl rfl rfl rfl ?_
  exact scan_end F _ _ _ _ _ (by decide) rfl

/-- C11: identifiers are matched case-insensitively and emitted lowercased.
Provided the library reads a literal the same way in either letter case, for
every expression `s` the parses of `s` and of `toLower s` either both fail with
InvalidInput, or both succeed with token sequences that agree in every token's
kind and value and in the text of every Constant, Function and Operator token;
the text of every Constant and Function token is in lower case; and
`SIN(Pi/2)` yields the tokens of `sin(pi/2)`, with texts `pi` and `sin`. -/
theorem c11_case_insensitive {V : Type} (F : FloatOps V) (s : String)
    (hstod : ∀ t, F.stod (toLower t) = F.stod t) :
    (((∃ message, parseToPostfix F s = .error (.InvalidInput message)) ∧
        (∃ message, parseToPostfix F (toLower s) = .error (.InvalidInput message))) ∨
      (∃ tokens lowered, parseToPostfix F s = .ok tokens ∧
        parseToPostfix F (toLower s) = .ok lowered ∧
        List.Forall₂ (fun t u : Token V => t.type = u.type ∧ t.value = u.value ∧
          (t.type = .Constant ∨ t.type = .Function ∨ t.type = .Operator → t.text = u.text))
          tokens lowered ∧
        (∀ t ∈ tokens, t.type = .Constant ∨ t.type = .Function →
          toLower t.text = t.text))) ∧
    (∀ v2, F.stod "2" = some v2 →
      parseToPostfix F "SIN(Pi/2)" =
          .ok [⟨.Constant, "pi", F.pi⟩, numberToken "2" v2, operatorToken F "/",
            functionToken F "sin"] ∧
        parseToPostfix F "sin(pi/2)" = parseToPostfix F "SIN(Pi/2)") := by
  refine ⟨?_, fun v2 h2 => ⟨parse_upper_sin F v2 h2, ?_⟩⟩
  · obtain ⟨hok, herr⟩ := parseToPostfix_toLower F hstod s
    cases hp : parseToPostfix F s with
    | error err =>
      obtain ⟨m, hm⟩ := parseToPostfix_error F s err hp
      exact Or.inl ⟨⟨m, by rw [hm]⟩, herr err hp⟩
    | ok tokens =>
      refine Or.inr ⟨tokens, tokens.map lowerLiteral, rfl, hok tokens hp,
        forall₂_lowerLiteral tokens, ?_⟩
      exact parseLoop_lowercased F s _ 0 [] [] tokens (by intro t ht; cases ht)
        (by intro t ht; cases ht) hp
  · rw [parse_upper_sin F v2 h2, parse_lower_sin F v2 h2]

/-- Witness of C11: in exact arithmetic, `2E3*Pi` and `2e3*pi` give tokens
that agree in kind and value. -/
theorem c11_case_insensitive_witness :
    ((∃ message, parseToPostfix Exact.ops "2E3*Pi" = .error (.InvalidInput message)) ∧
        (∃ message, parseToPostfix Exact.ops (toLower "2E3*Pi") =
          .error (.InvalidInput message))) ∨
      (∃ tokens lowered, parseToPostfix Exact.ops "2E3*Pi" = .ok tokens ∧
        parseToPostfix Exact.ops (toLower "2E3*Pi") = .ok lowered ∧
        List.Forall₂ (fun t u : Token ℚ => t.type = u.type ∧ t.value = u.value ∧
          (t.type = .Constant ∨ t.type = .Function ∨ t.type = .Operator → t.text = u.text))
          tokens lowered ∧
        (∀ t ∈ tokens, t.type = .Constant ∨ t.type = .Function →
          toLower t.text = t.text)) :=
  (c11_case_insensitive Exact.ops "2E3*Pi" exact_stod_toLower).1

/-! ## Inputs that are not in infix form -/

theorem numberStop_gap (w : String) (rest : List Char) (hw : isBlank w = true)
    (hne : w.data ≠ []) : numberStop (w.data ++ rest) = true := by
  unfold isBlank at hw
  cases hd : w.data with
  | nil => exact absurd hd hne
  | cons c cs =>
    rw [hd] at hw
    simp only [List.all_cons, Bool.and_eq_true] at hw
    have hc : ∀ c, isspace c = true →
        (!isdigit c && c != '.' && c != 'e' && c != 'E') = true := by
      intro c h
      simp only [isspace, Bool.or_eq_true, decide_eq_true_eq] at h
      rcases h with ((((rfl | rfl) | rfl) | rfl) | rfl) | rfl <;> decide
    exact hc c hw.1

theorem evaluate_pair {V : Type} (F : FloatOps V) (a b : String) (va vb : V) (op : Char)
    (hop : op ∈ binarySymbols) :
    evaluate F [numberToken a va, numberToken b vb, operatorToken F (String.singleton op)] =
      applyOperator F (String.singleton op) va vb := by
  unfold evaluate
  rw [evalTokens_number, evalTokens_number, evalTokens_binary F op hop]
  cases applyOperator F (String.singleton op) va vb with
  | error err => rfl
  | ok r => rfl

theorem singleton_ne_neg (op : Char) : String.singleton op ≠ "neg" := by
  intro h
  have := congrArg String.length h
  simp [String.singleton] at this
  revert this
  decide

/-- Two literals followed by a binary operator symbol. -/
theorem parse_postfix_form {V : Type} (F : FloatOps V) (a b gap w : String) (op : Char)
    (va vb : V) (ha : isNumericLiteral a = true) (hb : isNumericLiteral b = true)
    (hva : F.stod a = some va) (hvb : F.stod b = some vb)
    (hgap : isBlank gap = true) (hne : gap.data ≠ []) (hw : isBlank w = true)
    (hop : op ∈ binarySymbols) :
    parseToPostfix F (a ++ gap ++ b ++ w ++ String.singleton op) =
      .ok [numberToken a va, numberToken b vb, operatorToken F (String.singleton op)] := by
  have hE : (a ++ gap ++ b ++ w ++ String.singleton op).data =
      a.data ++ (gap.data ++ (b.data ++ (w.data ++ [op]))) := by
    simp [String.data_append, String.singleton]
  generalize (a ++ gap ++ b ++ w ++ String.singleton op) = e at hE
  apply scan_top
  refine scan_number F e a va [] (gap.data ++ (b.data ++ (w.data ++ [op]))) 0 [] [] _ ha
    (numberStop_gap gap _ hgap hne) hva (by simpa using hE) rfl ?_
  refine scan_blank F e gap a.data (b.data ++ (w.data ++ [op])) _ _ _ _ hgap
    (by simpa using hE) (by simp) ?_
  refine scan_number F e b vb (a.data ++ gap.data) (w.data ++ [op]) _ _ _ _ hb
    (numberStop_blank w op [] hw (numberStop_binarySymbol op hop)) hvb (by simp [hE])
    (by simp) ?_
  refine scan_blank F e w (a.data ++ gap.data ++ b.data) [op] _ _ _ _ hw
    (by simp [hE]) (by simp; omega) ?_
  obtain ⟨l, hl, hd⟩ := lastNonSpace_literal (a.data ++ gap.data) b w hb hw
  refine scan_operator F e (a.data ++ gap.data ++ b.data ++ w.data) [] op _ _ _ _ _ _
    (String.singleton op) hop (by simp [hE]) (by simp; omega) ?_ (reduceOperators_nil _ _) ?_
  · rw [show a.data ++ gap.data ++ b.data ++ w.data =
        a.data ++ gap.data ++ (b.data ++ w.data) by simp, hl,
      unaryContext_number l ([] ++ [numberToken a va]) (numberToken b vb) hd
        (by simp [numberToken])]
    simp [operatorText]
  refine scan_end F e _ _ _ _ (by simp [size, hE]; omega) ?_
  rfl

/-- An operator symbol other than a sign, followed by two literals. -/
theorem parse_prefix_form {V : Type} (F : FloatOps V) (a b gap w : String) (op : Char)
    (va vb : V) (ha : isNumericLiteral a = true) (hb : isNumericLiteral b = true)
    (hva : F.stod a = some va) (hvb : F.stod b = some vb)
    (hgap : isBlank gap = true) (hne : gap.data ≠ []) (hw : isBlank w = true)
    (hop : op ∈ ['*', '/', '%', '^']) :
    parseToPostfix F (String.singleton op ++ w ++ a ++ gap ++ b) =
      .ok [numberToken a va, numberToken b vb, operatorToken F (String.singleton op)] := by
  have hE : (String.singleton op ++ w ++ a ++ gap ++ b).data =
      op :: (w.data ++ (a.data ++ (gap.data ++ b.data))) := by
    simp [String.data_append, String.singleton]
  have hbin : op ∈ binarySymbols := by
    simp only [List.mem_cons, List.mem_singleton, List.not_mem_nil, or_false] at hop
    rcases hop with rfl | rfl | rfl | rfl <;> decide
  have hsign : ¬ (op = '+' ∨ op = '-') := by
    simp only [List.mem_cons, List.mem_singleton, List.not_mem_nil, or_false] at hop
    rcases hop with rfl | rfl | rfl | rfl <;> decide
  generalize (String.singleton op ++ w ++ a ++ gap ++ b) = e at hE
  apply scan_top
  refine scan_operator F e [] (w.data ++ (a.data ++ (gap.data ++ b.data))) op _ _ _ _ _ _
    (String.singleton op) hbin (by simpa using hE) rfl ?_ (reduceOperators_nil _ _) ?_
  · unfold operatorText
    rw [if_neg (fun h => hsign h.1)]
  refine scan_blank F e w [op] (a.data ++ (gap.data ++ b.data)) _ _ _ _ hw
    (by simpa using hE) (by simp) ?_
  refine scan_number F e a va ([op] ++ w.data) (gap.data ++ b.data) _ _ _ _ ha
    (numberStop_gap gap _ hgap hne) hva (by simp [hE]) (by simp; omega) ?_
  refine scan_blank F e gap ([op] ++ w.data ++ a.data) b.data _ _ _ _ hgap
    (by simp [hE]) (by simp; omega) ?_
  refine scan_number F e b vb ([op] ++ w.data ++ a.data ++ gap.data) [] _ _ _ _ hb
    rfl hvb (by simp [hE]) (by simp; omega) ?_
  refine scan_end F e _ _ _ _ (by simp [size, hE]; omega) ?_
  rfl

/-- C21: the parser does not check that operands and operators alternate. For
numeric literals `a` and `b` separated by whitespace and a binary operator
symbol `op`, the text `a b op` is parsed to `a b op`, and for `op` among
`* / % ^` so is the text `op a b`; `calculate` then returns
`applyOperator op a b`, which is never InvalidInput. -/
theorem c21_adjacency_not_checked {V : Type} (F : FloatOps V) (a b gap w : String)
    (op : Char) (va vb : V)
    (ha : isNumericLiteral a = true) (hb : isNumericLiteral b = true)
    (hva : F.stod a = some va) (hvb : F.stod b = some vb)
    (hgap : isBlank gap = true) (hne : gap.data ≠ []) (hw : isBlank w = true)
    (hop : op ∈ binarySymbols) :
    (parseToPostfix F (a ++ gap ++ b ++ w ++ String.singleton op) =
        .ok [numberToken a va, numberToken b vb, operatorToken F (String.singleton op)] ∧
      calculate F (a ++ gap ++ b ++ w ++ String.singleton op) =
        applyOperator F (String.singleton op) va vb) ∧
    (op ∈ ['*', '/', '%', '^'] →
      parseToPostfix F (String.singleton op ++ w ++ a ++ gap ++ b) =
        .ok [numberToken a va, numberToken b vb, operatorToken F (String.singleton op)] ∧
      calculate F (String.singleton op ++ w ++ a ++ gap ++ b) =
        applyOperator F (String.singleton op) va vb) ∧
    ((∃ r, applyOperator F (String.singleton op) va vb = .ok r) ∨
      (∃ message, applyOperator F (String.singleton op) va vb =
        .error (.MathDomain message))) := by
  have hane := isNumericLiteral_ne a ha
  refine ⟨?_, ?_, ?_⟩
  · have hp := parse_postfix_form F a b gap w op va vb ha hb hva hvb hgap hne hw hop
    refine ⟨hp, ?_⟩
    rw [calculate_of_parse F _ _ (by simp [String.data_append, hane]) hp]
    exact evaluate_pair F a b va vb op hop
  · intro hop4
    have hp := parse_prefix_form F a b gap w op va vb ha hb hva hvb hgap hne hw hop4
    refine ⟨hp, ?_⟩
    rw [calculate_of_parse F _ _ (by simp [String.data_append, String.singleton]) hp]
    exact evaluate_pair F a b va vb op hop
  · exact applyOperator_binary F (String.singleton op) va vb
      (by rw [lookup_singleton]; exact decide_eq_true hop) (singleton_ne_neg op)

/-- Witness of C21 in exact arithmetic: `2 3 +` is 5 and `* 2 3` is 6. -/
theorem c21_adjacency_not_checked_witness :
    (parseToPostfix Exact.ops "2 3 +" =
        .ok [numberToken "2" 2, numberToken "3" 3, operatorToken Exact.ops "+"] ∧
      calculate Exact.ops "2 3 +" = .ok 5) ∧
    (parseToPostfix Exact.ops "* 2 3" =
        .ok [numberToken "2" 2, numberToken "3" 3, operatorToken Exact.ops "*"] ∧
      calculate Exact.ops "* 2 3" = .ok 6) := by
  have h1 := c21_adjacency_not_checked Exact.ops "2" "3" " " " " '+' 2 3
    (by decide) (by decide) (by decide) (by decide) (by decide) (by decide) (by decide)
    (by decide)
  have h2 := c21_adjacency_not_checked Exact.ops "2" "3" " " " " '*' 2 3
    (by decide) (by decide) (by decide) (by decide) (by decide) (by decide) (by decide)
    (by decide)
  refine ⟨⟨h1.1.1, h1.1.2.trans ?_⟩, ⟨(h2.2.1 (by decide)).1, (h2.2.1 (by decide)).2.trans ?_⟩⟩
  · simp [applyOperator, String.singleton, String.ext_iff, Exact.ops]
    norm_num
  · simp [applyOperator, String.singleton, String.ext_iff, Exact.ops]
    norm_num

end sci_calc
